import Mathlib

/-! Streaming front end of `coqui_stt/src/stt.cc`.

A shallow embedding of the streaming pipeline of `stt.cc` (with the declarations of
`stt.h` and `modelstate.h`) and proofs of its contract.

Modelling conventions.

* `float` and `double` values are rationals (`ℚ`).  The only arithmetic `stt.cc` itself
  performs on them is the multiplication of a 16-bit sample by `1.0f / (1 << 15)`, which is
  exact in single precision; the widening to `double` in `processBatch` is exact as well.
* `unsigned int` and `size_t` quantities are natural numbers.  A product of two
  `unsigned int` values is taken modulo `2 ^ 32` (`u32_mul`), and a difference that is passed
  to the `int` parameter `max_elems` of `copy_up_to_n` is reduced to a signed 32-bit integer
  (`to_int`), as on the platforms where `unsigned int` and `int` have 32 bits.  `max_elems`
  itself is an integer (`ℤ`), so that a buffer longer than its capacity yields a negative
  value as it does in the source.  `ValidGeometry` bounds the geometry so that none of these
  operations wraps.
* `std::vector` is `List`; a `const short *` with its `buffer_size` is a `List ℤ`.
* The two virtual operations `compute_mfcc` and `infer` of `ModelState` are pure functions
  carried by the model.
* A `while` loop that need not terminate takes an iteration budget and returns
  `Res.diverge` when the budget is used up; a failed `assert` and an out-of-range iterator
  are `Res.fault`.
* `StreamingState.calls` is a ghost field: the log of the calls made so far to
  `compute_mfcc`, `processMfccWindow` and `infer`, in order.  No source statement reads it.
-/

namespace STT

/-! ## Outcomes -/

/-- Outcome of running a part of the pipeline: a result, a fault (failed `assert`,
iterator out of range, division by zero), or an exhausted iteration budget. -/
inductive Res (α : Type) where
  | ok (a : α) : Res α
  | fault : Res α
  | diverge : Res α
  deriving DecidableEq, Repr

/-- Sequencing of outcomes: the continuation runs on a result only. -/
def Res.bind {α β : Type} (r : Res α) (f : α → Res β) : Res β :=
  match r with
  | Res.ok a => f a
  | Res.fault => Res.fault
  | Res.diverge => Res.diverge

/-- A budgeted computation whose outcome, once it is not `diverge`, stays the same under
larger budgets. -/
def Res.Mono {α : Type} (f : Nat → Res α) : Prop :=
  ∀ (N N1 : Nat) (r : Res α), N ≤ N1 → f N = r → r ≠ Res.diverge → f N1 = r

/-! ## Data model (`modelstate.h`, `stt.h`) -/

/-- Error codes of `modelstate.h` used by `stt.cc`. -/
def STT_ERR_OK : Nat := 0x0000

/-- Error code `STT_ERR_NO_MODEL` of `modelstate.h`. -/
def STT_ERR_NO_MODEL : Nat := 0x1000

/-- Error code `STT_ERR_FAIL_CREATE_MODEL` of `modelstate.h`. -/
def STT_ERR_FAIL_CREATE_MODEL : Nat := 0x3007

/-- The struct `ModelState` of `modelstate.h`: the geometry, whose fields are `unsigned int`,
and the two virtual operations.
`alphabet_size` stands for `alphabet_.GetSize()`; `infer` returns
`(logits_output, state_c_output, state_h_output)`. -/
structure ModelState where
  alphabet_size : Nat
  n_steps_ : Nat
  n_context_ : Nat
  n_features_ : Nat
  mfcc_feats_per_timestep_ : Nat
  sample_rate_ : Nat
  audio_win_len_ : Nat
  audio_win_step_ : Nat
  state_size_ : Nat
  compute_mfcc : List ℚ → List ℚ
  infer : List ℚ → Nat → List ℚ → List ℚ → List ℚ × List ℚ × List ℚ

/-- The constant `ModelState::BATCH_SIZE`. -/
def ModelState.BATCH_SIZE : Nat := 1

/-- One entry of the call log. -/
inductive Call where
  | compute_mfcc (audio_buffer : List ℚ) : Call
  | processMfccWindow (buf : List ℚ) : Call
  | infer (mfcc : List ℚ) (n_frames : Nat) (previous_state_c previous_state_h : List ℚ) : Call
  deriving DecidableEq, Repr

/-- The struct `StreamingState` of `stt.h`.  The pointer `model_` is assigned once, by
`STT_CreateStream`, and never again; the methods below take the model as their argument `m`.
`calls` is the ghost call log. -/
structure StreamingState where
  audio_buffer_ : List ℚ
  mfcc_buffer_ : List ℚ
  batch_buffer_ : List ℚ
  previous_state_c_ : List ℚ
  previous_state_h_ : List ℚ
  probs_ : List (List ℚ)
  calls : List Call
  deriving DecidableEq, Repr

/-- A stream handle (`StreamingState *`): the model the stream is bound to and its state. -/
structure Stream where
  model_ : ModelState
  state : StreamingState

/-! ## The pipeline (`stt.cc`) -/

/-- The product of two `unsigned int` values: the product modulo `2 ^ 32`. -/
def u32_mul (a b : Nat) : Nat := (a * b) % 4294967296

/-- The conversion to `int` of a difference computed in `size_t`: the value modulo `2 ^ 32`,
read as a signed 32-bit integer, between `-2 ^ 31` and `2 ^ 31 - 1`. -/
def to_int (z : ℤ) : ℤ := (z + 2147483648) % 4294967296 - 2147483648

/-- `shift_buffer_left(buf, shift_amount)`: rotate left by `shift_amount`, then resize to
`size - shift_amount`.  A shift beyond the end of the buffer is a fault. -/
def shift_buffer_left (buf : List ℚ) (shift_amount : Nat) : Res (List ℚ) :=
  if shift_amount ≤ buf.length then
    Res.ok ((buf.rotate shift_amount).take (buf.length - shift_amount))
  else Res.fault

/-- `copy_up_to_n(from_begin, from_end, to_begin, max_elems)` with `to_begin` a back inserter
of `dest`: returns the destination after the copy and the range that is left.  `copy_n` with a
count that is not positive copies nothing. -/
def copy_up_to_n (src dest : List ℚ) (max_elems : ℤ) : List ℚ × List ℚ :=
  let next_copy_amount : ℤ := min (src.length : ℤ) max_elems
  (dest ++ src.take next_copy_amount.toNat, src.drop next_copy_amount.toNat)

/-- The loop of `processBatch` over `logits`.  `frame_probs` is the index in `probs_` of the
frame pointed to, `none` for `nullptr`. -/
def processBatch_loop (num_classes : Nat) :
    List ℚ → Bool → Option Nat → List (List ℚ) → List (List ℚ)
  | [], _, _, probs => probs
  | x :: logits_iter, new_frame, frame_probs, probs =>
    let probs1 := if new_frame then probs ++ [[]] else probs
    let frame_probs1 := if new_frame then some (probs1.length - 1) else frame_probs
    match frame_probs1 with
    | none => probs1
    | some i =>
      let probs2 := probs1.set i (probs1.getD i [] ++ [x])
      let new_frame2 := decide ((probs2.getD i []).length = num_classes)
      processBatch_loop num_classes logits_iter new_frame2 frame_probs1 probs2

/-- `StreamingState::processBatch(buf, n_steps)`: one call of `infer`, whose states overwrite
`previous_state_c_` and `previous_state_h_`, then the logits are cut into frames.  The local
`n_frames` of the source is never read. -/
def processBatch (m : ModelState) (s : StreamingState) (buf : List ℚ) (n_steps : Nat) :
    StreamingState :=
  let out := m.infer buf n_steps s.previous_state_c_ s.previous_state_h_
  let num_classes := m.alphabet_size + 1
  { s with
    previous_state_c_ := out.2.1
    previous_state_h_ := out.2.2
    probs_ := processBatch_loop num_classes out.1 true none s.probs_
    calls := s.calls ++ [Call.infer buf n_steps s.previous_state_c_ s.previous_state_h_] }

/-- The loop of `processMfccWindow` over the range `start .. end`, with an iteration budget.
The capacity `n_steps_ * mfcc_feats_per_timestep_` is a product of two `unsigned int`; the
room left, computed in `size_t`, is converted to the `int` parameter of `copy_up_to_n`. -/
def processMfccWindow_loop (m : ModelState) :
    Nat → StreamingState → List ℚ → Res StreamingState
  | _, s, [] => Res.ok s
  | 0, _, _ :: _ => Res.diverge
  | fuel + 1, s, x :: xs =>
    let r := copy_up_to_n (x :: xs) s.batch_buffer_
      (to_int (((u32_mul m.n_steps_ m.mfcc_feats_per_timestep_ : Nat) : ℤ)
        - (s.batch_buffer_.length : ℤ)))
    if r.1.length ≤ u32_mul m.n_steps_ m.mfcc_feats_per_timestep_ then
      if r.1.length = u32_mul m.n_steps_ m.mfcc_feats_per_timestep_ then
        processMfccWindow_loop m fuel
          { processBatch m { s with batch_buffer_ := r.1 } r.1 m.n_steps_ with
            batch_buffer_ := [] } r.2
      else
        processMfccWindow_loop m fuel { s with batch_buffer_ := r.1 } r.2
    else Res.fault

/-- `StreamingState::processMfccWindow(buf)`; `N` is the iteration budget of its loop. -/
def processMfccWindow (N : Nat) (m : ModelState) (s : StreamingState) (buf : List ℚ) :
    Res StreamingState :=
  processMfccWindow_loop m N { s with calls := s.calls ++ [Call.processMfccWindow buf] } buf

/-- The loop of `pushMfccBuffer` over the range `start .. end`; `N` is the budget handed to
the nested loops, the first argument after the model the budget of this one.  The room left,
computed in `size_t`, is converted to the `int` parameter of `copy_up_to_n`. -/
def pushMfccBuffer_loop (N : Nat) (m : ModelState) :
    Nat → StreamingState → List ℚ → Res StreamingState
  | _, s, [] => Res.ok s
  | 0, _, _ :: _ => Res.diverge
  | fuel + 1, s, x :: xs =>
    let r := copy_up_to_n (x :: xs) s.mfcc_buffer_
      (to_int ((m.mfcc_feats_per_timestep_ : ℤ) - (s.mfcc_buffer_.length : ℤ)))
    if r.1.length ≤ m.mfcc_feats_per_timestep_ then
      if r.1.length = m.mfcc_feats_per_timestep_ then
        (processMfccWindow N m { s with mfcc_buffer_ := r.1 } r.1).bind fun s1 =>
        (shift_buffer_left s1.mfcc_buffer_ m.n_features_).bind fun b =>
        pushMfccBuffer_loop N m fuel { s1 with mfcc_buffer_ := b } r.2
      else
        pushMfccBuffer_loop N m fuel { s with mfcc_buffer_ := r.1 } r.2
    else Res.fault

/-- `StreamingState::pushMfccBuffer(buf)`. -/
def pushMfccBuffer (N : Nat) (m : ModelState) (s : StreamingState) (buf : List ℚ) :
    Res StreamingState :=
  pushMfccBuffer_loop N m N s buf

/-- `StreamingState::processAudioWindow(buf)`: `compute_mfcc`, then `pushMfccBuffer`. -/
def processAudioWindow (N : Nat) (m : ModelState) (s : StreamingState) (buf : List ℚ) :
    Res StreamingState :=
  pushMfccBuffer N m { s with calls := s.calls ++ [Call.compute_mfcc buf] } (m.compute_mfcc buf)

/-- `StreamingState::addZeroMfccWindow()`. -/
def addZeroMfccWindow (N : Nat) (m : ModelState) (s : StreamingState) : Res StreamingState :=
  pushMfccBuffer N m s (List.replicate m.n_features_ (0 : ℚ))

/-- The conversion of a sample in `feedAudioContent`: `(float)(*buffer) * multiplier` with
`multiplier = 1.0f / (1 << 15)`. -/
def sample_to_float (x : ℤ) : ℚ :=
  let multiplier : ℚ := 1 / (((1 <<< 15 : Nat) : ℚ))
  (x : ℚ) * multiplier

/-- The inner loop of `feedAudioContent`: samples are converted and appended while there are
samples left and the audio buffer is shorter than the window. -/
def feedAudioContent_inner (m : ModelState) : List ℚ → List ℤ → List ℚ × List ℤ
  | audio, [] => (audio, [])
  | audio, x :: buffer =>
    if audio.length < m.audio_win_len_ then
      feedAudioContent_inner m (audio ++ [sample_to_float x]) buffer
    else (audio, x :: buffer)

/-- The outer loop of `feedAudioContent`, with an iteration budget. -/
def feedAudioContent_loop (N : Nat) (m : ModelState) :
    Nat → StreamingState → List ℤ → Res StreamingState
  | _, s, [] => Res.ok s
  | 0, _, _ :: _ => Res.diverge
  | fuel + 1, s, x :: buffer =>
    let r := feedAudioContent_inner m s.audio_buffer_ (x :: buffer)
    if r.1.length = m.audio_win_len_ then
      (processAudioWindow N m { s with audio_buffer_ := r.1 } r.1).bind fun s1 =>
      (shift_buffer_left s1.audio_buffer_ m.audio_win_step_).bind fun b =>
      feedAudioContent_loop N m fuel { s1 with audio_buffer_ := b } r.2
    else
      feedAudioContent_loop N m fuel { s with audio_buffer_ := r.1 } r.2

/-- `StreamingState::feedAudioContent(buffer, buffer_size)`. -/
def feedAudioContent (N : Nat) (m : ModelState) (s : StreamingState) (buffer : List ℤ) :
    Res StreamingState :=
  feedAudioContent_loop N m N s buffer

/-- The `for` loop of `flushBuffers`: `count` calls of `addZeroMfccWindow`. -/
def flushBuffers_zeros (N : Nat) (m : ModelState) : Nat → StreamingState → Res StreamingState
  | 0, s => Res.ok s
  | count + 1, s => (addZeroMfccWindow N m s).bind fun s1 => flushBuffers_zeros N m count s1

/-- The last statement of `flushBuffers`: a non-empty batch buffer is dispatched with
`batch_buffer_.size() / mfcc_feats_per_timestep_` frames and emptied. -/
def flushBuffers_batch (m : ModelState) (s : StreamingState) : Res StreamingState :=
  if s.batch_buffer_.length > 0 then
    if m.mfcc_feats_per_timestep_ = 0 then Res.fault
    else
      Res.ok { processBatch m s s.batch_buffer_
                 (s.batch_buffer_.length / m.mfcc_feats_per_timestep_) with
               batch_buffer_ := [] }
  else Res.ok s

/-- The first two statements of `flushBuffers`: the audio buffer is processed as it is, then
the zero vectors are pushed. -/
def flushBuffers_push (N : Nat) (m : ModelState) (s : StreamingState)
    (addZeroMfccVectors : Bool) : Res StreamingState :=
  (processAudioWindow N m s s.audio_buffer_).bind fun s1 =>
  if addZeroMfccVectors then flushBuffers_zeros N m m.n_context_ s1 else Res.ok s1

/-- `StreamingState::flushBuffers(addZeroMfccVectors)`. -/
def flushBuffers (N : Nat) (m : ModelState) (s : StreamingState)
    (addZeroMfccVectors : Bool) : Res StreamingState :=
  (flushBuffers_push N m s addZeroMfccVectors).bind fun s2 => flushBuffers_batch m s2

/-- `StreamingState::finishStream()`. -/
def finishStream (N : Nat) (m : ModelState) (s : StreamingState) : Res StreamingState :=
  flushBuffers N m s true

/-- `STT_CreateStream(aCtx)`; `none` is the null pointer.  The size given to
`mfcc_buffer_.resize` is a product of two `unsigned int`. -/
def STT_CreateStream (aCtx : Option ModelState) : Option Stream :=
  match aCtx with
  | none => none
  | some ctx =>
    some
      { model_ := ctx
        state :=
          { audio_buffer_ := []
            mfcc_buffer_ := List.replicate (u32_mul ctx.n_features_ ctx.n_context_) (0 : ℚ)
            batch_buffer_ := []
            previous_state_c_ := List.replicate ctx.state_size_ (0 : ℚ)
            previous_state_h_ := List.replicate ctx.state_size_ (0 : ℚ)
            probs_ := []
            calls := [] } }

/-- `STT_FeedAudioContent(aSctx, aBuffer, aBufferSize)`. -/
def STT_FeedAudioContent (N : Nat) (aSctx : Stream) (aBuffer : List ℤ) : Res Stream :=
  (feedAudioContent N aSctx.model_ aSctx.state aBuffer).bind fun s =>
    Res.ok { aSctx with state := s }

/-- `STT_FinishStream(aSctx)`: the stream after `finishStream` and the reference to its
`probs_`. -/
def STT_FinishStream (N : Nat) (aSctx : Stream) : Res (Stream × List (List ℚ)) :=
  (finishStream N aSctx.model_ aSctx.state).bind fun s =>
    Res.ok ({ aSctx with state := s }, s.probs_)

/-- The outcome of `CreateModelImpl`: the error code returned, the handle left in `*retval`
(`none` for `nullptr`), and, as a ghost field, the arguments of the calls made to the model's
`init`. -/
structure CreateModelResult where
  err : ℤ
  retval : Option ModelState
  init_calls : List (String × Bool × Nat)

/-- `CreateModelImpl(aModelString, init_from_bytes, retval, aBufferSize)`.  The class
`TFLiteModelState` is not part of the sources: `newModel` stands for the object built by
`new TFLiteModelState()` and `init` for its virtual `init`, which returns the error code and
the model as initialised.  `new` does not return a null pointer, so the pointer tested by
`if (!model)` is `some newModel`.  `strlen` is the length of the string. -/
def CreateModelImpl (newModel : ModelState)
    (init : ModelState → String → Bool → Nat → ℤ × ModelState)
    (aModelString : String) (init_from_bytes : Bool) (aBufferSize : Nat) :
    CreateModelResult :=
  if (!init_from_bytes && aModelString.length == 0) || (init_from_bytes && aBufferSize == 0)
  then { err := (STT_ERR_NO_MODEL : ℤ), retval := none, init_calls := [] }
  else
    match (some newModel : Option ModelState) with
    | none => { err := (STT_ERR_FAIL_CREATE_MODEL : ℤ), retval := none, init_calls := [] }
    | some model =>
      if (init model aModelString init_from_bytes aBufferSize).1 ≠ (STT_ERR_OK : ℤ) then
        { err := (init model aModelString init_from_bytes aBufferSize).1
          retval := none
          init_calls := [(aModelString, init_from_bytes, aBufferSize)] }
      else
        { err := (STT_ERR_OK : ℤ)
          retval := some (init model aModelString init_from_bytes aBufferSize).2
          init_calls := [(aModelString, init_from_bytes, aBufferSize)] }

/-- `STT_CreateModel(aModelPath)`; the default `aBufferSize` of `CreateModelImpl` is `0`. -/
def STT_CreateModel (newModel : ModelState)
    (init : ModelState → String → Bool → Nat → ℤ × ModelState) (aModelPath : String) :
    Option ModelState :=
  if (CreateModelImpl newModel init aModelPath false 0).err ≠ (STT_ERR_OK : ℤ) then none
  else (CreateModelImpl newModel init aModelPath false 0).retval

/-- `STT_CreateModelFromBuffer(aModelBuffer, aBufferSize, retval)`. -/
def STT_CreateModelFromBuffer (newModel : ModelState)
    (init : ModelState → String → Bool → Nat → ℤ × ModelState) (aModelBuffer : String)
    (aBufferSize : Nat) : CreateModelResult :=
  CreateModelImpl newModel init aModelBuffer true aBufferSize

/-! ## Drivers

Sequences of calls made by a client of the stream; they are used to state properties of
several calls in a row. -/

/-- A sequence of `feedAudioContent` calls, one for each chunk. -/
def feedAll (N : Nat) (m : ModelState) : StreamingState → List (List ℤ) → Res StreamingState
  | s, [] => Res.ok s
  | s, c :: cs => (feedAudioContent N m s c).bind fun s1 => feedAll N m s1 cs

/-- A sequence of `pushMfccBuffer` calls, one for each feature vector. -/
def pushAll (N : Nat) (m : ModelState) : StreamingState → List (List ℚ) → Res StreamingState
  | s, [] => Res.ok s
  | s, f :: fs => (pushMfccBuffer N m s f).bind fun s1 => pushAll N m s1 fs

/-! ## The scenario model of the specification -/

/-- The geometry of the concrete scenarios: `audio_win_len = 4`, `audio_win_step = 2`,
`n_features = 2`, `n_context = 1`, `mfcc_feats_per_timestep = 6`, `n_steps = 2`,
`state_size = 2`, `alphabet_size + 1 = 6`, with `compute_mfcc` the mean of the window repeated
`n_features` times and `infer` returning its batch as the logits and the states unchanged. -/
def scenarioModel : ModelState :=
  { alphabet_size := 5
    n_steps_ := 2
    n_context_ := 1
    n_features_ := 2
    mfcc_feats_per_timestep_ := 6
    sample_rate_ := 16000
    audio_win_len_ := 4
    audio_win_step_ := 2
    state_size_ := 2
    compute_mfcc := fun w => List.replicate 2 (w.sum / (w.length : ℚ))
    infer := fun batch _ c h => (batch, c, h) }

/-- The scenario model with the `infer` stub of the state-threading scenario, which returns
`previous_state_c` plus one as the next `c` state. -/
def counterModel : ModelState :=
  { scenarioModel with infer := fun batch _ c h => (batch, c.map (fun x => x + 1), h) }

/-- The state of a stream just created on `m` by `STT_CreateStream`. -/
def freshState (m : ModelState) : StreamingState :=
  { audio_buffer_ := []
    mfcc_buffer_ := List.replicate (u32_mul m.n_features_ m.n_context_) (0 : ℚ)
    batch_buffer_ := []
    previous_state_c_ := List.replicate m.state_size_ (0 : ℚ)
    previous_state_h_ := List.replicate m.state_size_ (0 : ℚ)
    probs_ := []
    calls := [] }

/-! ## Reading the call log -/

/-- The windows passed to `compute_mfcc` according to a call log, in order. -/
def Call.windows (calls : List Call) : List (List ℚ) :=
  calls.filterMap fun c =>
    match c with
    | Call.compute_mfcc w => some w
    | _ => none

/-- The timestep rows passed to `processMfccWindow` according to a call log, in order. -/
def Call.rows (calls : List Call) : List (List ℚ) :=
  calls.filterMap fun c =>
    match c with
    | Call.processMfccWindow row => some row
    | _ => none

/-- The `n_frames` arguments of the `infer` calls of a call log, in order. -/
def Call.frames (calls : List Call) : List Nat :=
  calls.filterMap fun c =>
    match c with
    | Call.infer _ n _ _ => some n
    | _ => none

/-- The number of full windows in `n` samples: `0` if `n < len`, else
`(n - len) / step + 1`. -/
def windowCount (len step n : Nat) : Nat :=
  if n < len then 0 else (n - len) / step + 1

/-! ## Predicates used in the statements -/

/-- The geometry constraints of the data model: `1 ≤ audio_win_step ≤ audio_win_len`,
`n_features ≥ 1`, `n_steps ≥ 1` and
`mfcc_feats_per_timestep = n_features * (2 * n_context + 1)`; and the batch capacity
`n_steps * mfcc_feats_per_timestep` is below `2 ^ 31`, so that neither the 32-bit products
nor the conversions to `int` of `stt.cc` wrap. -/
def ValidGeometry (m : ModelState) : Prop :=
  1 ≤ m.audio_win_step_ ∧ m.audio_win_step_ ≤ m.audio_win_len_ ∧ 1 ≤ m.n_features_ ∧
    1 ≤ m.n_steps_ ∧ m.mfcc_feats_per_timestep_ = m.n_features_ * (2 * m.n_context_ + 1) ∧
    m.n_steps_ * m.mfcc_feats_per_timestep_ < 2 ^ 31

instance (m : ModelState) : Decidable (ValidGeometry m) :=
  inferInstanceAs (Decidable
    (1 ≤ m.audio_win_step_ ∧ m.audio_win_step_ ≤ m.audio_win_len_ ∧ 1 ≤ m.n_features_ ∧
      1 ≤ m.n_steps_ ∧ m.mfcc_feats_per_timestep_ = m.n_features_ * (2 * m.n_context_ + 1) ∧
      m.n_steps_ * m.mfcc_feats_per_timestep_ < 2 ^ 31))

/-- The MFCC buffer and the batch buffer are strictly below their capacities. -/
def WithinCapacity (m : ModelState) (s : StreamingState) : Prop :=
  s.mfcc_buffer_.length < m.mfcc_feats_per_timestep_ ∧
    s.batch_buffer_.length < m.n_steps_ * m.mfcc_feats_per_timestep_

instance (m : ModelState) (s : StreamingState) : Decidable (WithinCapacity m s) :=
  inferInstanceAs (Decidable
    (s.mfcc_buffer_.length < m.mfcc_feats_per_timestep_ ∧
      s.batch_buffer_.length < m.n_steps_ * m.mfcc_feats_per_timestep_))

/-- The bookkeeping of timesteps: the batch buffer holds whole rows, fewer than `n_steps_`;
the frames dispatched to `infer` so far and the rows pending in the batch buffer account for
all the rows passed to `processMfccWindow`; and `probs_` has one frame for each timestep
dispatched. -/
def Accounted (m : ModelState) (s : StreamingState) : Prop :=
  (∃ j, j < m.n_steps_ ∧ s.batch_buffer_.length = j * m.mfcc_feats_per_timestep_) ∧
    (Call.frames s.calls).sum * m.mfcc_feats_per_timestep_ + s.batch_buffer_.length =
      (Call.rows s.calls).length * m.mfcc_feats_per_timestep_ ∧
    s.probs_.length = (Call.frames s.calls).sum

/-- The `infer` calls of the log are threaded from the states `(c, h)`: the first one
receives `c` and `h`, and each later one the states returned by the one before it. -/
def Call.threaded (m : ModelState) : List ℚ → List ℚ → List Call → Prop
  | _, _, [] => True
  | c, h, Call.infer b n c1 h1 :: rest =>
    c1 = c ∧ h1 = h ∧ Call.threaded m (m.infer b n c1 h1).2.1 (m.infer b n c1 h1).2.2 rest
  | c, h, Call.compute_mfcc _ :: rest => Call.threaded m c h rest
  | c, h, Call.processMfccWindow _ :: rest => Call.threaded m c h rest

/-- The states returned by the last `infer` call of the log, `(c, h)` if it has none. -/
def Call.lastStates (m : ModelState) : List ℚ → List ℚ → List Call → List ℚ × List ℚ
  | c, h, [] => (c, h)
  | _, _, Call.infer b n c1 h1 :: rest =>
    Call.lastStates m (m.infer b n c1 h1).2.1 (m.infer b n c1 h1).2.2 rest
  | c, h, Call.compute_mfcc _ :: rest => Call.lastStates m c h rest
  | c, h, Call.processMfccWindow _ :: rest => Call.lastStates m c h rest

/-- The stacking of the feature vectors `F` pushed so far on a stream that was created
fresh: with `P` the `n_context_` zero vectors followed by `F`, the rows passed to
`processMfccWindow` are the windows of `2 * n_context_ + 1` consecutive vectors of `P`, in
order, and the MFCC buffer holds the last `2 * n_context_` vectors of `P` (all of `P` while it
has fewer). -/
def Stacked (m : ModelState) (F : List (List ℚ)) (s : StreamingState) : Prop :=
  Call.rows s.calls =
      (List.range (F.length - m.n_context_)).map (fun j =>
        (((List.replicate m.n_context_ (List.replicate m.n_features_ (0 : ℚ)) ++ F).drop
          j).take (2 * m.n_context_ + 1)).flatten) ∧
    s.mfcc_buffer_ =
      ((List.replicate m.n_context_ (List.replicate m.n_features_ (0 : ℚ)) ++ F).drop
        (F.length - m.n_context_)).flatten

/-- The batches passed to `infer` according to a call log, in order. -/
def Call.batches (calls : List Call) : List (List ℚ) :=
  calls.filterMap fun c =>
    match c with
    | Call.infer b _ _ _ => some b
    | _ => none

/-- The batching before the finish: the batch buffer holds whole rows, fewer than `n_steps_`;
every `infer` call so far had `n_frames = n_steps_` and a batch of
`n_steps_ * mfcc_feats_per_timestep_` values; every row has `mfcc_feats_per_timestep_` values;
and the batches dispatched followed by the batch buffer are the rows in order, so that no row
is split between two batches. -/
def FullBatches (m : ModelState) (s : StreamingState) : Prop :=
  (∃ j, j < m.n_steps_ ∧ s.batch_buffer_.length = j * m.mfcc_feats_per_timestep_) ∧
    (∀ c ∈ s.calls, ∀ b n c1 h1, c = Call.infer b n c1 h1 →
      n = m.n_steps_ ∧ b.length = m.n_steps_ * m.mfcc_feats_per_timestep_) ∧
    (∀ r ∈ Call.rows s.calls, r.length = m.mfcc_feats_per_timestep_) ∧
    (Call.batches s.calls).flatten ++ s.batch_buffer_ = (Call.rows s.calls).flatten

/-- The entries appended to the call log after the point `base` hold no window passed to
`compute_mfcc`, and the audio buffer is `audio`. -/
def LogTail (base : List Call) (audio : List ℚ) (s : StreamingState) : Prop :=
  (∃ rest, s.calls = base ++ rest ∧ Call.windows rest = []) ∧ s.audio_buffer_ = audio

/-! ## Basic facts -/

@[simp] theorem Res.ok_bind {α β : Type} (a : α) (f : α → Res β) : (Res.ok a).bind f = f a := rfl
@[simp] theorem Res.fault_bind {α β : Type} (f : α → Res β) : (Res.fault : Res α).bind f = Res.fault := rfl
@[simp] theorem Res.diverge_bind {α β : Type} (f : α → Res β) :
    (Res.diverge : Res α).bind f = Res.diverge := rfl

theorem Res.bind_eq_ok {α β : Type} {r : Res α} {f : α → Res β} {b : β} :
    r.bind f = Res.ok b ↔ ∃ a, r = Res.ok a ∧ f a = Res.ok b := by
  cases r <;> simp

theorem Res.bind_assoc {α β γ : Type} (r : Res α) (f : α → Res β) (g : β → Res γ) :
    (r.bind f).bind g = r.bind fun a => (f a).bind g := by
  cases r <;> simp

/-- Raising budgets keeps a bind that did not diverge. -/
theorem Res.bind_mono {α β : Type} {r r1 : Res α} {f f1 : α → Res β} {out : Res β}
    (h : r.bind f = out) (hd : out ≠ Res.diverge)
    (hr : r ≠ Res.diverge → r1 = r)
    (hf : ∀ a, r = Res.ok a → f a = out → f1 a = out) : r1.bind f1 = out := by
  cases r with
  | ok a =>
    have := hr (by simp)
    subst this
    simp at h ⊢
    exact hf a rfl h
  | fault =>
    have := hr (by simp)
    subst this
    simpa using h
  | diverge =>
    simp at h
    exact absurd h.symm hd

theorem shift_buffer_left_eq (buf : List ℚ) (k : Nat) (h : k ≤ buf.length) :
    shift_buffer_left buf k = Res.ok (buf.drop k) := by
  unfold shift_buffer_left
  rw [if_pos h]
  congr 1
  rcases Nat.lt_or_ge k buf.length with hlt | hge
  · rw [List.rotate_eq_drop_append_take (Nat.le_of_lt hlt)]
    rw [List.take_append_of_le_length (by simp)]
    simp
  · have : k = buf.length := Nat.le_antisymm h hge
    subst this
    simp

theorem shift_buffer_left_fault (buf : List ℚ) (k : Nat) (h : buf.length < k) :
    shift_buffer_left buf k = Res.fault := by
  unfold shift_buffer_left
  rw [if_neg (by omega)]

theorem shift_buffer_left_ne_diverge (buf : List ℚ) (k : Nat) :
    shift_buffer_left buf k ≠ Res.diverge := by
  unfold shift_buffer_left
  split <;> simp

/-- With room for `c` more elements, `copy_up_to_n` moves the first `min |src| c`. -/
theorem copy_up_to_n_eq (src dest : List ℚ) (cap : Nat) (h : dest.length ≤ cap) :
    copy_up_to_n src dest ((cap : ℤ) - (dest.length : ℤ)) =
      (dest ++ src.take (cap - dest.length), src.drop (cap - dest.length)) := by
  unfold copy_up_to_n
  have h1 : ((cap : ℤ) - (dest.length : ℤ)) = ((cap - dest.length : Nat) : ℤ) := by omega
  rw [h1]
  simp only []
  rcases Nat.le_total src.length (cap - dest.length) with hle | hle
  · have : min (src.length : ℤ) ((cap - dest.length : Nat) : ℤ) = (src.length : ℤ) := by
      apply min_eq_left; exact_mod_cast hle
    rw [this]
    simp [List.take_of_length_le hle, List.drop_of_length_le hle]
  · have : min (src.length : ℤ) ((cap - dest.length : Nat) : ℤ) = ((cap - dest.length : Nat) : ℤ) := by
      apply min_eq_right; exact_mod_cast hle
    rw [this]
    simp

/-- A destination longer than its capacity is left as it is. -/
theorem copy_up_to_n_over (src dest : List ℚ) (cap : Nat) (h : cap < dest.length) :
    copy_up_to_n src dest ((cap : ℤ) - (dest.length : ℤ)) = (dest, src) := by
  unfold copy_up_to_n
  have : (min (src.length : ℤ) ((cap : ℤ) - (dest.length : ℤ))).toNat = 0 := by
    apply Int.toNat_eq_zero.mpr
    have : (cap : ℤ) - (dest.length : ℤ) < 0 := by omega
    exact le_trans (min_le_right _ _) (le_of_lt this)
  simp [this]

/-- A product below `2 ^ 32` is not changed by the 32-bit multiplication. -/
theorem u32_mul_eq (a b : Nat) (h : a * b < 2 ^ 32) : u32_mul a b = a * b :=
  Nat.mod_eq_of_lt h

/-- The room left below a capacity smaller than `2 ^ 31` is not changed by the conversion to
`int`, also when the buffer is above the capacity by at most `2 ^ 31`. -/
theorem to_int_sub (cap len : Nat) (h1 : cap < 2 ^ 31) (h2 : len ≤ cap + 2 ^ 31) :
    to_int ((cap : ℤ) - (len : ℤ)) = (cap : ℤ) - (len : ℤ) := by
  unfold to_int
  rw [Int.emod_eq_of_lt (by omega) (by omega)]
  omega

theorem ValidGeometry.feats_eq {m : ModelState} (hg : ValidGeometry m) :
    m.mfcc_feats_per_timestep_ = m.n_features_ * (2 * m.n_context_ + 1) :=
  hg.2.2.2.2.1

/-- Under a valid geometry the batch capacity is below `2 ^ 31`. -/
theorem ValidGeometry.no_wrap {m : ModelState} (hg : ValidGeometry m) :
    m.n_steps_ * m.mfcc_feats_per_timestep_ < 2 ^ 31 :=
  hg.2.2.2.2.2

theorem ValidGeometry.feats_lt {m : ModelState} (hg : ValidGeometry m) :
    m.mfcc_feats_per_timestep_ < 2 ^ 31 :=
  lt_of_le_of_lt (Nat.le_mul_of_pos_left _ hg.2.2.2.1) hg.no_wrap

/-- The number of zeros of a fresh MFCC buffer is below `2 ^ 32` when
`mfcc_feats_per_timestep_ = n_features_ * (2 * n_context_ + 1)` is below `2 ^ 31`. -/
theorem zeros_no_wrap (m : ModelState)
    (hfe : m.mfcc_feats_per_timestep_ = m.n_features_ * (2 * m.n_context_ + 1))
    (hfw : m.mfcc_feats_per_timestep_ < 2 ^ 31) :
    m.n_features_ * m.n_context_ < 2 ^ 32 := by
  have h1 : m.n_features_ * m.n_context_ ≤ m.n_features_ * (2 * m.n_context_ + 1) :=
    Nat.mul_le_mul_left _ (by omega)
  omega

theorem ValidGeometry.zeros_lt {m : ModelState} (hg : ValidGeometry m) :
    m.n_features_ * m.n_context_ < 2 ^ 32 :=
  zeros_no_wrap m hg.feats_eq hg.feats_lt

/-- With a batch buffer below a capacity that does not wrap, `mfcc_feats_per_timestep_` is
below `2 ^ 31`. -/
theorem feats_lt_of_capacity (m : ModelState) (s : StreamingState)
    (hnw : m.n_steps_ * m.mfcc_feats_per_timestep_ < 2 ^ 31)
    (hb : s.batch_buffer_.length < m.n_steps_ * m.mfcc_feats_per_timestep_) :
    m.mfcc_feats_per_timestep_ < 2 ^ 31 := by
  rcases Nat.eq_zero_or_pos m.n_steps_ with h | h
  · rw [h, Nat.zero_mul] at hb
    omega
  · exact lt_of_le_of_lt (Nat.le_mul_of_pos_left _ h) hnw

/-! ### One-step unfoldings of the loops -/

@[simp] theorem processMfccWindow_loop_nil (m : ModelState) (fuel : Nat) (s : StreamingState) :
    processMfccWindow_loop m fuel s [] = Res.ok s := by
  cases fuel <;> rfl

@[simp] theorem pushMfccBuffer_loop_nil (N : Nat) (m : ModelState) (fuel : Nat)
    (s : StreamingState) : pushMfccBuffer_loop N m fuel s [] = Res.ok s := by
  cases fuel <;> rfl

@[simp] theorem feedAudioContent_loop_nil (N : Nat) (m : ModelState) (fuel : Nat)
    (s : StreamingState) : feedAudioContent_loop N m fuel s [] = Res.ok s := by
  cases fuel <;> rfl

/-! ### Budgets are monotone -/

theorem processMfccWindow_loop_mono (m : ModelState) :
    ∀ (fuel fuel1 : Nat) (s : StreamingState) (rest : List ℚ) (r : Res StreamingState),
      fuel ≤ fuel1 → processMfccWindow_loop m fuel s rest = r → r ≠ Res.diverge →
      processMfccWindow_loop m fuel1 s rest = r := by
  intro fuel
  induction fuel with
  | zero =>
    intro fuel1 s rest r _ h hd
    cases rest with
    | nil => simpa using h
    | cons x xs => exact absurd h.symm hd
  | succ n ih =>
    intro fuel1 s rest r hle h hd
    cases rest with
    | nil => simpa using h
    | cons x xs =>
      obtain ⟨k, rfl⟩ : ∃ k, fuel1 = k + 1 := ⟨fuel1 - 1, by omega⟩
      have hk : n ≤ k := by omega
      simp only [processMfccWindow_loop] at h ⊢
      split_ifs at h ⊢ with h1 h2
      · exact ih _ _ _ _ hk h hd
      · exact ih _ _ _ _ hk h hd
      · exact h

theorem processMfccWindow_mono (m : ModelState) (N N1 : Nat) (s : StreamingState)
    (buf : List ℚ) (r : Res StreamingState) (hle : N ≤ N1)
    (h : processMfccWindow N m s buf = r) (hd : r ≠ Res.diverge) :
    processMfccWindow N1 m s buf = r :=
  processMfccWindow_loop_mono m N N1 _ buf r hle h hd

theorem pushMfccBuffer_loop_mono (m : ModelState) (N N1 : Nat) (hN : N ≤ N1) :
    ∀ (fuel fuel1 : Nat) (s : StreamingState) (rest : List ℚ) (r : Res StreamingState),
      fuel ≤ fuel1 → pushMfccBuffer_loop N m fuel s rest = r → r ≠ Res.diverge →
      pushMfccBuffer_loop N1 m fuel1 s rest = r := by
  intro fuel
  induction fuel with
  | zero =>
    intro fuel1 s rest r _ h hd
    cases rest with
    | nil => simpa using h
    | cons x xs => exact absurd h.symm hd
  | succ n ih =>
    intro fuel1 s rest r hle h hd
    cases rest with
    | nil => simpa using h
    | cons x xs =>
      obtain ⟨k, rfl⟩ : ∃ k, fuel1 = k + 1 := ⟨fuel1 - 1, by omega⟩
      have hk : n ≤ k := by omega
      simp only [pushMfccBuffer_loop] at h ⊢
      split_ifs at h ⊢ with h1 h2
      · refine Res.bind_mono h hd (fun hne => processMfccWindow_mono m N N1 _ _ _ hN rfl hne) ?_
        intro s1 _ h3
        refine Res.bind_mono h3 hd (fun _ => rfl) ?_
        intro b _ h4
        exact ih _ _ _ _ hk h4 hd
      · exact ih _ _ _ _ hk h hd
      · exact h

theorem pushMfccBuffer_mono (m : ModelState) (N N1 : Nat) (s : StreamingState)
    (buf : List ℚ) (r : Res StreamingState) (hle : N ≤ N1)
    (h : pushMfccBuffer N m s buf = r) (hd : r ≠ Res.diverge) :
    pushMfccBuffer N1 m s buf = r :=
  pushMfccBuffer_loop_mono m N N1 hle N N1 s buf r hle h hd

theorem processAudioWindow_mono (m : ModelState) (N N1 : Nat) (s : StreamingState)
    (buf : List ℚ) (r : Res StreamingState) (hle : N ≤ N1)
    (h : processAudioWindow N m s buf = r) (hd : r ≠ Res.diverge) :
    processAudioWindow N1 m s buf = r :=
  pushMfccBuffer_mono m N N1 _ _ r hle h hd

theorem feedAudioContent_loop_mono (m : ModelState) (N N1 : Nat) (hN : N ≤ N1) :
    ∀ (fuel fuel1 : Nat) (s : StreamingState) (rest : List ℤ) (r : Res StreamingState),
      fuel ≤ fuel1 → feedAudioContent_loop N m fuel s rest = r → r ≠ Res.diverge →
      feedAudioContent_loop N1 m fuel1 s rest = r := by
  intro fuel
  induction fuel with
  | zero =>
    intro fuel1 s rest r _ h hd
    cases rest with
    | nil => simpa using h
    | cons x xs => exact absurd h.symm hd
  | succ n ih =>
    intro fuel1 s rest r hle h hd
    cases rest with
    | nil => simpa using h
    | cons x xs =>
      obtain ⟨k, rfl⟩ : ∃ k, fuel1 = k + 1 := ⟨fuel1 - 1, by omega⟩
      have hk : n ≤ k := by omega
      simp only [feedAudioContent_loop] at h ⊢
      split_ifs at h ⊢ with h1
      · refine Res.bind_mono h hd (fun hne => processAudioWindow_mono m N N1 _ _ _ hN rfl hne) ?_
        intro s1 _ h3
        refine Res.bind_mono h3 hd (fun _ => rfl) ?_
        intro b _ h4
        exact ih _ _ _ _ hk h4 hd
      · exact ih _ _ _ _ hk h hd

theorem feedAudioContent_mono (m : ModelState) (N N1 : Nat) (s : StreamingState)
    (buf : List ℤ) (r : Res StreamingState) (hle : N ≤ N1)
    (h : feedAudioContent N m s buf = r) (hd : r ≠ Res.diverge) :
    feedAudioContent N1 m s buf = r :=
  feedAudioContent_loop_mono m N N1 hle N N1 s buf r hle h hd

theorem flushBuffers_zeros_mono (m : ModelState) (N N1 : Nat) (hN : N ≤ N1) :
    ∀ (count : Nat) (s : StreamingState) (r : Res StreamingState),
      flushBuffers_zeros N m count s = r → r ≠ Res.diverge →
      flushBuffers_zeros N1 m count s = r := by
  intro count
  induction count with
  | zero => intro s r h _; simpa [flushBuffers_zeros] using h
  | succ n ih =>
    intro s r h hd
    simp only [flushBuffers_zeros] at h ⊢
    refine Res.bind_mono h hd (fun hne => pushMfccBuffer_mono m N N1 _ _ _ hN rfl hne) ?_
    intro s1 _ h3
    exact ih _ _ h3 hd

theorem flushBuffers_push_mono (m : ModelState) (N N1 : Nat) (s : StreamingState) (z : Bool)
    (r : Res StreamingState) (hN : N ≤ N1)
    (h : flushBuffers_push N m s z = r) (hd : r ≠ Res.diverge) :
    flushBuffers_push N1 m s z = r := by
  unfold flushBuffers_push at h ⊢
  refine Res.bind_mono h hd (fun hne => processAudioWindow_mono m N N1 _ _ _ hN rfl hne) ?_
  intro s1 _ h3
  cases z with
  | false => simpa using h3
  | true =>
    simp only [if_true] at h3 ⊢
    exact flushBuffers_zeros_mono m N N1 hN _ _ _ h3 hd

theorem flushBuffers_mono (m : ModelState) (N N1 : Nat) (s : StreamingState) (z : Bool)
    (r : Res StreamingState) (hN : N ≤ N1)
    (h : flushBuffers N m s z = r) (hd : r ≠ Res.diverge) :
    flushBuffers N1 m s z = r := by
  unfold flushBuffers at h ⊢
  refine Res.bind_mono h hd (fun hne => flushBuffers_push_mono m N N1 _ _ _ hN rfl hne) ?_
  intro s2 _ h3
  exact h3

/-! ### The inner loop of `feedAudioContent` -/

@[simp] theorem feedAudioContent_inner_nil (m : ModelState) (audio : List ℚ) :
    feedAudioContent_inner m audio [] = (audio, []) := by
  unfold feedAudioContent_inner; rfl

theorem feedAudioContent_inner_cons_lt (m : ModelState) (audio : List ℚ) (x : ℤ)
    (xs : List ℤ) (h : audio.length < m.audio_win_len_) :
    feedAudioContent_inner m audio (x :: xs) =
      feedAudioContent_inner m (audio ++ [sample_to_float x]) xs := by
  conv_lhs => unfold feedAudioContent_inner
  rw [if_pos h]

theorem feedAudioContent_inner_full (m : ModelState) (audio : List ℚ) (b : List ℤ)
    (h : m.audio_win_len_ ≤ audio.length) : feedAudioContent_inner m audio b = (audio, b) := by
  cases b with
  | nil => simp
  | cons x xs =>
    unfold feedAudioContent_inner
    rw [if_neg (by omega)]

theorem feedAudioContent_inner_append_cons (m : ModelState) :
    ∀ (a : List ℤ) (audio : List ℚ) (b : List ℤ) (y : ℤ) (rest : List ℤ),
      (feedAudioContent_inner m audio a).2 = y :: rest →
      feedAudioContent_inner m audio (a ++ b) =
        ((feedAudioContent_inner m audio a).1, (feedAudioContent_inner m audio a).2 ++ b) := by
  intro a
  induction a with
  | nil => intro audio b y rest h; simp at h
  | cons x xs ih =>
    intro audio b y rest h
    simp only [List.cons_append]
    by_cases hlt : audio.length < m.audio_win_len_
    · rw [feedAudioContent_inner_cons_lt m _ _ _ hlt] at h ⊢
      rw [feedAudioContent_inner_cons_lt m _ _ _ hlt]
      exact ih _ b y rest h
    · rw [feedAudioContent_inner_full m _ _ (by omega),
        feedAudioContent_inner_full m _ _ (by omega)]
      simp

theorem feedAudioContent_inner_append_nil (m : ModelState) :
    ∀ (a : List ℤ) (audio : List ℚ) (b : List ℤ),
      (feedAudioContent_inner m audio a).2 = [] →
      feedAudioContent_inner m audio (a ++ b) =
        feedAudioContent_inner m (feedAudioContent_inner m audio a).1 b := by
  intro a
  induction a with
  | nil => intro audio b _; simp
  | cons x xs ih =>
    intro audio b h
    simp only [List.cons_append]
    by_cases hlt : audio.length < m.audio_win_len_
    · rw [feedAudioContent_inner_cons_lt m _ _ _ hlt] at h ⊢
      rw [feedAudioContent_inner_cons_lt m _ _ _ hlt]
      exact ih _ b h
    · rw [feedAudioContent_inner_full m _ _ (by omega)] at h
      simp at h

theorem feedAudioContent_loop_succ (N : Nat) (m : ModelState) (fuel : Nat)
    (s : StreamingState) (x : ℤ) (xs : List ℤ) :
    feedAudioContent_loop N m (fuel + 1) s (x :: xs) =
      if (feedAudioContent_inner m s.audio_buffer_ (x :: xs)).1.length = m.audio_win_len_ then
        (processAudioWindow N m
            { s with audio_buffer_ := (feedAudioContent_inner m s.audio_buffer_ (x :: xs)).1 }
            (feedAudioContent_inner m s.audio_buffer_ (x :: xs)).1).bind fun s1 =>
        (shift_buffer_left s1.audio_buffer_ m.audio_win_step_).bind fun b =>
        feedAudioContent_loop N m fuel { s1 with audio_buffer_ := b }
          (feedAudioContent_inner m s.audio_buffer_ (x :: xs)).2
      else
        feedAudioContent_loop N m fuel
          { s with audio_buffer_ := (feedAudioContent_inner m s.audio_buffer_ (x :: xs)).1 }
          (feedAudioContent_inner m s.audio_buffer_ (x :: xs)).2 := rfl

theorem list_nil_or_cons {α : Type} (l : List α) : l = [] ∨ ∃ y rest, l = y :: rest := by
  cases l <;> simp

/-! ### Re-chunking -/

/-- Feeding `a ++ b` in one call does what feeding `a` and then `b` does. -/
theorem feedAudioContent_loop_split (N : Nat) (m : ModelState) :
    ∀ (fuel : Nat) (s : StreamingState) (a b : List ℤ) (r : Res StreamingState),
      feedAudioContent_loop N m fuel s (a ++ b) = r → r ≠ Res.diverge →
      (feedAudioContent_loop N m fuel s a).bind
        (fun s1 => feedAudioContent_loop N m fuel s1 b) = r := by
  intro fuel
  induction fuel with
  | zero =>
    intro s a b r h hd
    cases a with
    | nil => simpa using h
    | cons x xs => exact absurd h.symm hd
  | succ n ih =>
    intro s a b r h hd
    cases a with
    | nil => simpa using h
    | cons x xs =>
      have hup : ∀ (s1 : StreamingState) (out : Res StreamingState),
          feedAudioContent_loop N m n s1 b = out → out ≠ Res.diverge →
          feedAudioContent_loop N m (n + 1) s1 b = out := fun s1 out h1 h2 =>
        feedAudioContent_loop_mono m N N (Nat.le_refl _) n (n + 1) s1 b out (by omega) h1 h2
      rw [List.cons_append, feedAudioContent_loop_succ] at h
      rw [feedAudioContent_loop_succ]
      rcases list_nil_or_cons (feedAudioContent_inner m s.audio_buffer_ (x :: xs)).2 with
        hA | ⟨y, rest, hA⟩
      · have hI := feedAudioContent_inner_append_nil m (x :: xs) s.audio_buffer_ b hA
        rw [List.cons_append] at hI
        rw [hI] at h
        by_cases hL : (feedAudioContent_inner m s.audio_buffer_ (x :: xs)).1.length
            = m.audio_win_len_
        · rw [feedAudioContent_inner_full m _ _ (by omega)] at h
          rw [if_pos hL] at h ⊢
          rw [Res.bind_assoc]
          refine Res.bind_mono h hd (fun _ => rfl) ?_
          intro s1 _ h1
          rw [Res.bind_assoc]
          refine Res.bind_mono h1 hd (fun _ => rfl) ?_
          intro bb _ h2
          rw [hA]
          simp only [feedAudioContent_loop_nil, Res.ok_bind]
          exact hup _ r h2 hd
        · rw [if_neg hL, hA]
          simp only [feedAudioContent_loop_nil, Res.ok_bind]
          cases b with
          | nil =>
            simp only [feedAudioContent_inner_nil] at h
            rw [if_neg hL] at h
            simpa using h
          | cons y ys =>
            rw [feedAudioContent_loop_succ]
            exact h
      · have hI := feedAudioContent_inner_append_cons m (x :: xs) s.audio_buffer_ b y rest hA
        rw [List.cons_append] at hI
        rw [hI] at h
        split_ifs at h ⊢ with hL
        · rw [Res.bind_assoc]
          refine Res.bind_mono h hd (fun _ => rfl) ?_
          intro s1 _ h1
          rw [Res.bind_assoc]
          refine Res.bind_mono h1 hd (fun _ => rfl) ?_
          intro bb _ h2
          have := ih _ _ b r h2 hd
          exact Res.bind_mono this hd (fun _ => rfl) (fun s2 _ h3 => hup s2 r h3 hd)
        · have := ih _ _ b r h hd
          exact Res.bind_mono this hd (fun _ => rfl) (fun s2 _ h3 => hup s2 r h3 hd)

/-- Feeding `a` and then `b` does what feeding `a ++ b` in one call does. -/
theorem feedAudioContent_loop_merge (N : Nat) (m : ModelState) (f2 : Nat) (b : List ℤ) :
    ∀ (f1 : Nat) (s : StreamingState) (a : List ℤ) (r : Res StreamingState),
      (feedAudioContent_loop N m f1 s a).bind
        (fun s1 => feedAudioContent_loop N m f2 s1 b) = r → r ≠ Res.diverge →
      feedAudioContent_loop N m (f1 + f2) s (a ++ b) = r := by
  have hup : ∀ (k k1 : Nat) (s1 : StreamingState) (bs : List ℤ) (out : Res StreamingState),
      k ≤ k1 → feedAudioContent_loop N m k s1 bs = out → out ≠ Res.diverge →
      feedAudioContent_loop N m k1 s1 bs = out := fun k k1 s1 bs out hk h1 h2 =>
    feedAudioContent_loop_mono m N N (Nat.le_refl _) k k1 s1 bs out hk h1 h2
  intro f1
  induction f1 with
  | zero =>
    intro s a r h hd
    cases a with
    | nil => simpa using h
    | cons x xs => exact absurd h.symm hd
  | succ n ih =>
    intro s a r h hd
    cases a with
    | nil =>
      simp only [feedAudioContent_loop_nil, Res.ok_bind, List.nil_append] at h ⊢
      exact hup f2 _ _ _ _ (by omega) h hd
    | cons x xs =>
      have e : n + 1 + f2 = (n + f2) + 1 := by omega
      rw [e, List.cons_append, feedAudioContent_loop_succ]
      rw [feedAudioContent_loop_succ] at h
      rcases list_nil_or_cons (feedAudioContent_inner m s.audio_buffer_ (x :: xs)).2 with
        hA | ⟨y, rest, hA⟩
      · have hI := feedAudioContent_inner_append_nil m (x :: xs) s.audio_buffer_ b hA
        rw [List.cons_append] at hI
        rw [hI]
        by_cases hL : (feedAudioContent_inner m s.audio_buffer_ (x :: xs)).1.length
            = m.audio_win_len_
        · rw [feedAudioContent_inner_full m _ _ (by omega)]
          rw [if_pos hL] at h ⊢
          rw [Res.bind_assoc] at h
          refine Res.bind_mono h hd (fun _ => rfl) ?_
          intro s1 _ h1
          rw [Res.bind_assoc] at h1
          refine Res.bind_mono h1 hd (fun _ => rfl) ?_
          intro bb _ h2
          rw [hA] at h2
          simp only [feedAudioContent_loop_nil, Res.ok_bind] at h2
          exact hup f2 _ _ _ _ (by omega) h2 hd
        · rw [if_neg hL, hA] at h
          simp only [feedAudioContent_loop_nil, Res.ok_bind] at h
          cases b with
          | nil =>
            simp only [feedAudioContent_inner_nil]
            rw [if_neg hL]
            simpa using h
          | cons y ys =>
            cases f2 with
            | zero => exact absurd h.symm hd
            | succ k =>
              rw [feedAudioContent_loop_succ] at h
              split_ifs at h ⊢ with hL2
              · refine Res.bind_mono h hd (fun _ => rfl) ?_
                intro s1 _ h1
                refine Res.bind_mono h1 hd (fun _ => rfl) ?_
                intro bb _ h2
                exact hup k _ _ _ _ (by omega) h2 hd
              · exact hup k _ _ _ _ (by omega) h hd
      · have hI := feedAudioContent_inner_append_cons m (x :: xs) s.audio_buffer_ b y rest hA
        rw [List.cons_append] at hI
        rw [hI]
        split_ifs at h ⊢ with hL
        · rw [Res.bind_assoc] at h
          refine Res.bind_mono h hd (fun _ => rfl) ?_
          intro s1 _ h1
          rw [Res.bind_assoc] at h1
          refine Res.bind_mono h1 hd (fun _ => rfl) ?_
          intro bb _ h2
          exact ih _ _ r h2 hd
        · exact ih _ _ r h hd


/-- Replacing the second computation of a bind by one with the same outcomes. -/
theorem Res.exists_bind_congr {α β : Type} {f : Nat → Res α} {g g1 : Nat → α → Res β}
    (hf : Res.Mono f) (hg1 : ∀ a, Res.Mono fun N => g1 N a)
    (h : ∀ a r, r ≠ Res.diverge → (∃ N, g N a = r) → ∃ N, g1 N a = r)
    (r : Res β) (hd : r ≠ Res.diverge) (hex : ∃ N, (f N).bind (g N) = r) :
    ∃ N, (f N).bind (g1 N) = r := by
  obtain ⟨N, hN⟩ := hex
  cases hfN : f N with
  | ok a =>
    rw [hfN] at hN
    simp only [Res.ok_bind] at hN
    obtain ⟨N2, h2⟩ := h a r hd ⟨N, hN⟩
    refine ⟨max N N2, ?_⟩
    rw [hf N _ _ (le_max_left _ _) hfN (by simp)]
    simp only [Res.ok_bind]
    exact hg1 a N2 _ r (le_max_right _ _) h2 hd
  | fault =>
    rw [hfN] at hN
    exact ⟨N, by rw [hfN]; exact hN⟩
  | diverge =>
    rw [hfN] at hN
    exact absurd hN.symm hd

/-- Replacing the first computation of a bind by one with the same outcomes. -/
theorem Res.exists_bind_congr_left {α β : Type} {f f1 : Nat → Res α} {g : Nat → α → Res β}
    (hf1 : Res.Mono f1) (hg : ∀ a, Res.Mono fun N => g N a)
    (h : ∀ r, r ≠ Res.diverge → (∃ N, f N = r) → ∃ N, f1 N = r)
    (r : Res β) (hd : r ≠ Res.diverge) (hex : ∃ N, (f N).bind (g N) = r) :
    ∃ N, (f1 N).bind (g N) = r := by
  obtain ⟨N, hN⟩ := hex
  cases hfN : f N with
  | ok a =>
    rw [hfN] at hN
    simp only [Res.ok_bind] at hN
    obtain ⟨N2, h2⟩ := h (Res.ok a) (by simp) ⟨N, hfN⟩
    refine ⟨max N N2, ?_⟩
    rw [hf1 N2 _ _ (le_max_right _ _) h2 (by simp)]
    simp only [Res.ok_bind]
    exact hg a N _ r (le_max_left _ _) hN hd
  | fault =>
    rw [hfN] at hN
    simp only [Res.fault_bind] at hN
    obtain ⟨N2, h2⟩ := h Res.fault (by simp) ⟨N, hfN⟩
    exact ⟨N2, by rw [h2, ← hN]; rfl⟩
  | diverge =>
    rw [hfN] at hN
    exact absurd hN.symm hd

theorem feedAudioContent_Mono (m : ModelState) (s : StreamingState) (buf : List ℤ) :
    Res.Mono fun N => feedAudioContent N m s buf :=
  fun N N1 r hle h hd => feedAudioContent_mono m N N1 s buf r hle h hd

theorem feedAll_mono (m : ModelState) (N N1 : Nat) (hN : N ≤ N1) :
    ∀ (chunks : List (List ℤ)) (s : StreamingState) (r : Res StreamingState),
      feedAll N m s chunks = r → r ≠ Res.diverge → feedAll N1 m s chunks = r := by
  intro chunks
  induction chunks with
  | nil => intro s r h _; simpa [feedAll] using h
  | cons c cs ih =>
    intro s r h hd
    simp only [feedAll] at h ⊢
    refine Res.bind_mono h hd (fun hne => feedAudioContent_mono m N N1 _ _ _ hN rfl hne) ?_
    intro s1 _ h3
    exact ih _ _ h3 hd

theorem finishStream_mono (m : ModelState) (N N1 : Nat) (s : StreamingState)
    (r : Res StreamingState) (hN : N ≤ N1)
    (h : finishStream N m s = r) (hd : r ≠ Res.diverge) : finishStream N1 m s = r :=
  flushBuffers_mono m N N1 s true r hN h hd

/-- Two feeds in a row and one feed of the concatenation have the same outcome. -/
theorem feedAudioContent_append (m : ModelState) (s : StreamingState) (a b : List ℤ)
    (r : Res StreamingState) (hd : r ≠ Res.diverge) :
    (∃ N, (feedAudioContent N m s a).bind (fun s1 => feedAudioContent N m s1 b) = r) ↔
      ∃ N, feedAudioContent N m s (a ++ b) = r := by
  constructor
  · rintro ⟨N, h⟩
    refine ⟨N + N, ?_⟩
    have := feedAudioContent_loop_merge N m N b N s a r h hd
    exact feedAudioContent_loop_mono m N (N + N) (by omega) _ _ _ _ _ (Nat.le_refl _) this hd
  · rintro ⟨N, h⟩
    exact ⟨N, feedAudioContent_loop_split N m N s a b r h hd⟩

theorem feedAll_Mono (m : ModelState) (s : StreamingState) (chunks : List (List ℤ)) :
    Res.Mono fun N => feedAll N m s chunks :=
  fun N N1 r hle h hd => feedAll_mono m N N1 hle chunks s r h hd

theorem finishStream_Mono (m : ModelState) (s : StreamingState) :
    Res.Mono fun N => finishStream N m s :=
  fun N N1 r hle h hd => finishStream_mono m N N1 s r hle h hd

/-- A sequence of feeds and one feed of the concatenation have the same outcome. -/
theorem feedAll_flatten (m : ModelState) :
    ∀ (chunks : List (List ℤ)) (s : StreamingState) (r : Res StreamingState),
      r ≠ Res.diverge →
      ((∃ N, feedAll N m s chunks = r) ↔ ∃ N, feedAudioContent N m s chunks.flatten = r) := by
  intro chunks
  induction chunks with
  | nil =>
    intro s r _
    simp [feedAll, feedAudioContent]
  | cons c cs ih =>
    intro s r hd
    rw [List.flatten_cons, ← feedAudioContent_append m s c cs.flatten r hd]
    simp only [feedAll]
    constructor
    · exact Res.exists_bind_congr (feedAudioContent_Mono m s c)
        (fun a => feedAudioContent_Mono m a cs.flatten)
        (fun a r1 hd1 => (ih a r1 hd1).mp) r hd
    · exact Res.exists_bind_congr (feedAudioContent_Mono m s c)
        (fun a => feedAll_Mono m a cs)
        (fun a r1 hd1 => (ih a r1 hd1).mpr) r hd

/-- Finishing after a sequence of feeds and after one feed of the concatenation have the
same outcome. -/
theorem feedAll_finish (m : ModelState) (chunks : List (List ℤ)) (s : StreamingState)
    (r : Res StreamingState) (hd : r ≠ Res.diverge) :
    (∃ N, (feedAll N m s chunks).bind (fun s1 => finishStream N m s1) = r) ↔
      ∃ N, (feedAudioContent N m s chunks.flatten).bind (fun s1 => finishStream N m s1) = r := by
  constructor
  · exact Res.exists_bind_congr_left (feedAudioContent_Mono m s chunks.flatten)
      (fun a => finishStream_Mono m a)
      (fun r1 hd1 => (feedAll_flatten m chunks s r1 hd1).mp) r hd
  · exact Res.exists_bind_congr_left (feedAll_Mono m s chunks)
      (fun a => finishStream_Mono m a)
      (fun r1 hd1 => (feedAll_flatten m chunks s r1 hd1).mpr) r hd


/-! ### One-step unfoldings, continued -/

theorem processMfccWindow_loop_succ (m : ModelState) (fuel : Nat) (s : StreamingState)
    (x : ℚ) (xs : List ℚ) :
    processMfccWindow_loop m (fuel + 1) s (x :: xs) =
      if (copy_up_to_n (x :: xs) s.batch_buffer_
            (to_int (((u32_mul m.n_steps_ m.mfcc_feats_per_timestep_ : Nat) : ℤ)
              - (s.batch_buffer_.length : ℤ)))).1.length
          ≤ u32_mul m.n_steps_ m.mfcc_feats_per_timestep_ then
        if (copy_up_to_n (x :: xs) s.batch_buffer_
              (to_int (((u32_mul m.n_steps_ m.mfcc_feats_per_timestep_ : Nat) : ℤ)
                - (s.batch_buffer_.length : ℤ)))).1.length
            = u32_mul m.n_steps_ m.mfcc_feats_per_timestep_ then
          processMfccWindow_loop m fuel
            { processBatch m
                { s with batch_buffer_ := (copy_up_to_n (x :: xs) s.batch_buffer_
                    (to_int (((u32_mul m.n_steps_ m.mfcc_feats_per_timestep_ : Nat) : ℤ)
                      - (s.batch_buffer_.length : ℤ)))).1 }
                (copy_up_to_n (x :: xs) s.batch_buffer_
                    (to_int (((u32_mul m.n_steps_ m.mfcc_feats_per_timestep_ : Nat) : ℤ)
                      - (s.batch_buffer_.length : ℤ)))).1 m.n_steps_ with
              batch_buffer_ := [] }
            (copy_up_to_n (x :: xs) s.batch_buffer_
              (to_int (((u32_mul m.n_steps_ m.mfcc_feats_per_timestep_ : Nat) : ℤ)
                - (s.batch_buffer_.length : ℤ)))).2
        else
          processMfccWindow_loop m fuel
            { s with batch_buffer_ := (copy_up_to_n (x :: xs) s.batch_buffer_
                (to_int (((u32_mul m.n_steps_ m.mfcc_feats_per_timestep_ : Nat) : ℤ)
                  - (s.batch_buffer_.length : ℤ)))).1 }
            (copy_up_to_n (x :: xs) s.batch_buffer_
              (to_int (((u32_mul m.n_steps_ m.mfcc_feats_per_timestep_ : Nat) : ℤ)
                - (s.batch_buffer_.length : ℤ)))).2
      else Res.fault := rfl

theorem pushMfccBuffer_loop_succ (N : Nat) (m : ModelState) (fuel : Nat) (s : StreamingState)
    (x : ℚ) (xs : List ℚ) :
    pushMfccBuffer_loop N m (fuel + 1) s (x :: xs) =
      if (copy_up_to_n (x :: xs) s.mfcc_buffer_
            (to_int ((m.mfcc_feats_per_timestep_ : ℤ) - (s.mfcc_buffer_.length : ℤ)))).1.length
          ≤ m.mfcc_feats_per_timestep_ then
        if (copy_up_to_n (x :: xs) s.mfcc_buffer_
              (to_int ((m.mfcc_feats_per_timestep_ : ℤ)
                - (s.mfcc_buffer_.length : ℤ)))).1.length
            = m.mfcc_feats_per_timestep_ then
          (processMfccWindow N m
              { s with mfcc_buffer_ := (copy_up_to_n (x :: xs) s.mfcc_buffer_
                  (to_int ((m.mfcc_feats_per_timestep_ : ℤ)
                    - (s.mfcc_buffer_.length : ℤ)))).1 }
              (copy_up_to_n (x :: xs) s.mfcc_buffer_
                  (to_int ((m.mfcc_feats_per_timestep_ : ℤ)
                    - (s.mfcc_buffer_.length : ℤ)))).1).bind
            fun s1 =>
          (shift_buffer_left s1.mfcc_buffer_ m.n_features_).bind fun b =>
          pushMfccBuffer_loop N m fuel { s1 with mfcc_buffer_ := b }
            (copy_up_to_n (x :: xs) s.mfcc_buffer_
              (to_int ((m.mfcc_feats_per_timestep_ : ℤ) - (s.mfcc_buffer_.length : ℤ)))).2
        else
          pushMfccBuffer_loop N m fuel
            { s with mfcc_buffer_ := (copy_up_to_n (x :: xs) s.mfcc_buffer_
                (to_int ((m.mfcc_feats_per_timestep_ : ℤ) - (s.mfcc_buffer_.length : ℤ)))).1 }
            (copy_up_to_n (x :: xs) s.mfcc_buffer_
              (to_int ((m.mfcc_feats_per_timestep_ : ℤ) - (s.mfcc_buffer_.length : ℤ)))).2
      else Res.fault := rfl

/-- Below the no-wrap bound, and with the batch buffer not above its capacity, one step of
the loop of `processMfccWindow` is the step with the exact capacity. -/
theorem processMfccWindow_loop_step (m : ModelState)
    (hnw : m.n_steps_ * m.mfcc_feats_per_timestep_ < 2 ^ 31) (fuel : Nat)
    (s : StreamingState) (x : ℚ) (xs : List ℚ)
    (hb : s.batch_buffer_.length ≤ m.n_steps_ * m.mfcc_feats_per_timestep_) :
    processMfccWindow_loop m (fuel + 1) s (x :: xs) =
      if (s.batch_buffer_ ++ List.take
                  (m.n_steps_ * m.mfcc_feats_per_timestep_ - s.batch_buffer_.length) (x :: xs)).length
          ≤ m.n_steps_ * m.mfcc_feats_per_timestep_ then
        if (s.batch_buffer_ ++ List.take
                  (m.n_steps_ * m.mfcc_feats_per_timestep_ - s.batch_buffer_.length) (x :: xs)).length
            = m.n_steps_ * m.mfcc_feats_per_timestep_ then
          processMfccWindow_loop m fuel
            { processBatch m
                { s with batch_buffer_ := (s.batch_buffer_ ++ List.take
                  (m.n_steps_ * m.mfcc_feats_per_timestep_ - s.batch_buffer_.length) (x :: xs)) }
                (s.batch_buffer_ ++ List.take
                  (m.n_steps_ * m.mfcc_feats_per_timestep_ - s.batch_buffer_.length) (x :: xs))
                m.n_steps_ with
              batch_buffer_ := [] }
            ((x :: xs).drop (m.n_steps_ * m.mfcc_feats_per_timestep_ - s.batch_buffer_.length))
        else
          processMfccWindow_loop m fuel
            { s with batch_buffer_ := (s.batch_buffer_ ++ List.take
                  (m.n_steps_ * m.mfcc_feats_per_timestep_ - s.batch_buffer_.length) (x :: xs)) }
            ((x :: xs).drop (m.n_steps_ * m.mfcc_feats_per_timestep_ - s.batch_buffer_.length))
      else Res.fault := by
  rw [processMfccWindow_loop_succ, u32_mul_eq _ _ (by omega),
    to_int_sub _ _ hnw (by omega), copy_up_to_n_eq _ _ _ hb]

/-- Below the no-wrap bound, and with the MFCC buffer not above its capacity, one step of the
loop of `pushMfccBuffer` is the step with the exact room. -/
theorem pushMfccBuffer_loop_step (N : Nat) (m : ModelState)
    (hfw : m.mfcc_feats_per_timestep_ < 2 ^ 31) (fuel : Nat)
    (s : StreamingState) (x : ℚ) (xs : List ℚ)
    (hm : s.mfcc_buffer_.length ≤ m.mfcc_feats_per_timestep_) :
    pushMfccBuffer_loop N m (fuel + 1) s (x :: xs) =
      if (s.mfcc_buffer_ ++ List.take
                  (m.mfcc_feats_per_timestep_ - s.mfcc_buffer_.length) (x :: xs)).length
          ≤ m.mfcc_feats_per_timestep_ then
        if (s.mfcc_buffer_ ++ List.take
                  (m.mfcc_feats_per_timestep_ - s.mfcc_buffer_.length) (x :: xs)).length
            = m.mfcc_feats_per_timestep_ then
          (processMfccWindow N m
              { s with mfcc_buffer_ := (s.mfcc_buffer_ ++ List.take
                  (m.mfcc_feats_per_timestep_ - s.mfcc_buffer_.length) (x :: xs)) }
              (s.mfcc_buffer_ ++ List.take
                  (m.mfcc_feats_per_timestep_ - s.mfcc_buffer_.length) (x :: xs))).bind
            fun s1 =>
          (shift_buffer_left s1.mfcc_buffer_ m.n_features_).bind fun b =>
          pushMfccBuffer_loop N m fuel { s1 with mfcc_buffer_ := b }
            ((x :: xs).drop (m.mfcc_feats_per_timestep_ - s.mfcc_buffer_.length))
        else
          pushMfccBuffer_loop N m fuel
            { s with mfcc_buffer_ := (s.mfcc_buffer_ ++ List.take
                  (m.mfcc_feats_per_timestep_ - s.mfcc_buffer_.length) (x :: xs)) }
            ((x :: xs).drop (m.mfcc_feats_per_timestep_ - s.mfcc_buffer_.length))
      else Res.fault := by
  rw [pushMfccBuffer_loop_succ, to_int_sub _ _ hfw (by omega), copy_up_to_n_eq _ _ _ hm]

/-! ### Properties kept by the stages

A property of the state that is kept by `processBatch` and by the buffer updates of a stage
is kept by the stage. -/

theorem processMfccWindow_loop_keeps (m : ModelState) (P : StreamingState → Prop)
    (hB : ∀ s buf n, P s → P (processBatch m s buf n))
    (hb : ∀ s b, P s → P { s with batch_buffer_ := b }) :
    ∀ (fuel : Nat) (s : StreamingState) (rest : List ℚ) (s1 : StreamingState),
      processMfccWindow_loop m fuel s rest = Res.ok s1 → P s → P s1 := by
  intro fuel
  induction fuel with
  | zero =>
    intro s rest s1 h hP
    cases rest with
    | nil => simp at h; exact h ▸ hP
    | cons x xs => exact absurd h (by simp [processMfccWindow_loop])
  | succ n ih =>
    intro s rest s1 h hP
    cases rest with
    | nil => simp at h; exact h ▸ hP
    | cons x xs =>
      rw [processMfccWindow_loop_succ] at h
      split_ifs at h with h1 h2
      · exact ih _ _ _ h (hb _ _ (hB _ _ _ (hb _ _ hP)))
      · exact ih _ _ _ h (hb _ _ hP)

theorem processMfccWindow_keeps (m : ModelState) (P : StreamingState → Prop)
    (hB : ∀ s buf n, P s → P (processBatch m s buf n))
    (hb : ∀ s b, P s → P { s with batch_buffer_ := b })
    (hw : ∀ s row, P s → P { s with calls := s.calls ++ [Call.processMfccWindow row] })
    (N : Nat) (s : StreamingState) (buf : List ℚ) (s1 : StreamingState)
    (h : processMfccWindow N m s buf = Res.ok s1) (hP : P s) : P s1 :=
  processMfccWindow_loop_keeps m P hB hb N _ buf s1 h (hw _ _ hP)

theorem pushMfccBuffer_loop_keeps (N : Nat) (m : ModelState) (P : StreamingState → Prop)
    (hB : ∀ s buf n, P s → P (processBatch m s buf n))
    (hb : ∀ s b, P s → P { s with batch_buffer_ := b })
    (hw : ∀ s row, P s → P { s with calls := s.calls ++ [Call.processMfccWindow row] })
    (hm : ∀ s b, P s → P { s with mfcc_buffer_ := b }) :
    ∀ (fuel : Nat) (s : StreamingState) (rest : List ℚ) (s1 : StreamingState),
      pushMfccBuffer_loop N m fuel s rest = Res.ok s1 → P s → P s1 := by
  intro fuel
  induction fuel with
  | zero =>
    intro s rest s1 h hP
    cases rest with
    | nil => simp at h; exact h ▸ hP
    | cons x xs => exact absurd h (by simp [pushMfccBuffer_loop])
  | succ n ih =>
    intro s rest s1 h hP
    cases rest with
    | nil => simp at h; exact h ▸ hP
    | cons x xs =>
      rw [pushMfccBuffer_loop_succ] at h
      split_ifs at h with h1 h2
      · obtain ⟨s2, h3, h4⟩ := Res.bind_eq_ok.mp h
        obtain ⟨b, _, h6⟩ := Res.bind_eq_ok.mp h4
        have hP2 := processMfccWindow_keeps m P hB hb hw N _ _ s2 h3 (hm _ _ hP)
        exact ih _ _ _ h6 (hm _ _ hP2)
      · exact ih _ _ _ h (hm _ _ hP)

theorem pushMfccBuffer_keeps (N : Nat) (m : ModelState) (P : StreamingState → Prop)
    (hB : ∀ s buf n, P s → P (processBatch m s buf n))
    (hb : ∀ s b, P s → P { s with batch_buffer_ := b })
    (hw : ∀ s row, P s → P { s with calls := s.calls ++ [Call.processMfccWindow row] })
    (hm : ∀ s b, P s → P { s with mfcc_buffer_ := b })
    (s : StreamingState) (buf : List ℚ) (s1 : StreamingState)
    (h : pushMfccBuffer N m s buf = Res.ok s1) (hP : P s) : P s1 :=
  pushMfccBuffer_loop_keeps N m P hB hb hw hm N s buf s1 h hP

theorem processAudioWindow_keeps (N : Nat) (m : ModelState) (P : StreamingState → Prop)
    (hB : ∀ s buf n, P s → P (processBatch m s buf n))
    (hb : ∀ s b, P s → P { s with batch_buffer_ := b })
    (hw : ∀ s row, P s → P { s with calls := s.calls ++ [Call.processMfccWindow row] })
    (hm : ∀ s b, P s → P { s with mfcc_buffer_ := b })
    (hc : ∀ s w, P s → P { s with calls := s.calls ++ [Call.compute_mfcc w] })
    (s : StreamingState) (buf : List ℚ) (s1 : StreamingState)
    (h : processAudioWindow N m s buf = Res.ok s1) (hP : P s) : P s1 :=
  pushMfccBuffer_keeps N m P hB hb hw hm _ _ s1 h (hc _ _ hP)

theorem flushBuffers_zeros_keeps (N : Nat) (m : ModelState) (P : StreamingState → Prop)
    (hB : ∀ s buf n, P s → P (processBatch m s buf n))
    (hb : ∀ s b, P s → P { s with batch_buffer_ := b })
    (hw : ∀ s row, P s → P { s with calls := s.calls ++ [Call.processMfccWindow row] })
    (hm : ∀ s b, P s → P { s with mfcc_buffer_ := b }) :
    ∀ (count : Nat) (s s1 : StreamingState),
      flushBuffers_zeros N m count s = Res.ok s1 → P s → P s1 := by
  intro count
  induction count with
  | zero => intro s s1 h hP; simp [flushBuffers_zeros] at h; exact h ▸ hP
  | succ n ih =>
    intro s s1 h hP
    simp only [flushBuffers_zeros] at h
    obtain ⟨s2, h3, h4⟩ := Res.bind_eq_ok.mp h
    exact ih _ _ h4 (pushMfccBuffer_keeps N m P hB hb hw hm _ _ s2 h3 hP)

theorem flushBuffers_batch_keeps (m : ModelState) (P : StreamingState → Prop)
    (hB : ∀ s buf n, P s → P (processBatch m s buf n))
    (hb : ∀ s b, P s → P { s with batch_buffer_ := b })
    (s s1 : StreamingState) (h : flushBuffers_batch m s = Res.ok s1) (hP : P s) : P s1 := by
  unfold flushBuffers_batch at h
  split_ifs at h with h1 h2
  · simp at h; exact h ▸ hb _ _ (hB _ _ _ hP)
  · simp at h; exact h ▸ hP

theorem flushBuffers_push_keeps (N : Nat) (m : ModelState) (P : StreamingState → Prop)
    (hB : ∀ s buf n, P s → P (processBatch m s buf n))
    (hb : ∀ s b, P s → P { s with batch_buffer_ := b })
    (hw : ∀ s row, P s → P { s with calls := s.calls ++ [Call.processMfccWindow row] })
    (hm : ∀ s b, P s → P { s with mfcc_buffer_ := b })
    (hc : ∀ s w, P s → P { s with calls := s.calls ++ [Call.compute_mfcc w] })
    (s : StreamingState) (z : Bool) (s1 : StreamingState)
    (h : flushBuffers_push N m s z = Res.ok s1) (hP : P s) : P s1 := by
  unfold flushBuffers_push at h
  obtain ⟨s2, h3, h4⟩ := Res.bind_eq_ok.mp h
  have hP2 := processAudioWindow_keeps N m P hB hb hw hm hc _ _ s2 h3 hP
  cases z with
  | false => simp at h4; exact h4 ▸ hP2
  | true =>
    simp only [if_true] at h4
    exact flushBuffers_zeros_keeps N m P hB hb hw hm _ _ _ h4 hP2

theorem flushBuffers_keeps (N : Nat) (m : ModelState) (P : StreamingState → Prop)
    (hB : ∀ s buf n, P s → P (processBatch m s buf n))
    (hb : ∀ s b, P s → P { s with batch_buffer_ := b })
    (hw : ∀ s row, P s → P { s with calls := s.calls ++ [Call.processMfccWindow row] })
    (hm : ∀ s b, P s → P { s with mfcc_buffer_ := b })
    (hc : ∀ s w, P s → P { s with calls := s.calls ++ [Call.compute_mfcc w] })
    (s : StreamingState) (z : Bool) (s1 : StreamingState)
    (h : flushBuffers N m s z = Res.ok s1) (hP : P s) : P s1 := by
  unfold flushBuffers at h
  obtain ⟨s2, h3, h4⟩ := Res.bind_eq_ok.mp h
  exact flushBuffers_batch_keeps m P hB hb _ _ h4
    (flushBuffers_push_keeps N m P hB hb hw hm hc _ _ s2 h3 hP)

theorem feedAudioContent_loop_keeps (N : Nat) (m : ModelState) (P : StreamingState → Prop)
    (hB : ∀ s buf n, P s → P (processBatch m s buf n))
    (hb : ∀ s b, P s → P { s with batch_buffer_ := b })
    (hw : ∀ s row, P s → P { s with calls := s.calls ++ [Call.processMfccWindow row] })
    (hm : ∀ s b, P s → P { s with mfcc_buffer_ := b })
    (hc : ∀ s w, P s → P { s with calls := s.calls ++ [Call.compute_mfcc w] })
    (ha : ∀ s b, P s → P { s with audio_buffer_ := b }) :
    ∀ (fuel : Nat) (s : StreamingState) (rest : List ℤ) (s1 : StreamingState),
      feedAudioContent_loop N m fuel s rest = Res.ok s1 → P s → P s1 := by
  intro fuel
  induction fuel with
  | zero =>
    intro s rest s1 h hP
    cases rest with
    | nil => simp at h; exact h ▸ hP
    | cons x xs => exact absurd h (by simp [feedAudioContent_loop])
  | succ n ih =>
    intro s rest s1 h hP
    cases rest with
    | nil => simp at h; exact h ▸ hP
    | cons x xs =>
      rw [feedAudioContent_loop_succ] at h
      split_ifs at h with h1
      · obtain ⟨s2, h3, h4⟩ := Res.bind_eq_ok.mp h
        obtain ⟨b, _, h6⟩ := Res.bind_eq_ok.mp h4
        have hP2 := processAudioWindow_keeps N m P hB hb hw hm hc _ _ s2 h3 (ha _ _ hP)
        exact ih _ _ _ h6 (ha _ _ hP2)
      · exact ih _ _ _ h (ha _ _ hP)

theorem feedAudioContent_keeps (N : Nat) (m : ModelState) (P : StreamingState → Prop)
    (hB : ∀ s buf n, P s → P (processBatch m s buf n))
    (hb : ∀ s b, P s → P { s with batch_buffer_ := b })
    (hw : ∀ s row, P s → P { s with calls := s.calls ++ [Call.processMfccWindow row] })
    (hm : ∀ s b, P s → P { s with mfcc_buffer_ := b })
    (hc : ∀ s w, P s → P { s with calls := s.calls ++ [Call.compute_mfcc w] })
    (ha : ∀ s b, P s → P { s with audio_buffer_ := b })
    (s : StreamingState) (buf : List ℤ) (s1 : StreamingState)
    (h : feedAudioContent N m s buf = Res.ok s1) (hP : P s) : P s1 :=
  feedAudioContent_loop_keeps N m P hB hb hw hm hc ha N s buf s1 h hP


/-- The inner loop of `feedAudioContent` in closed form: it moves as many samples as the
window has room for. -/
theorem feedAudioContent_inner_eq (m : ModelState) :
    ∀ (buf : List ℤ) (audio : List ℚ),
      feedAudioContent_inner m audio buf =
        (audio ++ (buf.take (m.audio_win_len_ - audio.length)).map sample_to_float,
          buf.drop (m.audio_win_len_ - audio.length)) := by
  intro buf
  induction buf with
  | nil => intro audio; simp
  | cons x xs ih =>
    intro audio
    by_cases hlt : audio.length < m.audio_win_len_
    · rw [feedAudioContent_inner_cons_lt m _ _ _ hlt, ih]
      obtain ⟨k, hk⟩ : ∃ k, m.audio_win_len_ - audio.length = k + 1 :=
        ⟨m.audio_win_len_ - audio.length - 1, by omega⟩
      have hk2 : m.audio_win_len_ - (audio ++ [sample_to_float x]).length = k := by
        simp; omega
      rw [hk, hk2]
      simp
    · rw [feedAudioContent_inner_full m _ _ (by omega)]
      have : m.audio_win_len_ - audio.length = 0 := by omega
      rw [this]
      simp

/-! ### Termination within capacity -/

theorem processMfccWindow_loop_total (m : ModelState)
    (hnw : m.n_steps_ * m.mfcc_feats_per_timestep_ < 2 ^ 31) :
    ∀ (fuel : Nat) (s : StreamingState) (rest : List ℚ),
      rest.length ≤ fuel →
      s.batch_buffer_.length < m.n_steps_ * m.mfcc_feats_per_timestep_ →
      ∃ s1, processMfccWindow_loop m fuel s rest = Res.ok s1 ∧
        s1.batch_buffer_.length < m.n_steps_ * m.mfcc_feats_per_timestep_ := by
  intro fuel
  induction fuel with
  | zero =>
    intro s rest hf hb
    cases rest with
    | nil => exact ⟨s, by simp, hb⟩
    | cons x xs => simp at hf
  | succ n ih =>
    intro s rest hf hb
    cases rest with
    | nil => exact ⟨s, by simp, hb⟩
    | cons x xs =>
      rw [processMfccWindow_loop_step m hnw _ _ _ _ (Nat.le_of_lt hb)]
      have hdrop : ((x :: xs).drop
          (m.n_steps_ * m.mfcc_feats_per_timestep_ - s.batch_buffer_.length)).length ≤ n := by
        rw [List.length_drop]
        simp only [List.length_cons] at hf ⊢
        omega
      have hlen : (s.batch_buffer_ ++ (x :: xs).take
          (m.n_steps_ * m.mfcc_feats_per_timestep_ - s.batch_buffer_.length)).length
            ≤ m.n_steps_ * m.mfcc_feats_per_timestep_ := by
        rw [List.length_append, List.length_take]
        omega
      simp only []
      rw [if_pos hlen]
      split_ifs with h2
      · exact ih _ _ hdrop (by simpa using (by omega : 0 < m.n_steps_ * m.mfcc_feats_per_timestep_))
      · exact ih _ _ hdrop (by
          show (s.batch_buffer_ ++ _).length < _
          omega)

theorem processMfccWindow_total (N : Nat) (m : ModelState) (s : StreamingState)
    (buf : List ℚ) (hN : buf.length ≤ N)
    (hb : s.batch_buffer_.length < m.n_steps_ * m.mfcc_feats_per_timestep_)
    (hnw : m.n_steps_ * m.mfcc_feats_per_timestep_ < 2 ^ 31) :
    ∃ s1, processMfccWindow N m s buf = Res.ok s1 ∧
      s1.batch_buffer_.length < m.n_steps_ * m.mfcc_feats_per_timestep_ ∧
      s1.mfcc_buffer_ = s.mfcc_buffer_ := by
  obtain ⟨s1, h1, h2⟩ := processMfccWindow_loop_total m hnw N
    { s with calls := s.calls ++ [Call.processMfccWindow buf] } buf hN hb
  refine ⟨s1, h1, h2, ?_⟩
  exact processMfccWindow_keeps m (fun t => t.mfcc_buffer_ = s.mfcc_buffer_)
    (fun _ _ _ h => h) (fun _ _ h => h) (fun _ _ h => h) N s buf s1 h1 rfl

theorem pushMfccBuffer_loop_total (N : Nat) (m : ModelState)
    (hf1 : 1 ≤ m.n_features_) (hf2 : m.n_features_ ≤ m.mfcc_feats_per_timestep_)
    (hN : m.mfcc_feats_per_timestep_ ≤ N) (hnw : m.n_steps_ * m.mfcc_feats_per_timestep_ < 2 ^ 31) :
    ∀ (fuel : Nat) (s : StreamingState) (rest : List ℚ),
      rest.length ≤ fuel → WithinCapacity m s →
      ∃ s1, pushMfccBuffer_loop N m fuel s rest = Res.ok s1 ∧ WithinCapacity m s1 := by
  intro fuel
  induction fuel with
  | zero =>
    intro s rest hf hw
    cases rest with
    | nil => exact ⟨s, by simp, hw⟩
    | cons x xs => simp at hf
  | succ n ih =>
    intro s rest hf hw
    cases rest with
    | nil => exact ⟨s, by simp, hw⟩
    | cons x xs =>
      obtain ⟨hm, hb⟩ := hw
      have hfw := feats_lt_of_capacity m s hnw hb
      rw [pushMfccBuffer_loop_step N m hfw _ _ _ _ (Nat.le_of_lt hm)]
      have hdrop : ((x :: xs).drop
          (m.mfcc_feats_per_timestep_ - s.mfcc_buffer_.length)).length ≤ n := by
        rw [List.length_drop]
        simp only [List.length_cons] at hf ⊢
        omega
      have hlen : (s.mfcc_buffer_ ++ (x :: xs).take
          (m.mfcc_feats_per_timestep_ - s.mfcc_buffer_.length)).length
            ≤ m.mfcc_feats_per_timestep_ := by
        rw [List.length_append, List.length_take]
        omega
      rw [if_pos hlen]
      split_ifs with h2
      · generalize hrow : s.mfcc_buffer_ ++ List.take
            (m.mfcc_feats_per_timestep_ - s.mfcc_buffer_.length) (x :: xs) = row at *
        obtain ⟨s1, h3, h4, h5⟩ := processMfccWindow_total N m
          { s with mfcc_buffer_ := row } row (by omega) hb hnw
        rw [h3]
        simp only [Res.ok_bind]
        have h6 : s1.mfcc_buffer_.length = m.mfcc_feats_per_timestep_ := by
          rw [h5]; exact h2
        rw [shift_buffer_left_eq _ _ (by omega)]
        simp only [Res.ok_bind]
        refine ih _ _ hdrop ⟨?_, h4⟩
        show (s1.mfcc_buffer_.drop m.n_features_).length < _
        rw [List.length_drop]
        omega
      · refine ih _ _ hdrop ⟨?_, hb⟩
        show (s.mfcc_buffer_ ++ _).length < _
        omega

theorem pushMfccBuffer_total (N : Nat) (m : ModelState) (s : StreamingState) (buf : List ℚ)
    (hf1 : 1 ≤ m.n_features_) (hf2 : m.n_features_ ≤ m.mfcc_feats_per_timestep_)
    (hN : m.mfcc_feats_per_timestep_ ≤ N) (hN2 : buf.length ≤ N) (hw : WithinCapacity m s)
    (hnw : m.n_steps_ * m.mfcc_feats_per_timestep_ < 2 ^ 31) :
    ∃ s1, pushMfccBuffer N m s buf = Res.ok s1 ∧ WithinCapacity m s1 ∧
      s1.audio_buffer_ = s.audio_buffer_ := by
  obtain ⟨s1, h1, h2⟩ := pushMfccBuffer_loop_total N m hf1 hf2 hN hnw N s buf hN2 hw
  refine ⟨s1, h1, h2, ?_⟩
  exact pushMfccBuffer_keeps N m (fun t => t.audio_buffer_ = s.audio_buffer_)
    (fun _ _ _ h => h) (fun _ _ h => h) (fun _ _ h => h) (fun _ _ h => h) s buf s1 h1 rfl

theorem ValidGeometry.features_le {m : ModelState} (hg : ValidGeometry m) :
    m.n_features_ ≤ m.mfcc_feats_per_timestep_ := by
  rw [hg.feats_eq]
  exact Nat.le_mul_of_pos_right _ (by omega)

theorem processAudioWindow_total (m : ModelState) (s : StreamingState) (buf : List ℚ)
    (hg : ValidGeometry m) (hw : WithinCapacity m s) :
    ∃ N s1, processAudioWindow N m s buf = Res.ok s1 ∧ WithinCapacity m s1 ∧
      s1.audio_buffer_ = s.audio_buffer_ := by
  refine ⟨max m.mfcc_feats_per_timestep_ (m.compute_mfcc buf).length, ?_⟩
  exact pushMfccBuffer_total _ m _ _ hg.2.2.1 hg.features_le (le_max_left _ _)
    (le_max_right _ _) hw hg.no_wrap


theorem ValidGeometry.feats_pos {m : ModelState} (hg : ValidGeometry m) :
    1 ≤ m.mfcc_feats_per_timestep_ :=
  le_trans hg.2.2.1 hg.features_le

theorem feedAudioContent_loop_total (m : ModelState) (hg : ValidGeometry m) :
    ∀ (k : Nat) (s : StreamingState) (buf : List ℤ),
      buf.length ≤ k → s.audio_buffer_.length < m.audio_win_len_ → WithinCapacity m s →
      ∃ N fuel s1, feedAudioContent_loop N m fuel s buf = Res.ok s1 ∧ WithinCapacity m s1 ∧
        s1.audio_buffer_.length < m.audio_win_len_ := by
  intro k
  induction k with
  | zero =>
    intro s buf hk ha hw
    cases buf with
    | nil => exact ⟨0, 0, s, by simp, hw, ha⟩
    | cons x xs => simp at hk
  | succ n ih =>
    intro s buf hk ha hw
    cases buf with
    | nil => exact ⟨0, 0, s, by simp, hw, ha⟩
    | cons x xs =>
      have hR := feedAudioContent_inner_eq m (x :: xs) s.audio_buffer_
      have hR1 : (feedAudioContent_inner m s.audio_buffer_ (x :: xs)).1.length
          ≤ m.audio_win_len_ := by
        rw [hR]
        simp only [List.length_append, List.length_map, List.length_take]
        omega
      have hR2 : (feedAudioContent_inner m s.audio_buffer_ (x :: xs)).2.length ≤ n := by
        rw [hR]
        simp only [List.length_drop, List.length_cons] at hk ⊢
        omega
      by_cases hL : (feedAudioContent_inner m s.audio_buffer_ (x :: xs)).1.length
          = m.audio_win_len_
      · obtain ⟨N1, s2, h1, hw2, ha2⟩ := processAudioWindow_total m
          { s with audio_buffer_ := (feedAudioContent_inner m s.audio_buffer_ (x :: xs)).1 }
          (feedAudioContent_inner m s.audio_buffer_ (x :: xs)).1 hg hw
        have hs2 : s2.audio_buffer_.length = m.audio_win_len_ := by rw [ha2]; exact hL
        obtain ⟨N2, fuel2, s3, h3, hw3, ha3⟩ := ih
          { s2 with audio_buffer_ := s2.audio_buffer_.drop m.audio_win_step_ }
          (feedAudioContent_inner m s.audio_buffer_ (x :: xs)).2 hR2
          (by
            show (s2.audio_buffer_.drop m.audio_win_step_).length < _
            rw [List.length_drop]
            have := hg.1
            omega)
          hw2
        refine ⟨max N1 N2, fuel2 + 1, s3, ?_, hw3, ha3⟩
        rw [feedAudioContent_loop_succ, if_pos hL,
          processAudioWindow_mono m N1 _ _ _ _ (le_max_left _ _) h1 (by simp)]
        simp only [Res.ok_bind]
        rw [shift_buffer_left_eq _ _ (by have := hg.2.1; omega)]
        simp only [Res.ok_bind]
        exact feedAudioContent_loop_mono m N2 _ (le_max_right _ _) _ _ _ _ _
          (Nat.le_refl _) h3 (by simp)
      · obtain ⟨N2, fuel2, s3, h3, hw3, ha3⟩ := ih
          { s with audio_buffer_ := (feedAudioContent_inner m s.audio_buffer_ (x :: xs)).1 }
          (feedAudioContent_inner m s.audio_buffer_ (x :: xs)).2 hR2
          (by
            show (feedAudioContent_inner m s.audio_buffer_ (x :: xs)).1.length < _
            omega)
          hw
        refine ⟨N2, fuel2 + 1, s3, ?_, hw3, ha3⟩
        rw [feedAudioContent_loop_succ, if_neg hL]
        exact h3

/-- Within capacity and under a valid geometry a feed returns. -/
theorem feedAudioContent_total (m : ModelState) (hg : ValidGeometry m) (s : StreamingState)
    (buf : List ℤ) (ha : s.audio_buffer_.length < m.audio_win_len_)
    (hw : WithinCapacity m s) :
    ∃ N s1, feedAudioContent N m s buf = Res.ok s1 ∧ WithinCapacity m s1 ∧
      s1.audio_buffer_.length < m.audio_win_len_ := by
  obtain ⟨N, fuel, s1, h, hw1, ha1⟩ :=
    feedAudioContent_loop_total m hg buf.length s buf (Nat.le_refl _) ha hw
  exact ⟨max N fuel, s1,
    feedAudioContent_loop_mono m N _ (le_max_left _ _) fuel _ s buf _ (le_max_right _ _) h
      (by simp), hw1, ha1⟩

theorem feedAll_total (m : ModelState) (hg : ValidGeometry m) :
    ∀ (chunks : List (List ℤ)) (s : StreamingState),
      s.audio_buffer_.length < m.audio_win_len_ → WithinCapacity m s →
      ∃ N s1, feedAll N m s chunks = Res.ok s1 ∧ WithinCapacity m s1 ∧
        s1.audio_buffer_.length < m.audio_win_len_ := by
  intro chunks
  induction chunks with
  | nil => intro s ha hw; exact ⟨0, s, rfl, hw, ha⟩
  | cons c cs ih =>
    intro s ha hw
    obtain ⟨N1, s1, h1, hw1, ha1⟩ := feedAudioContent_total m hg s c ha hw
    obtain ⟨N2, s2, h2, hw2, ha2⟩ := ih s1 ha1 hw1
    refine ⟨max N1 N2, s2, ?_, hw2, ha2⟩
    simp only [feedAll]
    rw [feedAudioContent_mono m N1 _ s c _ (le_max_left _ _) h1 (by simp)]
    simp only [Res.ok_bind]
    exact feedAll_mono m N2 _ (le_max_right _ _) cs s1 _ h2 (by simp)

theorem flushBuffers_zeros_total (N : Nat) (m : ModelState) (hg : ValidGeometry m)
    (hN : m.mfcc_feats_per_timestep_ ≤ N) :
    ∀ (count : Nat) (s : StreamingState), WithinCapacity m s →
      ∃ s1, flushBuffers_zeros N m count s = Res.ok s1 ∧ WithinCapacity m s1 := by
  intro count
  induction count with
  | zero => intro s hw; exact ⟨s, rfl, hw⟩
  | succ n ih =>
    intro s hw
    obtain ⟨s1, h1, hw1, _⟩ := pushMfccBuffer_total N m s (List.replicate m.n_features_ 0)
      hg.2.2.1 hg.features_le hN (by simpa using le_trans hg.features_le hN) hw hg.no_wrap
    obtain ⟨s2, h2, hw2⟩ := ih s1 hw1
    refine ⟨s2, ?_, hw2⟩
    simp only [flushBuffers_zeros, addZeroMfccWindow]
    rw [h1]
    simpa using h2

theorem flushBuffers_push_total (m : ModelState) (hg : ValidGeometry m) (s : StreamingState)
    (z : Bool) (hw : WithinCapacity m s) :
    ∃ N s1, flushBuffers_push N m s z = Res.ok s1 ∧ WithinCapacity m s1 := by
  obtain ⟨N1, s1, h1, hw1, _⟩ := processAudioWindow_total m s s.audio_buffer_ hg hw
  obtain ⟨s2, h2, hw2⟩ := flushBuffers_zeros_total (max N1 m.mfcc_feats_per_timestep_) m hg
    (le_max_right _ _) m.n_context_ s1 hw1
  refine ⟨max N1 m.mfcc_feats_per_timestep_, if z then s2 else s1, ?_, ?_⟩
  · unfold flushBuffers_push
    rw [processAudioWindow_mono m N1 _ _ _ _ (le_max_left _ _) h1 (by simp)]
    cases z with
    | false => simp
    | true => simpa using h2
  · cases z with
    | false => simpa using hw1
    | true => simpa using hw2

theorem flushBuffers_batch_total (m : ModelState) (s : StreamingState)
    (hf : 1 ≤ m.mfcc_feats_per_timestep_) :
    ∃ s1, flushBuffers_batch m s = Res.ok s1 ∧ s1.batch_buffer_ = [] ∧
      s1.mfcc_buffer_ = s.mfcc_buffer_ ∧ s1.audio_buffer_ = s.audio_buffer_ := by
  unfold flushBuffers_batch
  by_cases h : s.batch_buffer_.length > 0
  · rw [if_pos h, if_neg (by omega)]
    exact ⟨_, rfl, rfl, rfl, rfl⟩
  · rw [if_neg h]
    refine ⟨s, rfl, ?_, rfl, rfl⟩
    exact List.length_eq_zero.mp (by omega)

/-- Within capacity and under a valid geometry `flushBuffers` returns, with an empty batch
buffer. -/
theorem flushBuffers_total (m : ModelState) (hg : ValidGeometry m) (s : StreamingState)
    (z : Bool) (hw : WithinCapacity m s) :
    ∃ N s1, flushBuffers N m s z = Res.ok s1 ∧ s1.batch_buffer_ = [] ∧
      WithinCapacity m s1 := by
  obtain ⟨N, s1, h1, hw1⟩ := flushBuffers_push_total m hg s z hw
  obtain ⟨s2, h2, hb, hm, _⟩ := flushBuffers_batch_total m s1 hg.feats_pos
  refine ⟨N, s2, ?_, hb, ?_⟩
  · unfold flushBuffers
    rw [h1]
    simpa using h2
  · refine ⟨by rw [hm]; exact hw1.1, ?_⟩
    rw [hb]
    simpa using Nat.mul_pos hg.2.2.2.1 hg.feats_pos


theorem STT_CreateStream_some (m : ModelState) :
    STT_CreateStream (some m) = some { model_ := m, state := freshState m } := rfl

theorem freshState_withinCapacity (m : ModelState) (hg : ValidGeometry m) :
    WithinCapacity m (freshState m) := by
  have hz := hg.zeros_lt
  obtain ⟨_, _, h3, h4, h5, _⟩ := hg
  constructor
  · simp only [freshState, List.length_replicate]
    rw [h5, u32_mul_eq _ _ hz]
    exact Nat.mul_lt_mul_of_pos_left (by omega) (by omega)
  · simp only [freshState, List.length_nil]
    exact Nat.mul_pos h4 (le_trans h3 (h5 ▸ Nat.le_mul_of_pos_right _ (by omega)))

/-- C1 (re-chunking invariance).  For every model, every stream state and all sample lists
`a` and `b`, feeding `a` and then `b` has the same outcome (the same returned state, field by
field and with the same call log, or the same fault) as feeding `a ++ b` in one call; hence
finishing after any sequence of feeds has the same outcome, in particular returns the same
`probs_`, as finishing after one feed of the concatenation.  Under a valid geometry, with the
audio buffer below the window length and the other buffers within capacity, both ways of
feeding return, and return the same state. -/
theorem C1_rechunking_invariance (m : ModelState) (s : StreamingState) :
    (∀ (a b : List ℤ) (r : Res StreamingState), r ≠ Res.diverge →
      ((∃ N, (feedAudioContent N m s a).bind (fun s1 => feedAudioContent N m s1 b) = r) ↔
        ∃ N, feedAudioContent N m s (a ++ b) = r)) ∧
    (∀ (chunks : List (List ℤ)) (r : Res StreamingState), r ≠ Res.diverge →
      ((∃ N, (feedAll N m s chunks).bind (fun s1 => finishStream N m s1) = r) ↔
        ∃ N, (feedAudioContent N m s chunks.flatten).bind
          (fun s1 => finishStream N m s1) = r)) ∧
    (ValidGeometry m → s.audio_buffer_.length < m.audio_win_len_ → WithinCapacity m s →
      ∀ (a b : List ℤ), ∃ N s2, feedAudioContent N m s (a ++ b) = Res.ok s2 ∧
        (feedAudioContent N m s a).bind (fun s1 => feedAudioContent N m s1 b) = Res.ok s2) := by
  refine ⟨fun a b r hd => feedAudioContent_append m s a b r hd,
    fun chunks r hd => feedAll_finish m chunks s r hd, ?_⟩
  intro hg ha hw a b
  obtain ⟨N, s2, h, _, _⟩ := feedAudioContent_total m hg s (a ++ b) ha hw
  exact ⟨N, s2, h, feedAudioContent_loop_split N m N s a b _ h (by simp)⟩

/-- Witness for C1 on the scenario model: thirty-two samples fed as four chunks of eight and
as one chunk, then finished. -/
theorem C1_rechunking_invariance_witness :
    ValidGeometry scenarioModel ∧
    WithinCapacity scenarioModel (freshState scenarioModel) ∧
    ∃ s2,
      (∃ N, (feedAll N scenarioModel (freshState scenarioModel)
          [[1, 2, 3, 4, 5, 6, 7, 8], [9, 10, 11, 12, 13, 14, 15, 16],
            [17, 18, 19, 20, 21, 22, 23, 24], [25, 26, 27, 28, 29, 30, 31, 32]]).bind
          (fun s1 => finishStream N scenarioModel s1) = Res.ok s2) ∧
      (∃ N, (feedAudioContent N scenarioModel (freshState scenarioModel)
          [1, 2, 3, 4, 5, 6, 7, 8, 9, 10, 11, 12, 13, 14, 15, 16,
            17, 18, 19, 20, 21, 22, 23, 24, 25, 26, 27, 28, 29, 30, 31, 32]).bind
          (fun s1 => finishStream N scenarioModel s1) = Res.ok s2) ∧
      s2.probs_.length = 16 ∧
      ∃ N s3,
        feedAudioContent N scenarioModel (freshState scenarioModel) ([1, 2, 3] ++ [4, 5])
          = Res.ok s3 ∧
        (feedAudioContent N scenarioModel (freshState scenarioModel) [1, 2, 3]).bind
          (fun s1 => feedAudioContent N scenarioModel s1 [4, 5]) = Res.ok s3 :=
  ⟨by decide, by decide, _, ⟨20, rfl⟩,
    ((C1_rechunking_invariance scenarioModel (freshState scenarioModel)).2.1
      [[1, 2, 3, 4, 5, 6, 7, 8], [9, 10, 11, 12, 13, 14, 15, 16],
        [17, 18, 19, 20, 21, 22, 23, 24], [25, 26, 27, 28, 29, 30, 31, 32]] _
      (fun h => Res.noConfusion h)).mp ⟨20, rfl⟩, by decide,
    (C1_rechunking_invariance scenarioModel (freshState scenarioModel)).2.2
      (by decide) (by decide) (by decide) [1, 2, 3] [4, 5]⟩


/-! ### The audio window -/

@[simp] theorem Call.windows_append (a b : List Call) :
    Call.windows (a ++ b) = Call.windows a ++ Call.windows b := by
  simp [Call.windows, List.filterMap_append]

@[simp] theorem Call.rows_append (a b : List Call) :
    Call.rows (a ++ b) = Call.rows a ++ Call.rows b := by
  simp [Call.rows, List.filterMap_append]

@[simp] theorem Call.frames_append (a b : List Call) :
    Call.frames (a ++ b) = Call.frames a ++ Call.frames b := by
  simp [Call.frames, List.filterMap_append]

/-- `processAudioWindow` logs one `compute_mfcc` call, on its argument, and leaves the audio
buffer alone. -/
theorem processAudioWindow_windows (N : Nat) (m : ModelState) (s : StreamingState)
    (w : List ℚ) (s1 : StreamingState) (h : processAudioWindow N m s w = Res.ok s1) :
    Call.windows s1.calls = Call.windows s.calls ++ [w] ∧
      s1.audio_buffer_ = s.audio_buffer_ := by
  refine pushMfccBuffer_keeps N m
    (fun t => Call.windows t.calls = Call.windows s.calls ++ [w] ∧
      t.audio_buffer_ = s.audio_buffer_) ?_ ?_ ?_ ?_ _ _ s1 h ?_
  · intro t buf n ht
    simpa [processBatch, Call.windows] using ht
  · intro t b ht; exact ht
  · intro t row ht
    simpa [Call.windows] using ht
  · intro t b ht; exact ht
  · simp [Call.windows]

theorem windowCount_step (len step n : Nat) (h1 : 1 ≤ step) (h2 : step ≤ len)
    (h3 : len ≤ n) :
    windowCount len step n = windowCount len step (n - step) + 1 := by
  unfold windowCount
  rw [if_neg (by omega)]
  by_cases h : n - step < len
  · have h4 : n - len < step := by omega
    rw [if_pos h, Nat.div_eq_of_lt h4]
  · rw [if_neg h]
    have : n - len = (n - step - len) + step := by omega
    rw [this, Nat.add_div_right _ (by omega)]

/-- The outer loop of `feedAudioContent` in terms of the sample sequence `T` made of the
audio buffer followed by the converted samples: the windows are the slices of `T` at
multiples of the step, and the suffix of `T` after them is left in the audio buffer. -/
theorem feedAudioContent_loop_windows (N : Nat) (m : ModelState)
    (h1 : 1 ≤ m.audio_win_step_) (h2 : m.audio_win_step_ ≤ m.audio_win_len_) :
    ∀ (fuel : Nat) (s : StreamingState) (buf : List ℤ) (s1 : StreamingState),
      feedAudioContent_loop N m fuel s buf = Res.ok s1 →
      s.audio_buffer_.length < m.audio_win_len_ →
      Call.windows s1.calls = Call.windows s.calls ++
          (List.range (windowCount m.audio_win_len_ m.audio_win_step_
              (s.audio_buffer_ ++ buf.map sample_to_float).length)).map
            (fun i => ((s.audio_buffer_ ++ buf.map sample_to_float).drop
              (i * m.audio_win_step_)).take m.audio_win_len_) ∧
        s1.audio_buffer_ = (s.audio_buffer_ ++ buf.map sample_to_float).drop
          (windowCount m.audio_win_len_ m.audio_win_step_
            (s.audio_buffer_ ++ buf.map sample_to_float).length * m.audio_win_step_) := by
  intro fuel
  induction fuel with
  | zero =>
    intro s buf s1 h ha
    cases buf with
    | nil =>
      simp only [feedAudioContent_loop_nil, Res.ok.injEq] at h
      subst h
      simp [windowCount, ha]
    | cons x xs => exact absurd h (by simp [feedAudioContent_loop])
  | succ n ih =>
    intro s buf s1 h ha
    cases buf with
    | nil =>
      simp only [feedAudioContent_loop_nil, Res.ok.injEq] at h
      subst h
      simp [windowCount, ha]
    | cons x xs =>
      rw [feedAudioContent_loop_succ] at h
      have hR := feedAudioContent_inner_eq m (x :: xs) s.audio_buffer_
      generalize hT : s.audio_buffer_ ++ (x :: xs).map sample_to_float = T
      generalize hk : m.audio_win_len_ - s.audio_buffer_.length = k at hR
      have hTsplit : T = (s.audio_buffer_ ++ ((x :: xs).take k).map sample_to_float) ++
          ((x :: xs).drop k).map sample_to_float := by
        rw [← hT, List.append_assoc, ← List.map_append, List.take_append_drop]
      rw [hR] at h
      simp only [] at h
      generalize hA : s.audio_buffer_ ++ ((x :: xs).take k).map sample_to_float = A at h hTsplit
      have hAlen : A.length = min m.audio_win_len_ T.length := by
        rw [← hA, ← hT]
        simp only [List.length_append, List.length_map, List.length_take]
        omega
      split_ifs at h with hL
      · obtain ⟨s2, h3, h4⟩ := Res.bind_eq_ok.mp h
        obtain ⟨hw2, ha2⟩ := processAudioWindow_windows N m _ _ s2 h3
        simp only [] at hw2 ha2
        rw [ha2, shift_buffer_left_eq _ _ (by omega)] at h4
        simp only [Res.ok_bind] at h4
        obtain ⟨ih1, ih2⟩ := ih _ _ s1 h4 (by
          show (A.drop m.audio_win_step_).length < _
          rw [List.length_drop]; omega)
        simp only [] at ih1 ih2
        have hT2 : A.drop m.audio_win_step_ ++ ((x :: xs).drop k).map sample_to_float
            = T.drop m.audio_win_step_ := by
          rw [hTsplit, List.drop_append_of_le_length (by omega)]
        rw [hT2] at ih1 ih2
        have hTL : m.audio_win_len_ ≤ T.length := by omega
        have hW := windowCount_step m.audio_win_len_ m.audio_win_step_ T.length h1 h2 hTL
        have hTl : (T.drop m.audio_win_step_).length = T.length - m.audio_win_step_ :=
          List.length_drop _ _
        rw [hTl] at ih1 ih2
        rw [hW]
        have e0 : T.take m.audio_win_len_ = A := by
          rw [hTsplit, List.take_append_of_le_length (by omega),
            List.take_of_length_le (by omega)]
        have e1 : ∀ i, (T.drop m.audio_win_step_).drop (i * m.audio_win_step_)
            = T.drop ((i + 1) * m.audio_win_step_) := by
          intro i
          rw [List.drop_drop]
          congr 1
          rw [Nat.succ_mul]; omega
        constructor
        · rw [ih1, hw2, List.range_succ_eq_map, List.map_cons, List.map_map,
            List.append_assoc]
          simp only [Nat.zero_mul, List.drop_zero, e0, List.singleton_append, e1]
          rfl
        · rw [ih2, e1]
      · have hlt : T.length < m.audio_win_len_ := by omega
        have hdrop : (x :: xs).drop k = [] := by
          apply List.drop_eq_nil_of_le
          have : T.length = s.audio_buffer_.length + (x :: xs).length := by
            rw [← hT]; simp
          omega
        rw [hdrop] at h hTsplit
        simp only [feedAudioContent_loop_nil, Res.ok.injEq, List.map_nil,
          List.append_nil] at h hTsplit
        subst h
        subst hTsplit
        simp [windowCount, hlt]

theorem feedAudioContent_windows (N : Nat) (m : ModelState)
    (h1 : 1 ≤ m.audio_win_step_) (h2 : m.audio_win_step_ ≤ m.audio_win_len_)
    (s : StreamingState) (buf : List ℤ) (s1 : StreamingState)
    (h : feedAudioContent N m s buf = Res.ok s1)
    (ha : s.audio_buffer_.length < m.audio_win_len_) :
    Call.windows s1.calls = Call.windows s.calls ++
        (List.range (windowCount m.audio_win_len_ m.audio_win_step_
            (s.audio_buffer_ ++ buf.map sample_to_float).length)).map
          (fun i => ((s.audio_buffer_ ++ buf.map sample_to_float).drop
            (i * m.audio_win_step_)).take m.audio_win_len_) ∧
      s1.audio_buffer_ = (s.audio_buffer_ ++ buf.map sample_to_float).drop
        (windowCount m.audio_win_len_ m.audio_win_step_
          (s.audio_buffer_ ++ buf.map sample_to_float).length * m.audio_win_step_) :=
  feedAudioContent_loop_windows N m h1 h2 N s buf s1 h ha

theorem shift_buffer_left_eq_ok (buf : List ℚ) (k : Nat) (b : List ℚ)
    (h : shift_buffer_left buf k = Res.ok b) : k ≤ buf.length ∧ b = buf.drop k := by
  by_cases hk : k ≤ buf.length
  · rw [shift_buffer_left_eq _ _ hk] at h
    simp only [Res.ok.injEq] at h
    exact ⟨hk, h.symm⟩
  · rw [shift_buffer_left_fault _ _ (by omega)] at h
    exact absurd h (by simp)

/-- `processMfccWindow` logs its argument as one row and leaves the MFCC buffer alone. -/
theorem processMfccWindow_rows (N : Nat) (m : ModelState) (s : StreamingState)
    (row : List ℚ) (s1 : StreamingState) (h : processMfccWindow N m s row = Res.ok s1) :
    Call.rows s1.calls = Call.rows s.calls ++ [row] ∧ s1.mfcc_buffer_ = s.mfcc_buffer_ ∧
      s1.audio_buffer_ = s.audio_buffer_ := by
  refine processMfccWindow_loop_keeps m
    (fun t => Call.rows t.calls = Call.rows s.calls ++ [row] ∧
      t.mfcc_buffer_ = s.mfcc_buffer_ ∧ t.audio_buffer_ = s.audio_buffer_) ?_ ?_ _ _ _ s1 h ?_
  · intro t buf n ht
    simpa [processBatch, Call.rows] using ht
  · intro t b ht; exact ht
  · simp [Call.rows]

/-- A push of a vector that fits in the MFCC buffer: either the buffer is filled, emitted as
a row and shifted by one feature vector, or the vector is appended. -/
theorem pushMfccBuffer_fit (N : Nat) (m : ModelState) (s : StreamingState) (v : List ℚ)
    (s2 : StreamingState) (h : pushMfccBuffer N m s v = Res.ok s2)
    (hfit : s.mfcc_buffer_.length + v.length ≤ m.mfcc_feats_per_timestep_)
    (hlt : s.mfcc_buffer_.length < m.mfcc_feats_per_timestep_)
    (hfw : m.mfcc_feats_per_timestep_ < 2 ^ 31) :
    if s.mfcc_buffer_.length + v.length = m.mfcc_feats_per_timestep_ then
      ∃ s3, processMfccWindow N m { s with mfcc_buffer_ := s.mfcc_buffer_ ++ v }
          (s.mfcc_buffer_ ++ v) = Res.ok s3 ∧
        m.n_features_ ≤ m.mfcc_feats_per_timestep_ ∧
        s2 = { s3 with mfcc_buffer_ := (s.mfcc_buffer_ ++ v).drop m.n_features_ }
    else s2 = { s with mfcc_buffer_ := s.mfcc_buffer_ ++ v } := by
  unfold pushMfccBuffer at h
  cases v with
  | nil =>
    simp only [pushMfccBuffer_loop_nil, Res.ok.injEq] at h
    subst h
    rw [if_neg (by simp; omega)]
    simp
  | cons x xs =>
    cases N with
    | zero => exact absurd h (by simp [pushMfccBuffer_loop])
    | succ k =>
      rw [pushMfccBuffer_loop_step (k + 1) m hfw _ _ _ _ (Nat.le_of_lt hlt)] at h
      rw [List.take_of_length_le (by omega), List.drop_of_length_le (by omega)] at h
      rw [if_pos (by rw [List.length_append]; exact hfit)] at h
      by_cases hfull : s.mfcc_buffer_.length + (x :: xs).length = m.mfcc_feats_per_timestep_
      · rw [if_pos hfull]
        rw [if_pos (by rw [List.length_append]; exact hfull)] at h
        obtain ⟨s3, h3, h4⟩ := Res.bind_eq_ok.mp h
        obtain ⟨b, h5, h6⟩ := Res.bind_eq_ok.mp h4
        obtain ⟨_, hm3, _⟩ := processMfccWindow_rows _ m _ _ s3 h3
        simp only [] at hm3
        obtain ⟨h7, h8⟩ := shift_buffer_left_eq_ok _ _ _ h5
        simp only [pushMfccBuffer_loop_nil, Res.ok.injEq] at h6
        refine ⟨s3, h3, ?_, ?_⟩
        · rw [hm3, List.length_append] at h7; omega
        · rw [← h6, h8, hm3]
      · rw [if_neg hfull]
        rw [if_neg (by rw [List.length_append]; exact hfull)] at h
        simpa using h.symm

theorem length_flatten_of_forall {nf : Nat} :
    ∀ (Q : List (List ℚ)), (∀ q ∈ Q, q.length = nf) → Q.flatten.length = Q.length * nf := by
  intro Q
  induction Q with
  | nil => intro _; simp
  | cons q Q ih =>
    intro h
    rw [List.flatten_cons, List.length_append, ih (fun q1 hq1 => h q1 (List.mem_cons_of_mem _ hq1)),
      h q (List.mem_cons_self _ _), List.length_cons, Nat.succ_mul]
    omega

theorem drop_flatten_of_forall {nf : Nat} (Q : List (List ℚ)) (hQ : ∀ q ∈ Q, q.length = nf)
    (hne : Q ≠ []) : Q.flatten.drop nf = (Q.drop 1).flatten := by
  cases Q with
  | nil => exact absurd rfl hne
  | cons q Q =>
    rw [List.flatten_cons, List.drop_one, List.tail_cons,
      List.drop_append_of_le_length (by rw [hQ q (List.mem_cons_self _ _)]),
      List.drop_of_length_le (by rw [hQ q (List.mem_cons_self _ _)])]
    simp

/-- Pushing feature vectors of length `n_features_` one by one, from an MFCC buffer that
holds the vectors `Q`: the rows emitted are the windows of `2 * n_context_ + 1` consecutive
vectors of `Q ++ fs`, and the buffer keeps the last `2 * n_context_` of them. -/
theorem pushAll_rows (N : Nat) (m : ModelState) (hnf : 1 ≤ m.n_features_)
    (hfe : m.mfcc_feats_per_timestep_ = m.n_features_ * (2 * m.n_context_ + 1))
    (hfw : m.mfcc_feats_per_timestep_ < 2 ^ 31) :
    ∀ (fs Q : List (List ℚ)) (s s1 : StreamingState),
      (∀ f ∈ fs, f.length = m.n_features_) → (∀ q ∈ Q, q.length = m.n_features_) →
      Q.length ≤ 2 * m.n_context_ → s.mfcc_buffer_ = Q.flatten →
      pushAll N m s fs = Res.ok s1 →
      Call.rows s1.calls = Call.rows s.calls ++
          (List.range (Q.length + fs.length - 2 * m.n_context_)).map
            (fun j => (((Q ++ fs).drop j).take (2 * m.n_context_ + 1)).flatten) ∧
        s1.mfcc_buffer_ =
          ((Q ++ fs).drop (Q.length + fs.length - 2 * m.n_context_)).flatten := by
  intro fs
  induction fs with
  | nil =>
    intro Q s s1 _ _ hQl hs h
    simp only [pushAll, Res.ok.injEq] at h
    subst h
    have : Q.length + ([] : List (List ℚ)).length - 2 * m.n_context_ = 0 := by
      simp only [List.length_nil]; omega
    rw [this]
    simp [hs]
  | cons f fs ih =>
    intro Q s s1 hfs hQ hQl hs h
    simp only [pushAll] at h
    obtain ⟨s2, h2, h3⟩ := Res.bind_eq_ok.mp h
    have hf : f.length = m.n_features_ := hfs f (List.mem_cons_self _ _)
    have hfs1 : ∀ g ∈ fs, g.length = m.n_features_ :=
      fun g hg => hfs g (List.mem_cons_of_mem _ hg)
    have hlen : s.mfcc_buffer_.length = Q.length * m.n_features_ := by
      rw [hs]; exact length_flatten_of_forall Q hQ
    have hcap : m.mfcc_feats_per_timestep_ = 2 * m.n_context_ * m.n_features_ + m.n_features_ := by
      rw [hfe, Nat.mul_add, Nat.mul_one, Nat.mul_comm]
    have hQn : Q.length * m.n_features_ ≤ 2 * m.n_context_ * m.n_features_ :=
      Nat.mul_le_mul_right _ hQl
    have hfit := pushMfccBuffer_fit N m s f s2 h2 (by omega) (by omega) hfw
    have hQf : ∀ q ∈ Q ++ [f], q.length = m.n_features_ := by
      intro q hq
      rcases List.mem_append.mp hq with hq | hq
      · exact hQ q hq
      · rw [List.mem_singleton.mp hq]; exact hf
    have hrow : s.mfcc_buffer_ ++ f = (Q ++ [f]).flatten := by
      rw [hs]; simp
    by_cases hfull : Q.length = 2 * m.n_context_
    · rw [if_pos (by rw [hlen, hf, hcap, hfull])] at hfit
      obtain ⟨s3, h4, _, h5⟩ := hfit
      obtain ⟨hr3, _, _⟩ := processMfccWindow_rows N m _ _ s3 h4
      simp only [] at hr3
      have hm2 : s2.mfcc_buffer_ = ((Q ++ [f]).drop 1).flatten := by
        rw [h5]
        show (s.mfcc_buffer_ ++ f).drop m.n_features_ = _
        rw [hrow]
        exact drop_flatten_of_forall _ hQf (by simp)
      have hr2 : Call.rows s2.calls = Call.rows s.calls ++ [(Q ++ [f]).flatten] := by
        rw [h5]
        show Call.rows s3.calls = _
        rw [hr3, hrow]
      obtain ⟨ih1, ih2⟩ := ih ((Q ++ [f]).drop 1) s2 s1 hfs1
        (fun q hq => hQf q (List.mem_of_mem_drop hq))
        (by simp only [List.length_drop, List.length_append, List.length_singleton]; omega)
        hm2 h3
      have hP : (Q ++ [f]).drop 1 ++ fs = (Q ++ f :: fs).drop 1 := by
        rw [← List.drop_append_of_le_length (by simp)]
        simp
      have hc1 : ((Q ++ [f]).drop 1).length + fs.length - 2 * m.n_context_ = fs.length := by
        simp only [List.length_drop, List.length_append, List.length_singleton]; omega
      have hc2 : Q.length + (f :: fs).length - 2 * m.n_context_ = fs.length + 1 := by
        simp only [List.length_cons]; omega
      rw [hP, hc1] at ih1 ih2
      rw [hc2]
      constructor
      · rw [ih1, hr2, List.range_succ_eq_map, List.map_cons, List.map_map, List.append_assoc]
        simp only [List.drop_zero, List.singleton_append, List.drop_drop]
        have e0 : (Q ++ f :: fs).take (2 * m.n_context_ + 1) = Q ++ [f] := by
          rw [← hfull, List.take_append_eq_append_take]
          simp
        rw [e0]
        congr 2
        apply List.map_congr_left
        intro j _
        simp only [Function.comp]
        rw [Nat.add_comm 1 j]
      · rw [ih2, List.drop_drop, Nat.add_comm 1]
    · rw [if_neg (by
        rw [hlen, hf, hcap]
        intro he
        have : Q.length * m.n_features_ = 2 * m.n_context_ * m.n_features_ := by omega
        exact hfull (Nat.eq_of_mul_eq_mul_right (by omega) this))] at hfit
      have hm2 : s2.mfcc_buffer_ = (Q ++ [f]).flatten := by
        rw [hfit]; exact hrow
      have hr2 : Call.rows s2.calls = Call.rows s.calls := by rw [hfit]
      obtain ⟨ih1, ih2⟩ := ih (Q ++ [f]) s2 s1 hfs1 hQf
        (by simp only [List.length_append, List.length_singleton]; omega) hm2 h3
      have hP : (Q ++ [f]) ++ fs = Q ++ f :: fs := by simp
      have hc1 : (Q ++ [f]).length + fs.length = Q.length + (f :: fs).length := by
        rw [List.length_append, List.length_cons, List.length_cons, List.length_nil]; omega
      rw [hP, hc1, hr2] at ih1
      rw [hP, hc1] at ih2
      exact ⟨ih1, ih2⟩

theorem pushAll_total (N : Nat) (m : ModelState) (hnf : 1 ≤ m.n_features_)
    (hfe : m.n_features_ ≤ m.mfcc_feats_per_timestep_)
    (hN : m.mfcc_feats_per_timestep_ ≤ N)
    (hnw : m.n_steps_ * m.mfcc_feats_per_timestep_ < 2 ^ 31) :
    ∀ (fs : List (List ℚ)) (s : StreamingState),
      (∀ f ∈ fs, f.length = m.n_features_) → WithinCapacity m s →
      ∃ s1, pushAll N m s fs = Res.ok s1 ∧ WithinCapacity m s1 := by
  intro fs
  induction fs with
  | nil => intro s _ hw; exact ⟨s, rfl, hw⟩
  | cons f fs ih =>
    intro s hfs hw
    obtain ⟨s1, h1, hw1, _⟩ := pushMfccBuffer_total N m s f hnf hfe hN
      (by rw [hfs f (List.mem_cons_self _ _)]; omega) hw hnw
    obtain ⟨s2, h2, hw2⟩ := ih s1 (fun g hg => hfs g (List.mem_cons_of_mem _ hg)) hw1
    refine ⟨s2, ?_, hw2⟩
    simp only [pushAll]
    rw [h1]
    simpa using h2

theorem freshState_mfcc (m : ModelState) (hz : m.n_features_ * m.n_context_ < 2 ^ 32) :
    (freshState m).mfcc_buffer_ =
      (List.replicate m.n_context_ (List.replicate m.n_features_ (0 : ℚ))).flatten := by
  simp only [freshState]
  rw [u32_mul_eq _ _ hz]
  clear hz
  induction m.n_context_ with
  | zero => simp
  | succ n ih =>
    rw [List.replicate_succ, List.flatten_cons, ← ih, Nat.mul_succ, Nat.add_comm,
      List.replicate_add]

/-- C3 (MFCC context stacking).  On a stream just created, with `n_features_ ≥ 1` and
`mfcc_feats_per_timestep_ = n_features_ * (2 * n_context_ + 1)` below `2 ^ 31`, if the
feature vectors `fs`, each of length `n_features_`, are pushed one by one and the pushes
return, then exactly `fs.length - n_context_` rows are passed to `processMfccWindow`, and row
`j` is the concatenation of the `2 * n_context_ + 1` vectors of `P` from position `j` on,
where `P` is `n_context_` zero vectors followed by `fs`.  The first `n_context_` blocks of the
first window are the zero vectors, and the centre block of window `j` is `fs[j]`.  With
`n_steps_ ≥ 1` and the batch capacity below `2 ^ 31` the pushes return. -/
theorem C3_mfcc_context_stacking (m : ModelState) (hnf : 1 ≤ m.n_features_)
    (hfe : m.mfcc_feats_per_timestep_ = m.n_features_ * (2 * m.n_context_ + 1))
    (hfw : m.mfcc_feats_per_timestep_ < 2 ^ 31)
    (st : Stream) (hst : STT_CreateStream (some m) = some st)
    (fs : List (List ℚ)) (hfs : ∀ f ∈ fs, f.length = m.n_features_) :
    (∀ (N : Nat) (s1 : StreamingState), pushAll N m st.state fs = Res.ok s1 →
      Call.rows s1.calls =
          (List.range (fs.length - m.n_context_)).map
            (fun j =>
              (((List.replicate m.n_context_ (List.replicate m.n_features_ (0 : ℚ)) ++ fs).drop
                j).take (2 * m.n_context_ + 1)).flatten) ∧
        (Call.rows s1.calls).length = fs.length - m.n_context_) ∧
    ((List.replicate m.n_context_ (List.replicate m.n_features_ (0 : ℚ)) ++ fs).take
        (2 * m.n_context_ + 1)).take m.n_context_ =
      List.replicate m.n_context_ (List.replicate m.n_features_ (0 : ℚ)) ∧
    (∀ j : Nat,
      (((List.replicate m.n_context_ (List.replicate m.n_features_ (0 : ℚ)) ++ fs).drop
        j).take (2 * m.n_context_ + 1))[m.n_context_]? = fs[j]?) ∧
    (1 ≤ m.n_steps_ → m.n_steps_ * m.mfcc_feats_per_timestep_ < 2 ^ 31 →
      ∃ N s1, pushAll N m st.state fs = Res.ok s1) := by
  rw [STT_CreateStream_some] at hst
  simp only [Option.some.injEq] at hst
  subst hst
  refine ⟨?_, ?_, ?_, ?_⟩
  · intro N s1 h
    have hr := (pushAll_rows N m hnf hfe hfw fs
      (List.replicate m.n_context_ (List.replicate m.n_features_ (0 : ℚ)))
      (freshState m) s1 hfs
      (fun q hq => by rw [List.eq_of_mem_replicate hq, List.length_replicate])
      (by rw [List.length_replicate]; omega)
      (freshState_mfcc m (zeros_no_wrap m hfe hfw)) h).1
    have hc : (List.replicate m.n_context_ (List.replicate m.n_features_ (0 : ℚ))).length
        + fs.length - 2 * m.n_context_ = fs.length - m.n_context_ := by
      rw [List.length_replicate]; omega
    rw [hc] at hr
    have hr2 : Call.rows s1.calls = (List.range (fs.length - m.n_context_)).map
        (fun j =>
          (((List.replicate m.n_context_ (List.replicate m.n_features_ (0 : ℚ)) ++ fs).drop
            j).take (2 * m.n_context_ + 1)).flatten) := by
      simpa [freshState, Call.rows] using hr
    exact ⟨hr2, by rw [hr2, List.length_map, List.length_range]⟩
  · rw [List.take_take, Nat.min_eq_left (by omega),
      List.take_append_of_le_length (by rw [List.length_replicate]),
      List.take_of_length_le (by rw [List.length_replicate])]
  · intro j
    rw [List.getElem?_take_of_lt (by omega), List.getElem?_drop,
      List.getElem?_append_right (by rw [List.length_replicate]; omega),
      List.length_replicate]
    congr 1
    omega
  · intro hns hnw
    have hfe2 : m.n_features_ ≤ m.mfcc_feats_per_timestep_ := by
      rw [hfe]; exact Nat.le_mul_of_pos_right _ (by omega)
    have hw : WithinCapacity m (freshState m) := by
      constructor
      · simp only [freshState, List.length_replicate]
        rw [u32_mul_eq _ _ (zeros_no_wrap m hfe hfw), hfe]
        exact Nat.mul_lt_mul_of_pos_left (by omega) (by omega)
      · simp only [freshState, List.length_nil]
        exact Nat.mul_pos hns (by omega)
    obtain ⟨s1, h1, _⟩ := pushAll_total m.mfcc_feats_per_timestep_ m hnf hfe2
      (Nat.le_refl _) hnw fs (freshState m) hfs hw
    exact ⟨_, s1, h1⟩

/-- Witness for C3 on the scenario model: three feature vectors pushed on a fresh stream
give two rows. -/
theorem C3_mfcc_context_stacking_witness :
    ∃ s1, pushAll 6 scenarioModel (freshState scenarioModel) [[1, 2], [3, 4], [5, 6]]
        = Res.ok s1 ∧
      Call.rows s1.calls = [[0, 0, 1, 2, 3, 4], [1, 2, 3, 4, 5, 6]] :=
  ⟨_, rfl,
    ((C3_mfcc_context_stacking scenarioModel (by decide) (by decide) (by decide)
      { model_ := scenarioModel, state := freshState scenarioModel } rfl
      [[1, 2], [3, 4], [5, 6]] (by decide)).1 6 _ rfl).1⟩


/-! ### The frames of `processBatch` -/

theorem processBatch_loop_new (nc : Nat) (x : ℚ) (xs : List ℚ) (fp : Option Nat)
    (probs : List (List ℚ)) :
    processBatch_loop nc (x :: xs) true fp probs =
      processBatch_loop nc xs (decide (1 = nc)) (some probs.length) (probs ++ [[x]]) := by
  simp [processBatch_loop, List.getD]

theorem processBatch_loop_cont (nc : Nat) (x : ℚ) (xs : List ℚ) (cur : List ℚ)
    (probs : List (List ℚ)) :
    processBatch_loop nc (x :: xs) false (some probs.length) (probs ++ [cur]) =
      processBatch_loop nc xs (decide (cur.length + 1 = nc)) (some probs.length)
        (probs ++ [cur ++ [x]]) := by
  simp [processBatch_loop, List.getD]

/-- Filling the open frame `cur` with the `nc - cur.length` next logits. -/
theorem processBatch_loop_fill (nc : Nat) :
    ∀ (pre cur : List ℚ) (probs : List (List ℚ)) (rest : List ℚ),
      cur.length < nc → cur.length + pre.length = nc →
      processBatch_loop nc (pre ++ rest) false (some probs.length) (probs ++ [cur]) =
        processBatch_loop nc rest true (some probs.length) (probs ++ [cur ++ pre]) := by
  intro pre
  induction pre with
  | nil => intro cur probs rest h1 h2; simp at h2; omega
  | cons x pre ih =>
    intro cur probs rest h1 h2
    rw [List.cons_append, processBatch_loop_cont]
    simp only [List.length_cons] at h2
    by_cases hp : pre = []
    · subst hp
      simp only [List.length_nil] at h2
      simp [h2]
    · have hpl : 0 < pre.length := List.length_pos.mpr hp
      have : decide (cur.length + 1 = nc) = false := by
        simp; omega
      rw [this]
      have := ih (cur ++ [x]) probs rest (by simp; omega) (by simp; omega)
      rw [this]
      simp

/-- One whole frame of `nc` logits is appended to `probs_`. -/
theorem processBatch_loop_frame (nc : Nat) (frame rest : List ℚ) (fp : Option Nat)
    (probs : List (List ℚ)) (hnc : 1 ≤ nc) (hf : frame.length = nc) :
    processBatch_loop nc (frame ++ rest) true fp probs =
      processBatch_loop nc rest true (some probs.length) (probs ++ [frame]) := by
  cases frame with
  | nil => simp at hf; omega
  | cons x pre =>
    rw [List.cons_append, processBatch_loop_new]
    simp only [List.length_cons] at hf
    by_cases hp : pre = []
    · subst hp
      simp only [List.length_nil, Nat.zero_add] at hf
      simp [hf]
    · have hpl : 0 < pre.length := List.length_pos.mpr hp
      have : decide (1 = nc) = false := by
        simp; omega
      rw [this]
      have := processBatch_loop_fill nc pre [x] probs rest (by simp; omega) (by simp; omega)
      rw [this]
      simp

/-- Logits of length `n * nc` are cut into `n` frames of length `nc`. -/
theorem processBatch_loop_eq (nc : Nat) (hnc : 1 ≤ nc) :
    ∀ (n : Nat) (logits : List ℚ) (fp : Option Nat) (probs : List (List ℚ)),
      logits.length = n * nc →
      processBatch_loop nc logits true fp probs =
        probs ++ (List.range n).map (fun i => (logits.drop (i * nc)).take nc) := by
  intro n
  induction n with
  | zero =>
    intro logits fp probs h
    have : logits = [] := List.length_eq_zero.mp (by simpa using h)
    subst this
    simp [processBatch_loop]
  | succ n ih =>
    intro logits fp probs h
    have hsplit : logits = logits.take nc ++ logits.drop nc := (List.take_append_drop _ _).symm
    have htake : (logits.take nc).length = nc := by
      rw [List.length_take, h, Nat.succ_mul]; omega
    have hdrop : (logits.drop nc).length = n * nc := by
      rw [List.length_drop, h, Nat.succ_mul]; omega
    conv_lhs => rw [hsplit]
    rw [processBatch_loop_frame nc _ _ fp probs hnc htake, ih _ _ _ hdrop,
      List.range_succ_eq_map, List.map_cons, List.map_map, List.append_assoc]
    simp only [Nat.zero_mul, List.drop_zero, List.singleton_append, List.drop_drop]
    congr 2
    apply List.map_congr_left
    intro i _
    simp only [Function.comp]
    congr 2
    rw [Nat.succ_mul]; omega

/-- C4 (batch dispatch output).  For every stream state and every batch, if `infer` returns
logits of length `n * (alphabet_size + 1)`, then `processBatch` appends exactly `n` frames to
`probs_`, frame `i` being the logits from `i * (alphabet_size + 1)` up to
`(i + 1) * (alphabet_size + 1)`, leaves the frames stored before unchanged, and overwrites
`previous_state_c_` and `previous_state_h_` with the states `infer` returned; every new frame
has length `alphabet_size + 1`, and so has every frame of `probs_` if the frames stored
before had. -/
theorem C4_batch_dispatch_output (m : ModelState) (s : StreamingState) (buf : List ℚ)
    (n_steps n : Nat)
    (hlen : (m.infer buf n_steps s.previous_state_c_ s.previous_state_h_).1.length
      = n * (m.alphabet_size + 1)) :
    (processBatch m s buf n_steps).probs_ =
        s.probs_ ++ (List.range n).map (fun i =>
          ((m.infer buf n_steps s.previous_state_c_ s.previous_state_h_).1.drop
            (i * (m.alphabet_size + 1))).take (m.alphabet_size + 1)) ∧
      (processBatch m s buf n_steps).probs_.length = s.probs_.length + n ∧
      (processBatch m s buf n_steps).probs_.take s.probs_.length = s.probs_ ∧
      (processBatch m s buf n_steps).previous_state_c_ =
        (m.infer buf n_steps s.previous_state_c_ s.previous_state_h_).2.1 ∧
      (processBatch m s buf n_steps).previous_state_h_ =
        (m.infer buf n_steps s.previous_state_c_ s.previous_state_h_).2.2 ∧
      (∀ f ∈ (processBatch m s buf n_steps).probs_.drop s.probs_.length,
        f.length = m.alphabet_size + 1) ∧
      ((∀ f ∈ s.probs_, f.length = m.alphabet_size + 1) →
        ∀ f ∈ (processBatch m s buf n_steps).probs_, f.length = m.alphabet_size + 1) := by
  have hp : (processBatch m s buf n_steps).probs_ =
      s.probs_ ++ (List.range n).map (fun i =>
        ((m.infer buf n_steps s.previous_state_c_ s.previous_state_h_).1.drop
          (i * (m.alphabet_size + 1))).take (m.alphabet_size + 1)) :=
    processBatch_loop_eq (m.alphabet_size + 1) (by omega) n _ none s.probs_ hlen
  have hnew : ∀ f ∈ (List.range n).map (fun i =>
        ((m.infer buf n_steps s.previous_state_c_ s.previous_state_h_).1.drop
          (i * (m.alphabet_size + 1))).take (m.alphabet_size + 1)),
      f.length = m.alphabet_size + 1 := by
    intro f hf
    obtain ⟨i, hi, rfl⟩ := List.mem_map.mp hf
    have hi2 : i < n := List.mem_range.mp hi
    have : (i + 1) * (m.alphabet_size + 1) ≤ n * (m.alphabet_size + 1) :=
      Nat.mul_le_mul_right _ hi2
    rw [Nat.succ_mul] at this
    rw [List.length_take, List.length_drop, hlen]
    omega
  refine ⟨hp, ?_, ?_, rfl, rfl, ?_, ?_⟩
  · rw [hp, List.length_append, List.length_map, List.length_range]
  · rw [hp, List.take_left]
  · rw [hp, List.drop_left]
    exact hnew
  · intro hold f hf
    rw [hp] at hf
    rcases List.mem_append.mp hf with h | h
    · exact hold f h
    · exact hnew f h

/-- Witness for C4 on the scenario model: a batch of twelve values is cut into two frames of
six. -/
theorem C4_batch_dispatch_output_witness :
    (processBatch scenarioModel (freshState scenarioModel)
        [1, 2, 3, 4, 5, 6, 7, 8, 9, 10, 11, 12] 2).probs_ =
      [[1, 2, 3, 4, 5, 6], [7, 8, 9, 10, 11, 12]] :=
  (C4_batch_dispatch_output scenarioModel (freshState scenarioModel)
    [1, 2, 3, 4, 5, 6, 7, 8, 9, 10, 11, 12] 2 2 rfl).1


/-! ### Properties kept row by row

A property of the state that is kept by `processMfccWindow` on rows of full length, and by
the updates of the other buffers, is kept by the stages above it. -/

theorem pushMfccBuffer_loop_keeps_rows (N : Nat) (m : ModelState) (P : StreamingState → Prop)
    (hrow : ∀ s row s1, row.length = m.mfcc_feats_per_timestep_ → P s →
      processMfccWindow N m s row = Res.ok s1 → P s1)
    (hm : ∀ s b, P s → P { s with mfcc_buffer_ := b }) :
    ∀ (fuel : Nat) (s : StreamingState) (rest : List ℚ) (s1 : StreamingState),
      pushMfccBuffer_loop N m fuel s rest = Res.ok s1 → P s → P s1 := by
  intro fuel
  induction fuel with
  | zero =>
    intro s rest s1 h hP
    cases rest with
    | nil => simp at h; exact h ▸ hP
    | cons x xs => exact absurd h (by simp [pushMfccBuffer_loop])
  | succ n ih =>
    intro s rest s1 h hP
    cases rest with
    | nil => simp at h; exact h ▸ hP
    | cons x xs =>
      rw [pushMfccBuffer_loop_succ] at h
      split_ifs at h with h1 h2
      · obtain ⟨s2, h3, h4⟩ := Res.bind_eq_ok.mp h
        obtain ⟨b, _, h6⟩ := Res.bind_eq_ok.mp h4
        exact ih _ _ _ h6 (hm _ _ (hrow _ _ s2 h2 (hm _ _ hP) h3))
      · exact ih _ _ _ h (hm _ _ hP)

theorem processAudioWindow_keeps_rows (N : Nat) (m : ModelState) (P : StreamingState → Prop)
    (hrow : ∀ s row s1, row.length = m.mfcc_feats_per_timestep_ → P s →
      processMfccWindow N m s row = Res.ok s1 → P s1)
    (hm : ∀ s b, P s → P { s with mfcc_buffer_ := b })
    (hc : ∀ s w, P s → P { s with calls := s.calls ++ [Call.compute_mfcc w] })
    (s : StreamingState) (buf : List ℚ) (s1 : StreamingState)
    (h : processAudioWindow N m s buf = Res.ok s1) (hP : P s) : P s1 :=
  pushMfccBuffer_loop_keeps_rows N m P hrow hm N _ _ s1 h (hc _ _ hP)

theorem flushBuffers_zeros_keeps_rows (N : Nat) (m : ModelState) (P : StreamingState → Prop)
    (hrow : ∀ s row s1, row.length = m.mfcc_feats_per_timestep_ → P s →
      processMfccWindow N m s row = Res.ok s1 → P s1)
    (hm : ∀ s b, P s → P { s with mfcc_buffer_ := b }) :
    ∀ (count : Nat) (s s1 : StreamingState),
      flushBuffers_zeros N m count s = Res.ok s1 → P s → P s1 := by
  intro count
  induction count with
  | zero => intro s s1 h hP; simp [flushBuffers_zeros] at h; exact h ▸ hP
  | succ n ih =>
    intro s s1 h hP
    simp only [flushBuffers_zeros] at h
    obtain ⟨s2, h3, h4⟩ := Res.bind_eq_ok.mp h
    exact ih _ _ h4 (pushMfccBuffer_loop_keeps_rows N m P hrow hm N _ _ s2 h3 hP)

theorem flushBuffers_push_keeps_rows (N : Nat) (m : ModelState) (P : StreamingState → Prop)
    (hrow : ∀ s row s1, row.length = m.mfcc_feats_per_timestep_ → P s →
      processMfccWindow N m s row = Res.ok s1 → P s1)
    (hm : ∀ s b, P s → P { s with mfcc_buffer_ := b })
    (hc : ∀ s w, P s → P { s with calls := s.calls ++ [Call.compute_mfcc w] })
    (s : StreamingState) (z : Bool) (s1 : StreamingState)
    (h : flushBuffers_push N m s z = Res.ok s1) (hP : P s) : P s1 := by
  unfold flushBuffers_push at h
  obtain ⟨s2, h3, h4⟩ := Res.bind_eq_ok.mp h
  have hP2 := processAudioWindow_keeps_rows N m P hrow hm hc _ _ s2 h3 hP
  cases z with
  | false => simp at h4; exact h4 ▸ hP2
  | true =>
    simp only [if_true] at h4
    exact flushBuffers_zeros_keeps_rows N m P hrow hm _ _ _ h4 hP2

theorem feedAudioContent_loop_keeps_rows (N : Nat) (m : ModelState)
    (P : StreamingState → Prop)
    (hrow : ∀ s row s1, row.length = m.mfcc_feats_per_timestep_ → P s →
      processMfccWindow N m s row = Res.ok s1 → P s1)
    (hm : ∀ s b, P s → P { s with mfcc_buffer_ := b })
    (hc : ∀ s w, P s → P { s with calls := s.calls ++ [Call.compute_mfcc w] })
    (ha : ∀ s b, P s → P { s with audio_buffer_ := b }) :
    ∀ (fuel : Nat) (s : StreamingState) (rest : List ℤ) (s1 : StreamingState),
      feedAudioContent_loop N m fuel s rest = Res.ok s1 → P s → P s1 := by
  intro fuel
  induction fuel with
  | zero =>
    intro s rest s1 h hP
    cases rest with
    | nil => simp at h; exact h ▸ hP
    | cons x xs => exact absurd h (by simp [feedAudioContent_loop])
  | succ n ih =>
    intro s rest s1 h hP
    cases rest with
    | nil => simp at h; exact h ▸ hP
    | cons x xs =>
      rw [feedAudioContent_loop_succ] at h
      split_ifs at h with h1
      · obtain ⟨s2, h3, h4⟩ := Res.bind_eq_ok.mp h
        obtain ⟨b, _, h6⟩ := Res.bind_eq_ok.mp h4
        have hP2 := processAudioWindow_keeps_rows N m P hrow hm hc _ _ s2 h3 (ha _ _ hP)
        exact ih _ _ _ h6 (ha _ _ hP2)
      · exact ih _ _ _ h (ha _ _ hP)

theorem feedAll_keeps_rows (m : ModelState) (P : StreamingState → Prop)
    (hrow : ∀ N s row s1, row.length = m.mfcc_feats_per_timestep_ → P s →
      processMfccWindow N m s row = Res.ok s1 → P s1)
    (hm : ∀ s b, P s → P { s with mfcc_buffer_ := b })
    (hc : ∀ s w, P s → P { s with calls := s.calls ++ [Call.compute_mfcc w] })
    (ha : ∀ s b, P s → P { s with audio_buffer_ := b }) (N : Nat) :
    ∀ (chunks : List (List ℤ)) (s s1 : StreamingState),
      feedAll N m s chunks = Res.ok s1 → P s → P s1 := by
  intro chunks
  induction chunks with
  | nil => intro s s1 h hP; simp [feedAll] at h; exact h ▸ hP
  | cons c cs ih =>
    intro s s1 h hP
    simp only [feedAll] at h
    obtain ⟨s2, h3, h4⟩ := Res.bind_eq_ok.mp h
    exact ih _ _ h4 (feedAudioContent_loop_keeps_rows N m P (hrow N) hm hc ha N s c s2 h3 hP)

/-- What is kept by `processBatch` and by the updates of the batch buffer and of the call log
is kept by `processMfccWindow`. -/
theorem processMfccWindow_keeps_of (m : ModelState) (P : StreamingState → Prop)
    (hB : ∀ s buf n, P s → P (processBatch m s buf n))
    (hb : ∀ s b, P s → P { s with batch_buffer_ := b })
    (hw : ∀ s row, P s → P { s with calls := s.calls ++ [Call.processMfccWindow row] }) :
    ∀ N s row s1, row.length = m.mfcc_feats_per_timestep_ → P s →
      processMfccWindow N m s row = Res.ok s1 → P s1 :=
  fun N s row s1 _ hP h => processMfccWindow_keeps m P hB hb hw N s row s1 h hP

/-- A row that fits in the batch buffer: either the buffer is filled, dispatched with
`n_steps_` frames and emptied, or the row is appended. -/
theorem processMfccWindow_fit (N : Nat) (m : ModelState) (s : StreamingState) (row : List ℚ)
    (s1 : StreamingState) (h : processMfccWindow N m s row = Res.ok s1)
    (hfit : s.batch_buffer_.length + row.length ≤ m.n_steps_ * m.mfcc_feats_per_timestep_)
    (hlt : s.batch_buffer_.length < m.n_steps_ * m.mfcc_feats_per_timestep_)
    (hnw : m.n_steps_ * m.mfcc_feats_per_timestep_ < 2 ^ 31) :
    s1 =
      if s.batch_buffer_.length + row.length = m.n_steps_ * m.mfcc_feats_per_timestep_ then
        { processBatch m
            { s with
              calls := s.calls ++ [Call.processMfccWindow row]
              batch_buffer_ := s.batch_buffer_ ++ row }
            (s.batch_buffer_ ++ row) m.n_steps_ with
          batch_buffer_ := [] }
      else
        { s with
          calls := s.calls ++ [Call.processMfccWindow row]
          batch_buffer_ := s.batch_buffer_ ++ row } := by
  unfold processMfccWindow at h
  cases row with
  | nil =>
    simp only [processMfccWindow_loop_nil, Res.ok.injEq] at h
    subst h
    rw [if_neg (by simp; omega)]
    simp
  | cons x xs =>
    cases N with
    | zero => exact absurd h (by simp [processMfccWindow_loop])
    | succ k =>
      rw [processMfccWindow_loop_step m hnw k
        { s with calls := s.calls ++ [Call.processMfccWindow (x :: xs)] } x xs
        (Nat.le_of_lt hlt)] at h
      simp only [] at h
      rw [List.take_of_length_le (by omega), List.drop_of_length_le (by omega)] at h
      rw [if_pos (by rw [List.length_append]; exact hfit)] at h
      by_cases hfull : s.batch_buffer_.length + (x :: xs).length
          = m.n_steps_ * m.mfcc_feats_per_timestep_
      · rw [if_pos hfull]
        rw [if_pos (by rw [List.length_append]; exact hfull)] at h
        simpa using h.symm
      · rw [if_neg hfull]
        rw [if_neg (by rw [List.length_append]; exact hfull)] at h
        simpa using h.symm


/-! ### Counting frames -/

@[simp] theorem Call.frames_infer (b : List ℚ) (n : Nat) (c h : List ℚ) :
    Call.frames [Call.infer b n c h] = [n] := rfl

@[simp] theorem Call.frames_row (r : List ℚ) : Call.frames [Call.processMfccWindow r] = [] :=
  rfl

@[simp] theorem Call.frames_window (w : List ℚ) : Call.frames [Call.compute_mfcc w] = [] := rfl

@[simp] theorem Call.rows_infer (b : List ℚ) (n : Nat) (c h : List ℚ) :
    Call.rows [Call.infer b n c h] = [] := rfl

@[simp] theorem Call.rows_row (r : List ℚ) : Call.rows [Call.processMfccWindow r] = [r] := rfl

@[simp] theorem Call.rows_window (w : List ℚ) : Call.rows [Call.compute_mfcc w] = [] := rfl

theorem processBatch_probs_length (m : ModelState)
    (hinfer : ∀ buf k c h, buf.length = k * m.mfcc_feats_per_timestep_ →
      (m.infer buf k c h).1.length = k * (m.alphabet_size + 1))
    (s : StreamingState) (buf : List ℚ) (k : Nat)
    (hbuf : buf.length = k * m.mfcc_feats_per_timestep_) :
    (processBatch m s buf k).probs_.length = s.probs_.length + k := by
  have : (processBatch m s buf k).probs_ = _ :=
    processBatch_loop_eq (m.alphabet_size + 1) (by omega) k _ none s.probs_
      (hinfer buf k s.previous_state_c_ s.previous_state_h_ hbuf)
  rw [this, List.length_append, List.length_map, List.length_range]

theorem processMfccWindow_accounted (m : ModelState)
    (hinfer : ∀ buf k c h, buf.length = k * m.mfcc_feats_per_timestep_ →
      (m.infer buf k c h).1.length = k * (m.alphabet_size + 1))
    (hnw : m.n_steps_ * m.mfcc_feats_per_timestep_ < 2 ^ 31)
    (N : Nat) (s : StreamingState) (row : List ℚ) (s1 : StreamingState)
    (hrow : row.length = m.mfcc_feats_per_timestep_) (hP : Accounted m s)
    (h : processMfccWindow N m s row = Res.ok s1) : Accounted m s1 := by
  obtain ⟨⟨j, hj, hb⟩, hsum, hprobs⟩ := hP
  have hle : (j + 1) * m.mfcc_feats_per_timestep_ ≤ m.n_steps_ * m.mfcc_feats_per_timestep_ :=
    Nat.mul_le_mul_right _ hj
  rw [Nat.succ_mul] at hle
  rcases Nat.eq_zero_or_pos m.mfcc_feats_per_timestep_ with h0 | hf
  · have hr0 : row = [] := List.length_eq_zero.mp (by omega)
    subst hr0
    simp only [processMfccWindow, processMfccWindow_loop_nil, Res.ok.injEq] at h
    subst h
    refine ⟨⟨j, hj, hb⟩, ?_, ?_⟩
    · simp only [h0, Nat.mul_zero, Nat.zero_add] at hsum ⊢
      exact hsum
    · simp only [Call.frames_append, Call.frames_row, List.append_nil]
      exact hprobs
  · have hfit := processMfccWindow_fit N m s row s1 h (by omega) (by omega) hnw
    by_cases hfull : s.batch_buffer_.length + row.length
        = m.n_steps_ * m.mfcc_feats_per_timestep_
    · rw [if_pos hfull] at hfit
      subst hfit
      have hns : 0 < m.n_steps_ := by omega
      refine ⟨⟨0, hns, by simp⟩, ?_, ?_⟩
      · simp only [processBatch, Call.frames_append, Call.rows_append, List.sum_append,
          List.length_append, List.length_nil, Nat.add_zero, Call.frames_infer,
          Call.frames_row, Call.rows_infer, Call.rows_row, List.sum_cons, List.sum_nil,
          List.length_cons, List.append_nil]
        rw [Nat.add_mul, Nat.add_mul, Nat.one_mul]
        omega
      · show (processBatch m _ _ _).probs_.length = _
        rw [processBatch_probs_length m hinfer _ _ _
          (by rw [List.length_append]; exact hfull)]
        simp only [processBatch, Call.frames_append, List.sum_append, Call.frames_infer,
          Call.frames_row, List.sum_cons, List.sum_nil, Nat.add_zero]
        omega
    · rw [if_neg hfull] at hfit
      subst hfit
      have hj2 : j + 1 < m.n_steps_ := by
        by_contra hcon
        have : j + 1 = m.n_steps_ := by omega
        rw [← this, Nat.succ_mul] at hfull
        omega
      refine ⟨⟨j + 1, hj2, ?_⟩, ?_, ?_⟩
      · simp only [List.length_append, Nat.succ_mul]; omega
      · simp only [Call.frames_append, Call.rows_append, List.sum_append, List.length_append,
          Call.frames_row, Call.rows_row, List.sum_nil, List.length_cons, List.length_nil,
          Nat.add_zero]
        rw [Nat.add_mul, Nat.one_mul]
        omega
      · simp only [Call.frames_append, Call.frames_row, List.append_nil]
        exact hprobs

theorem flushBuffers_batch_accounted (m : ModelState)
    (hinfer : ∀ buf k c h, buf.length = k * m.mfcc_feats_per_timestep_ →
      (m.infer buf k c h).1.length = k * (m.alphabet_size + 1))
    (hf1 : 1 ≤ m.mfcc_feats_per_timestep_)
    (s s1 : StreamingState) (hP : Accounted m s)
    (h : flushBuffers_batch m s = Res.ok s1) :
    Accounted m s1 ∧ s1.probs_.length = (Call.rows s1.calls).length := by
  obtain ⟨⟨j, hj, hb⟩, hsum, hprobs⟩ := hP
  unfold flushBuffers_batch at h
  split_ifs at h with h1 h2
  · simp only [Res.ok.injEq] at h
    subst h
    have hf : 0 < m.mfcc_feats_per_timestep_ := by omega
    have hdiv : s.batch_buffer_.length / m.mfcc_feats_per_timestep_ = j := by
      rw [hb]; exact Nat.mul_div_cancel _ hf
    have hA : (Call.frames (processBatch m s s.batch_buffer_
        (s.batch_buffer_.length / m.mfcc_feats_per_timestep_)).calls).sum
          = (Call.frames s.calls).sum + j := by
      simp only [processBatch, Call.frames_append, List.sum_append, Call.frames_infer,
        List.sum_cons, List.sum_nil, Nat.add_zero, hdiv]
    have hR : Call.rows (processBatch m s s.batch_buffer_
        (s.batch_buffer_.length / m.mfcc_feats_per_timestep_)).calls = Call.rows s.calls := by
      simp [processBatch, Call.rows]
    have hPl : (processBatch m s s.batch_buffer_
        (s.batch_buffer_.length / m.mfcc_feats_per_timestep_)).probs_.length
          = (Call.frames s.calls).sum + j := by
      rw [processBatch_probs_length m hinfer _ _ _ (by rw [hdiv]; exact hb), hdiv, hprobs]
    have hmul : ((Call.frames s.calls).sum + j) * m.mfcc_feats_per_timestep_
        = (Call.rows s.calls).length * m.mfcc_feats_per_timestep_ := by
      rw [Nat.add_mul]; omega
    refine ⟨⟨⟨0, by omega, by simp⟩, ?_, ?_⟩, ?_⟩
    · show (Call.frames (processBatch m s _ _).calls).sum * _ + 0
        = (Call.rows (processBatch m s _ _).calls).length * _
      rw [hA, hR, Nat.add_zero]
      exact hmul
    · show (processBatch m s _ _).probs_.length = (Call.frames (processBatch m s _ _).calls).sum
      rw [hPl, hA]
    · show (processBatch m s _ _).probs_.length = (Call.rows (processBatch m s _ _).calls).length
      rw [hPl, hR]
      exact Nat.eq_of_mul_eq_mul_right hf hmul
  · simp only [Res.ok.injEq] at h
    subst h
    have hb0 : s.batch_buffer_.length = 0 := by omega
    refine ⟨⟨⟨j, hj, hb⟩, hsum, hprobs⟩, ?_⟩
    rw [hb0, Nat.add_zero] at hsum
    rw [hprobs]
    exact Nat.eq_of_mul_eq_mul_right hf1 hsum

theorem Accounted.set_mfcc {m : ModelState} {s : StreamingState} (b : List ℚ)
    (h : Accounted m s) : Accounted m { s with mfcc_buffer_ := b } := h

theorem Accounted.set_audio {m : ModelState} {s : StreamingState} (b : List ℚ)
    (h : Accounted m s) : Accounted m { s with audio_buffer_ := b } := h

theorem Accounted.log_window {m : ModelState} {s : StreamingState} (w : List ℚ)
    (h : Accounted m s) :
    Accounted m { s with calls := s.calls ++ [Call.compute_mfcc w] } := by
  obtain ⟨h1, h2, h3⟩ := h
  refine ⟨h1, ?_, ?_⟩
  · simpa using h2
  · simpa using h3

theorem freshState_accounted (m : ModelState) (hns : 1 ≤ m.n_steps_) :
    Accounted m (freshState m) :=
  ⟨⟨0, hns, by simp [freshState]⟩, by simp [freshState, Call.frames, Call.rows],
    by simp [freshState, Call.frames]⟩

theorem feedAll_accounted (m : ModelState)
    (hinfer : ∀ buf k c h, buf.length = k * m.mfcc_feats_per_timestep_ →
      (m.infer buf k c h).1.length = k * (m.alphabet_size + 1))
    (hnw : m.n_steps_ * m.mfcc_feats_per_timestep_ < 2 ^ 31)
    (N : Nat) (chunks : List (List ℤ)) (s s1 : StreamingState)
    (h : feedAll N m s chunks = Res.ok s1) (hP : Accounted m s) : Accounted m s1 :=
  feedAll_keeps_rows m (Accounted m)
    (fun N s row s1 hrow hP h => processMfccWindow_accounted m hinfer hnw N s row s1 hrow hP h)
    (fun _ b h => h.set_mfcc b) (fun _ w h => h.log_window w) (fun _ b h => h.set_audio b)
    N chunks s s1 h hP

theorem finishStream_accounted (m : ModelState)
    (hinfer : ∀ buf k c h, buf.length = k * m.mfcc_feats_per_timestep_ →
      (m.infer buf k c h).1.length = k * (m.alphabet_size + 1))
    (hnw : m.n_steps_ * m.mfcc_feats_per_timestep_ < 2 ^ 31)
    (hf1 : 1 ≤ m.mfcc_feats_per_timestep_)
    (N : Nat) (s s1 : StreamingState)
    (h : finishStream N m s = Res.ok s1) (hP : Accounted m s) :
    Accounted m s1 ∧ s1.probs_.length = (Call.rows s1.calls).length := by
  unfold finishStream flushBuffers at h
  obtain ⟨s2, h2, h3⟩ := Res.bind_eq_ok.mp h
  have hP2 := flushBuffers_push_keeps_rows N m (Accounted m)
    (fun s row s1 hrow hP h => processMfccWindow_accounted m hinfer hnw N s row s1 hrow hP h)
    (fun _ b h => h.set_mfcc b) (fun _ w h => h.log_window w) s true s2 h2 hP
  exact flushBuffers_batch_accounted m hinfer hf1 s2 s1 hP2 h3

/-- C5 (frame-count invariant).  On a stream just created under a valid geometry, with
`infer` returning `n_frames * (alphabet_size + 1)` logits on every batch of `n_frames` rows:
after any sequence of
feeds `probs_.length` is the sum of the `n_frames` arguments of the `infer` calls made so far,
and together with the rows waiting in the batch buffer it accounts for all the rows passed to
`processMfccWindow`; after `finishStream` it is again the sum of the `n_frames` arguments and
equals the number of rows passed to `processMfccWindow`.  The feeds and the finish return. -/
theorem C5_frame_count_invariant (m : ModelState) (hg : ValidGeometry m)
    (hinfer : ∀ buf k c h, buf.length = k * m.mfcc_feats_per_timestep_ →
      (m.infer buf k c h).1.length = k * (m.alphabet_size + 1))
    (st : Stream) (hst : STT_CreateStream (some m) = some st) (chunks : List (List ℤ)) :
    (∀ (N : Nat) (s1 : StreamingState), feedAll N m st.state chunks = Res.ok s1 →
      s1.probs_.length = (Call.frames s1.calls).sum ∧
        s1.probs_.length * m.mfcc_feats_per_timestep_ + s1.batch_buffer_.length =
          (Call.rows s1.calls).length * m.mfcc_feats_per_timestep_) ∧
    (∀ (N N1 : Nat) (s1 s2 : StreamingState), feedAll N m st.state chunks = Res.ok s1 →
      finishStream N1 m s1 = Res.ok s2 →
      s2.probs_.length = (Call.frames s2.calls).sum ∧
        s2.probs_.length = (Call.rows s2.calls).length) ∧
    (∃ N s1 s2, feedAll N m st.state chunks = Res.ok s1 ∧ finishStream N m s1 = Res.ok s2) := by
  rw [STT_CreateStream_some] at hst
  simp only [Option.some.injEq] at hst
  subst hst
  have h0 := freshState_accounted m hg.2.2.2.1
  refine ⟨?_, ?_, ?_⟩
  · intro N s1 h
    obtain ⟨_, h2, h3⟩ := feedAll_accounted m hinfer hg.no_wrap N chunks _ s1 h h0
    exact ⟨h3, by rw [h3]; exact h2⟩
  · intro N N1 s1 s2 h hfin
    have h1 := feedAll_accounted m hinfer hg.no_wrap N chunks _ s1 h h0
    obtain ⟨⟨_, _, h3⟩, h4⟩ := finishStream_accounted m hinfer hg.no_wrap hg.feats_pos N1 s1 s2 hfin h1
    exact ⟨h3, h4⟩
  · obtain ⟨N, s1, h, hw, _⟩ := feedAll_total m hg chunks (freshState m)
      (by simp only [freshState, List.length_nil]; have := hg.1; have := hg.2.1; omega)
      (freshState_withinCapacity m hg)
    obtain ⟨N1, s2, h2, _, _⟩ := flushBuffers_total m hg s1 true hw
    refine ⟨max N N1, s1, s2, feedAll_mono m N _ (le_max_left _ _) chunks _ _ h (by simp), ?_⟩
    exact finishStream_mono m N1 _ s1 _ (le_max_right _ _) h2 (by simp)

/-- Witness for C5 on the scenario model: eight samples give two frames before the finish
and four after it. -/
theorem C5_frame_count_invariant_witness :
    ∃ s1 s2, feedAll 5 scenarioModel (freshState scenarioModel) [[1, 2, 3], [4, 5, 6, 7, 8]]
        = Res.ok s1 ∧ finishStream 6 scenarioModel s1 = Res.ok s2 ∧
      s1.probs_.length = 2 ∧ (Call.frames s1.calls).sum = 2 ∧
      s2.probs_.length = 4 ∧ (Call.rows s2.calls).length = 4 ∧
      s2.probs_.length = (Call.frames s2.calls).sum ∧
      s2.probs_.length = (Call.rows s2.calls).length :=
  ⟨_, _, rfl, rfl, by decide, by decide, by decide, by decide,
    (C5_frame_count_invariant scenarioModel (by decide) (fun _ _ _ _ h => h)
      { model_ := scenarioModel, state := freshState scenarioModel } rfl
      [[1, 2, 3], [4, 5, 6, 7, 8]]).2.1 5 6 _ _ rfl rfl⟩


/-! ### Threading of the recurrent state -/

theorem Call.threaded_append_other (m : ModelState) (e : Call) (he : Call.frames [e] = []) :
    ∀ (l : List Call) (c h : List ℚ),
      Call.threaded m c h (l ++ [e]) ↔ Call.threaded m c h l := by
  intro l
  induction l with
  | nil =>
    intro c h
    cases e with
    | infer b n c1 h1 => simp [Call.frames] at he
    | compute_mfcc w => simp [Call.threaded]
    | processMfccWindow r => simp [Call.threaded]
  | cons x l ih =>
    intro c h
    cases x with
    | infer b n c1 h1 => simp [Call.threaded, ih]
    | compute_mfcc w => simp [Call.threaded, ih]
    | processMfccWindow r => simp [Call.threaded, ih]

theorem Call.lastStates_append_other (m : ModelState) (e : Call)
    (he : Call.frames [e] = []) :
    ∀ (l : List Call) (c h : List ℚ),
      Call.lastStates m c h (l ++ [e]) = Call.lastStates m c h l := by
  intro l
  induction l with
  | nil =>
    intro c h
    cases e with
    | infer b n c1 h1 => simp [Call.frames] at he
    | compute_mfcc w => simp [Call.lastStates]
    | processMfccWindow r => simp [Call.lastStates]
  | cons x l ih =>
    intro c h
    cases x with
    | infer b n c1 h1 => simp [Call.lastStates, ih]
    | compute_mfcc w => simp [Call.lastStates, ih]
    | processMfccWindow r => simp [Call.lastStates, ih]

theorem Call.threaded_append_infer (m : ModelState) (b : List ℚ) (n : Nat)
    (c1 h1 : List ℚ) :
    ∀ (l : List Call) (c h : List ℚ),
      Call.threaded m c h (l ++ [Call.infer b n c1 h1]) ↔
        Call.threaded m c h l ∧ (c1, h1) = Call.lastStates m c h l := by
  intro l
  induction l with
  | nil =>
    intro c h
    simp [Call.threaded, Call.lastStates]
  | cons x l ih =>
    intro c h
    cases x with
    | infer b2 n2 c2 h2 => simp [Call.threaded, Call.lastStates, ih, and_assoc]
    | compute_mfcc w => simp [Call.threaded, Call.lastStates, ih]
    | processMfccWindow r => simp [Call.threaded, Call.lastStates, ih]

theorem Call.lastStates_append_infer (m : ModelState) (b : List ℚ) (n : Nat)
    (c1 h1 : List ℚ) :
    ∀ (l : List Call) (c h : List ℚ),
      Call.lastStates m c h (l ++ [Call.infer b n c1 h1]) =
        ((m.infer b n c1 h1).2.1, (m.infer b n c1 h1).2.2) := by
  intro l
  induction l with
  | nil => intro c h; simp [Call.lastStates]
  | cons x l ih =>
    intro c h
    cases x with
    | infer b2 n2 c2 h2 => simp [Call.lastStates, ih]
    | compute_mfcc w => simp [Call.lastStates, ih]
    | processMfccWindow r => simp [Call.lastStates, ih]

/-- The threading invariant of a stream whose states were `(c, h)` at creation. -/
theorem threading_keeps (m : ModelState) (c h : List ℚ) :
    (∀ s buf n,
      (Call.threaded m c h s.calls ∧
        Call.lastStates m c h s.calls = (s.previous_state_c_, s.previous_state_h_)) →
      (Call.threaded m c h (processBatch m s buf n).calls ∧
        Call.lastStates m c h (processBatch m s buf n).calls =
          ((processBatch m s buf n).previous_state_c_,
            (processBatch m s buf n).previous_state_h_))) := by
  intro s buf n ⟨h1, h2⟩
  simp only [processBatch]
  rw [Call.threaded_append_infer, Call.lastStates_append_infer]
  exact ⟨⟨h1, h2.symm⟩, rfl⟩

theorem Call.frames_cons_eq_nil (e : Call) (l : List Call) (h : Call.frames (e :: l) = []) :
    Call.frames [e] = [] ∧ Call.frames l = [] := by
  have : Call.frames (e :: l) = Call.frames [e] ++ Call.frames l := by
    rw [← Call.frames_append]; rfl
  rw [this] at h
  exact List.append_eq_nil.mp h

theorem Call.threaded_cons_other (m : ModelState) (e : Call) (he : Call.frames [e] = [])
    (l : List Call) (c h : List ℚ) :
    Call.threaded m c h (e :: l) ↔ Call.threaded m c h l := by
  cases e with
  | infer b n c1 h1 => simp [Call.frames] at he
  | compute_mfcc w => simp [Call.threaded]
  | processMfccWindow r => simp [Call.threaded]

theorem Call.lastStates_cons_other (m : ModelState) (e : Call) (he : Call.frames [e] = [])
    (l : List Call) (c h : List ℚ) :
    Call.lastStates m c h (e :: l) = Call.lastStates m c h l := by
  cases e with
  | infer b n c1 h1 => simp [Call.frames] at he
  | compute_mfcc w => simp [Call.lastStates]
  | processMfccWindow r => simp [Call.lastStates]

/-- The first `infer` call of a threaded log receives the initial states. -/
theorem Call.threaded_first (m : ModelState) :
    ∀ (pre : List Call) (c h : List ℚ) (b : List ℚ) (n : Nat) (c1 h1 : List ℚ)
      (rest : List Call),
      Call.threaded m c h (pre ++ Call.infer b n c1 h1 :: rest) → Call.frames pre = [] →
      c1 = c ∧ h1 = h := by
  intro pre
  induction pre with
  | nil =>
    intro c h b n c1 h1 rest ht _
    simp only [List.nil_append, Call.threaded] at ht
    exact ⟨ht.1, ht.2.1⟩
  | cons e pre ih =>
    intro c h b n c1 h1 rest ht hf
    obtain ⟨he, hpre⟩ := Call.frames_cons_eq_nil e pre hf
    rw [List.cons_append, Call.threaded_cons_other m e he] at ht
    exact ih c h b n c1 h1 rest ht hpre

theorem Call.threaded_cons (m : ModelState) (e : Call) (l : List Call) (c h : List ℚ)
    (ht : Call.threaded m c h (e :: l)) : ∃ c2 h2, Call.threaded m c2 h2 l := by
  cases e with
  | infer b n c1 h1 => exact ⟨_, _, ht.2.2⟩
  | compute_mfcc w => exact ⟨c, h, ht⟩
  | processMfccWindow r => exact ⟨c, h, ht⟩

/-- An `infer` call of a threaded log receives the states returned by the one before it. -/
theorem Call.threaded_next (m : ModelState) :
    ∀ (pre : List Call) (c h : List ℚ) (b : List ℚ) (n : Nat) (c1 h1 : List ℚ)
      (mid : List Call) (b2 : List ℚ) (n2 : Nat) (c2 h2 : List ℚ) (rest : List Call),
      Call.threaded m c h
        (pre ++ Call.infer b n c1 h1 :: (mid ++ Call.infer b2 n2 c2 h2 :: rest)) →
      Call.frames mid = [] →
      c2 = (m.infer b n c1 h1).2.1 ∧ h2 = (m.infer b n c1 h1).2.2 := by
  intro pre
  induction pre with
  | nil =>
    intro c h b n c1 h1 mid b2 n2 c2 h2 rest ht hmid
    simp only [List.nil_append, Call.threaded] at ht
    exact Call.threaded_first m mid _ _ b2 n2 c2 h2 rest ht.2.2 hmid
  | cons e pre ih =>
    intro c h b n c1 h1 mid b2 n2 c2 h2 rest ht hmid
    rw [List.cons_append] at ht
    obtain ⟨c3, h3, ht3⟩ := Call.threaded_cons m e _ c h ht
    exact ih c3 h3 b n c1 h1 mid b2 n2 c2 h2 rest ht3 hmid

theorem Call.lastStates_of_frames_nil (m : ModelState) :
    ∀ (l : List Call) (c h : List ℚ), Call.frames l = [] →
      Call.lastStates m c h l = (c, h) := by
  intro l
  induction l with
  | nil => intro c h _; rfl
  | cons e l ih =>
    intro c h hf
    obtain ⟨he, hl⟩ := Call.frames_cons_eq_nil e l hf
    rw [Call.lastStates_cons_other m e he, ih c h hl]

/-- The last states of a log are those returned by its last `infer` call. -/
theorem Call.lastStates_last (m : ModelState) :
    ∀ (pre : List Call) (c h : List ℚ) (b : List ℚ) (n : Nat) (c1 h1 : List ℚ)
      (rest : List Call), Call.frames rest = [] →
      Call.lastStates m c h (pre ++ Call.infer b n c1 h1 :: rest) =
        ((m.infer b n c1 h1).2.1, (m.infer b n c1 h1).2.2) := by
  intro pre
  induction pre with
  | nil =>
    intro c h b n c1 h1 rest hr
    simp only [List.nil_append, Call.lastStates]
    exact Call.lastStates_of_frames_nil m rest _ _ hr
  | cons e pre ih =>
    intro c h b n c1 h1 rest hr
    cases e with
    | infer b3 n3 c3 h3 =>
      simp only [List.cons_append, Call.lastStates]
      exact ih _ _ b n c1 h1 rest hr
    | compute_mfcc w =>
      simp only [List.cons_append, Call.lastStates]
      exact ih _ _ b n c1 h1 rest hr
    | processMfccWindow r =>
      simp only [List.cons_append, Call.lastStates]
      exact ih _ _ b n c1 h1 rest hr

theorem feedAll_keeps (N : Nat) (m : ModelState) (P : StreamingState → Prop)
    (hB : ∀ s buf n, P s → P (processBatch m s buf n))
    (hb : ∀ s b, P s → P { s with batch_buffer_ := b })
    (hw : ∀ s row, P s → P { s with calls := s.calls ++ [Call.processMfccWindow row] })
    (hm : ∀ s b, P s → P { s with mfcc_buffer_ := b })
    (hc : ∀ s w, P s → P { s with calls := s.calls ++ [Call.compute_mfcc w] })
    (ha : ∀ s b, P s → P { s with audio_buffer_ := b }) :
    ∀ (chunks : List (List ℤ)) (s s1 : StreamingState),
      feedAll N m s chunks = Res.ok s1 → P s → P s1 := by
  intro chunks
  induction chunks with
  | nil => intro s s1 h hP; simp [feedAll] at h; exact h ▸ hP
  | cons c cs ih =>
    intro s s1 h hP
    simp only [feedAll] at h
    obtain ⟨s2, h3, h4⟩ := Res.bind_eq_ok.mp h
    exact ih _ _ h4 (feedAudioContent_keeps N m P hB hb hw hm hc ha s c s2 h3 hP)

/-- What is kept by `processBatch` and the buffer and log updates holds after any feeds,
and after a finish that follows them. -/
theorem feedAll_finish_keeps (m : ModelState) (P : StreamingState → Prop)
    (hB : ∀ s buf n, P s → P (processBatch m s buf n))
    (hb : ∀ s b, P s → P { s with batch_buffer_ := b })
    (hw : ∀ s row, P s → P { s with calls := s.calls ++ [Call.processMfccWindow row] })
    (hm : ∀ s b, P s → P { s with mfcc_buffer_ := b })
    (hc : ∀ s w, P s → P { s with calls := s.calls ++ [Call.compute_mfcc w] })
    (ha : ∀ s b, P s → P { s with audio_buffer_ := b })
    (N N1 : Nat) (chunks : List (List ℤ)) (s s1 s2 : StreamingState)
    (h : feedAll N m s chunks = Res.ok s1)
    (h2 : s2 = s1 ∨ finishStream N1 m s1 = Res.ok s2) (hP : P s) : P s2 := by
  have hP1 := feedAll_keeps N m P hB hb hw hm hc ha chunks s s1 h hP
  rcases h2 with h2 | h2
  · rw [h2]; exact hP1
  · exact flushBuffers_keeps N1 m P hB hb hw hm hc s1 true s2 h2 hP1

theorem feedAll_finish_total (m : ModelState) (hg : ValidGeometry m)
    (chunks : List (List ℤ)) :
    ∃ N s1 s2, feedAll N m (freshState m) chunks = Res.ok s1 ∧
      finishStream N m s1 = Res.ok s2 ∧ s2.batch_buffer_ = [] := by
  obtain ⟨N, s1, h, hw, _⟩ := feedAll_total m hg chunks (freshState m)
    (by simp only [freshState, List.length_nil]; have := hg.1; have := hg.2.1; omega)
    (freshState_withinCapacity m hg)
  obtain ⟨N1, s2, h2, hb, _⟩ := flushBuffers_total m hg s1 true hw
  exact ⟨max N N1, s1, s2, feedAll_mono m N _ (le_max_left _ _) chunks _ _ h (by simp),
    finishStream_mono m N1 _ s1 _ (le_max_right _ _) h2 (by simp), hb⟩

/-- C6 (recurrent state threading).  On a stream created by `STT_CreateStream`, after any
sequence of feeds, and after a finish that follows them: the first `infer` call of the log
received all-zero `previous_state_c` and `previous_state_h` of length `state_size_`; every
later `infer` call received the states returned by the `infer` call before it; and the
stream's `previous_state_c_` and `previous_state_h_` are the states returned by the last
`infer` call, or zeros if there was none.  With an `infer` that returns its
`previous_state_c` plus one, `previous_state_c_` after the finish holds the number of `infer`
calls in each of its `state_size_` entries.  Under a valid geometry the feeds and the finish
return. -/
theorem C6_recurrent_state_threading (m : ModelState) (st : Stream)
    (hst : STT_CreateStream (some m) = some st) (chunks : List (List ℤ)) :
    (∀ (N N1 : Nat) (s1 s2 : StreamingState), feedAll N m st.state chunks = Res.ok s1 →
      (s2 = s1 ∨ finishStream N1 m s1 = Res.ok s2) →
      (∀ pre b n c1 h1 rest, s2.calls = pre ++ Call.infer b n c1 h1 :: rest →
        Call.frames pre = [] →
        c1 = List.replicate m.state_size_ 0 ∧ h1 = List.replicate m.state_size_ 0) ∧
      (∀ pre b n c1 h1 mid b2 n2 c2 h2 rest,
        s2.calls = pre ++ Call.infer b n c1 h1 :: (mid ++ Call.infer b2 n2 c2 h2 :: rest) →
        Call.frames mid = [] →
        c2 = (m.infer b n c1 h1).2.1 ∧ h2 = (m.infer b n c1 h1).2.2) ∧
      (Call.frames s2.calls = [] →
        s2.previous_state_c_ = List.replicate m.state_size_ 0 ∧
          s2.previous_state_h_ = List.replicate m.state_size_ 0) ∧
      (∀ pre b n c1 h1 rest, s2.calls = pre ++ Call.infer b n c1 h1 :: rest →
        Call.frames rest = [] →
        s2.previous_state_c_ = (m.infer b n c1 h1).2.1 ∧
          s2.previous_state_h_ = (m.infer b n c1 h1).2.2)) ∧
    ((∀ b n c h, (m.infer b n c h).2.1 = c.map (fun x => x + 1)) →
      ∀ (N N1 : Nat) (s1 s2 : StreamingState), feedAll N m st.state chunks = Res.ok s1 →
        finishStream N1 m s1 = Res.ok s2 →
        s2.previous_state_c_ =
          List.replicate m.state_size_ (((Call.frames s2.calls).length : ℕ) : ℚ)) ∧
    (ValidGeometry m →
      ∃ N s1 s2, feedAll N m st.state chunks = Res.ok s1 ∧ finishStream N m s1 = Res.ok s2) := by
  rw [STT_CreateStream_some] at hst
  simp only [Option.some.injEq] at hst
  subst hst
  refine ⟨?_, ?_, ?_⟩
  · intro N N1 s1 s2 h h2
    obtain ⟨ht, hl⟩ := feedAll_finish_keeps m
      (fun t => Call.threaded m (List.replicate m.state_size_ 0)
          (List.replicate m.state_size_ 0) t.calls ∧
        Call.lastStates m (List.replicate m.state_size_ 0)
          (List.replicate m.state_size_ 0) t.calls =
            (t.previous_state_c_, t.previous_state_h_))
      (threading_keeps m _ _) (fun _ _ h => h)
      (fun t row ⟨h1, h2⟩ =>
        ⟨(Call.threaded_append_other m (Call.processMfccWindow row) rfl _ _ _).mpr h1,
        by rw [Call.lastStates_append_other m (Call.processMfccWindow row) rfl]; exact h2⟩)
      (fun _ _ h => h)
      (fun t w ⟨h1, h2⟩ =>
        ⟨(Call.threaded_append_other m (Call.compute_mfcc w) rfl _ _ _).mpr h1,
        by rw [Call.lastStates_append_other m (Call.compute_mfcc w) rfl]; exact h2⟩)
      (fun _ _ h => h) N N1 chunks (freshState m) s1 s2 h h2
      ⟨by simp [freshState, Call.threaded], by simp [freshState, Call.lastStates]⟩
    refine ⟨?_, ?_, ?_, ?_⟩
    · intro pre b n c1 h1 rest hc hpre
      rw [hc] at ht
      exact Call.threaded_first m pre _ _ b n c1 h1 rest ht hpre
    · intro pre b n c1 h1 mid b2 n2 c2 h2 rest hc hmid
      rw [hc] at ht
      exact Call.threaded_next m pre _ _ b n c1 h1 mid b2 n2 c2 h2 rest ht hmid
    · intro hf
      rw [Call.lastStates_of_frames_nil m _ _ _ hf] at hl
      simp only [Prod.mk.injEq] at hl
      exact ⟨hl.1.symm, hl.2.symm⟩
    · intro pre b n c1 h1 rest hc hrest
      rw [hc, Call.lastStates_last m pre _ _ b n c1 h1 rest hrest] at hl
      simp only [Prod.mk.injEq] at hl
      exact ⟨hl.1.symm, hl.2.symm⟩
  · intro hstub N N1 s1 s2 h h2
    refine feedAll_finish_keeps m
      (fun t => t.previous_state_c_ =
        List.replicate m.state_size_ (((Call.frames t.calls).length : ℕ) : ℚ))
      ?_ (fun _ _ h => h) ?_ (fun _ _ h => h) ?_ (fun _ _ h => h)
      N N1 chunks (freshState m) s1 s2 h (Or.inr h2) ?_
    · intro t buf n ht
      simp only [processBatch, hstub, Call.frames_append, Call.frames_infer,
        List.length_append, List.length_singleton]
      rw [ht, List.map_replicate]
      push_cast
      rfl
    · intro t row ht
      simpa using ht
    · intro t w ht
      simpa using ht
    · simp [freshState, Call.frames]
  · intro hg
    obtain ⟨N, s1, s2, h1, h2, _⟩ := feedAll_finish_total m hg chunks
    exact ⟨N, s1, s2, h1, h2⟩


/-- Witness for C6 on the counter model: eight samples dispatch two batches, and both
entries of `previous_state_c_` are two after the finish. -/
theorem C6_recurrent_state_threading_witness :
    ∃ s1 s2, feedAll 5 counterModel (freshState counterModel) [[1, 2, 3], [4, 5, 6, 7, 8]]
        = Res.ok s1 ∧ finishStream 6 counterModel s1 = Res.ok s2 ∧
      (Call.frames s2.calls).length = 2 ∧
      s2.previous_state_c_ = List.replicate 2 (((Call.frames s2.calls).length : ℕ) : ℚ) :=
  ⟨_, _, rfl, rfl, by decide,
    (C6_recurrent_state_threading counterModel
      { model_ := counterModel, state := freshState counterModel } rfl
      [[1, 2, 3], [4, 5, 6, 7, 8]]).2.1 (fun _ _ _ _ => rfl) 5 6 _ _ rfl rfl⟩

/-- A state reached from a fresh stream by feeds, under a valid geometry, is within
capacity, with an audio buffer shorter than the window. -/
theorem feedAll_reach (m : ModelState) (hg : ValidGeometry m) (chunks : List (List ℤ))
    (N : Nat) (s : StreamingState) (h : feedAll N m (freshState m) chunks = Res.ok s) :
    WithinCapacity m s ∧ s.audio_buffer_.length < m.audio_win_len_ := by
  obtain ⟨N1, s1, h1, hw, ha⟩ := feedAll_total m hg chunks (freshState m)
    (by simp only [freshState, List.length_nil]; have := hg.1; have := hg.2.1; omega)
    (freshState_withinCapacity m hg)
  have e1 := feedAll_mono m N (max N N1) (le_max_left _ _) chunks _ _ h (by simp)
  have e2 := feedAll_mono m N1 (max N N1) (le_max_right _ _) chunks _ _ h1 (by simp)
  rw [e1] at e2
  simp only [Res.ok.injEq] at e2
  subst e2
  exact ⟨hw, ha⟩

theorem flushBuffers_batch_empty (m : ModelState) (s s1 : StreamingState)
    (h : flushBuffers_batch m s = Res.ok s1) : s1.batch_buffer_ = [] := by
  unfold flushBuffers_batch at h
  split_ifs at h with h1 h2
  · simp only [Res.ok.injEq] at h
    rw [← h]
  · simp only [Res.ok.injEq] at h
    rw [← h]
    exact List.length_eq_zero.mp (by omega)

/-- C8 (final flush of the batch).  For a stream state reached by feeds from a fresh stream
under a valid geometry: if, after the residual window and the `n_context_` zero vectors have
been pushed, the batch buffer holds `k` timesteps with `0 < k < n_steps_`, then
`finishStream` makes exactly one more `infer` call, on the whole batch buffer with
`n_frames = k = batch_buffer_.size() / mfcc_feats_per_timestep_`, and appends `k` frames when
`infer` returns `k * (alphabet_size + 1)` logits; if the batch buffer is empty then
`finishStream` returns that state, with no further call; the batch buffer is empty whenever
`finishStream` returns; and it returns. -/
theorem C8_final_flush (m : ModelState) (hg : ValidGeometry m) (st : Stream)
    (hst : STT_CreateStream (some m) = some st) (chunks : List (List ℤ)) (N0 : Nat)
    (s : StreamingState) (hreach : feedAll N0 m st.state chunks = Res.ok s) :
    (∀ (N : Nat) (s1 : StreamingState) (k : Nat),
      flushBuffers_push N m s true = Res.ok s1 →
      s1.batch_buffer_.length = k * m.mfcc_feats_per_timestep_ → 0 < k → k < m.n_steps_ →
      ∃ s2, finishStream N m s = Res.ok s2 ∧
        s2.calls = s1.calls ++
          [Call.infer s1.batch_buffer_ k s1.previous_state_c_ s1.previous_state_h_] ∧
        k = s1.batch_buffer_.length / m.mfcc_feats_per_timestep_ ∧
        s2.batch_buffer_ = [] ∧
        ((m.infer s1.batch_buffer_ k s1.previous_state_c_ s1.previous_state_h_).1.length
            = k * (m.alphabet_size + 1) →
          s2.probs_.length = s1.probs_.length + k)) ∧
    (∀ (N : Nat) (s1 : StreamingState), flushBuffers_push N m s true = Res.ok s1 →
      s1.batch_buffer_ = [] → finishStream N m s = Res.ok s1) ∧
    (∀ (N : Nat) (s2 : StreamingState), finishStream N m s = Res.ok s2 →
      s2.batch_buffer_ = []) ∧
    (∃ N s1 s2, flushBuffers_push N m s true = Res.ok s1 ∧
      finishStream N m s = Res.ok s2) := by
  rw [STT_CreateStream_some] at hst
  simp only [Option.some.injEq] at hst
  subst hst
  have hf := hg.feats_pos
  refine ⟨?_, ?_, ?_, ?_⟩
  · intro N s1 k h1 hk hk0 _
    have hdiv : s1.batch_buffer_.length / m.mfcc_feats_per_timestep_ = k := by
      rw [hk]; exact Nat.mul_div_cancel _ hf
    have hpos : s1.batch_buffer_.length > 0 := by
      rw [hk]; exact Nat.mul_pos hk0 hf
    refine ⟨{ processBatch m s1 s1.batch_buffer_ k with batch_buffer_ := [] }, ?_, rfl,
      hdiv.symm, rfl, ?_⟩
    · unfold finishStream flushBuffers
      rw [h1]
      simp only [Res.ok_bind, flushBuffers_batch]
      rw [if_pos hpos, if_neg (by omega), hdiv]
    · intro hlen
      show (processBatch m s1 s1.batch_buffer_ k).probs_.length = _
      have : (processBatch m s1 s1.batch_buffer_ k).probs_ = _ :=
        processBatch_loop_eq (m.alphabet_size + 1) (by omega) k _ none s1.probs_ hlen
      rw [this, List.length_append, List.length_map, List.length_range]
  · intro N s1 h1 hb
    unfold finishStream flushBuffers
    rw [h1]
    simp only [Res.ok_bind, flushBuffers_batch]
    rw [if_neg (by rw [hb]; simp)]
  · intro N s2 h
    unfold finishStream flushBuffers at h
    obtain ⟨s1, _, h2⟩ := Res.bind_eq_ok.mp h
    exact flushBuffers_batch_empty m s1 s2 h2
  · obtain ⟨hw, _⟩ := feedAll_reach m hg chunks N0 s hreach
    obtain ⟨N, s1, h1, _⟩ := flushBuffers_push_total m hg s true hw
    obtain ⟨s2, h2, _⟩ := flushBuffers_batch_total m s1 hf
    refine ⟨N, s1, s2, h1, ?_⟩
    unfold finishStream flushBuffers
    rw [h1]
    simpa using h2

/-- Witness for C8 on the scenario model: after six samples the finish leaves one timestep
in the batch buffer and dispatches it with `n_frames = 1`. -/
theorem C8_final_flush_witness :
    ∃ s s1, feedAll 5 scenarioModel (freshState scenarioModel) [[1, 2, 3, 4, 5, 6]]
        = Res.ok s ∧ flushBuffers_push 6 scenarioModel s true = Res.ok s1 ∧
      s1.batch_buffer_.length = 1 * 6 ∧
      ∃ s2, finishStream 6 scenarioModel s = Res.ok s2 ∧
        s2.calls = s1.calls ++
          [Call.infer s1.batch_buffer_ 1 s1.previous_state_c_ s1.previous_state_h_] ∧
        1 = s1.batch_buffer_.length / 6 ∧
        s2.batch_buffer_ = [] ∧
        ((scenarioModel.infer s1.batch_buffer_ 1 s1.previous_state_c_
            s1.previous_state_h_).1.length = 1 * (5 + 1) →
          s2.probs_.length = s1.probs_.length + 1) :=
  ⟨_, _, rfl, rfl, by decide,
    (C8_final_flush scenarioModel (by decide)
      { model_ := scenarioModel, state := freshState scenarioModel } rfl
      [[1, 2, 3, 4, 5, 6]] 5 _ rfl).1 6 _ 1 rfl (by decide) (by decide) (by decide)⟩

/-! ### The conversion of samples -/

theorem sample_to_float_eq (x : ℤ) : sample_to_float x = (x : ℚ) / 32768 := by
  have h : (1 <<< 15 : ℕ) = 32768 := by decide
  unfold sample_to_float
  simp only [h]
  norm_num
  rw [mul_one_div]

/-- C9 (PCM16 scaling).  For every 16-bit signed sample `x`, the value that
`feedAudioContent` appends to the audio buffer is exactly `x / 32768`, and it lies in
`[-1, 1)`: the inner loop appends it when the buffer is shorter than the window, and a feed
of the one sample `x` that does not fill the window returns the state with `x / 32768`
appended to the audio buffer.  The sample `16384` is converted to `1 / 2`, and that is the
first value of the first window passed to `compute_mfcc` when a feed on a fresh stream
starts with it. -/
theorem C9_pcm16_scaling (x : ℤ) (hlo : -32768 ≤ x) (hhi : x ≤ 32767) :
    sample_to_float x = (x : ℚ) / 32768 ∧
    (-1 ≤ sample_to_float x ∧ sample_to_float x < 1) ∧
    (∀ (m : ModelState) (audio : List ℚ) (buffer : List ℤ),
      audio.length < m.audio_win_len_ →
      feedAudioContent_inner m audio (x :: buffer) =
        feedAudioContent_inner m (audio ++ [(x : ℚ) / 32768]) buffer) ∧
    (∀ (N : Nat) (m : ModelState) (s : StreamingState),
      s.audio_buffer_.length + 1 < m.audio_win_len_ →
      feedAudioContent (N + 1) m s [x] =
        Res.ok { s with audio_buffer_ := s.audio_buffer_ ++ [(x : ℚ) / 32768] }) ∧
    sample_to_float 16384 = 1 / 2 ∧
    (∀ (N : Nat) (m : ModelState) (buffer : List ℤ) (s1 : StreamingState) (w : List ℚ),
      1 ≤ m.audio_win_step_ → m.audio_win_step_ ≤ m.audio_win_len_ →
      feedAudioContent N m (freshState m) (16384 :: buffer) = Res.ok s1 →
      (Call.windows s1.calls).head? = some w → w.head? = some (1 / 2)) := by
  have hx := sample_to_float_eq x
  have hlo2 : (-32768 : ℚ) ≤ (x : ℚ) := by exact_mod_cast hlo
  have hhi2 : (x : ℚ) ≤ 32767 := by exact_mod_cast hhi
  refine ⟨hx, ⟨?_, ?_⟩, ?_, ?_, ?_, ?_⟩
  · rw [hx, le_div_iff₀ (by norm_num)]
    linarith
  · rw [hx, div_lt_iff₀ (by norm_num)]
    linarith
  · intro m audio buffer h
    rw [feedAudioContent_inner_cons_lt m _ _ _ h, hx]
  · intro N m s h
    unfold feedAudioContent
    rw [feedAudioContent_loop_succ, feedAudioContent_inner_cons_lt m _ _ _ (by omega),
      feedAudioContent_inner_nil, hx]
    simp only []
    rw [if_neg (by simp only [List.length_append, List.length_singleton]; omega)]
    simp
  · rw [sample_to_float_eq]; norm_num
  · intro N m buffer s1 w h1 h2 h hw
    have hW := (feedAudioContent_windows N m h1 h2 (freshState m) _ s1 h
      (by simp only [freshState, List.length_nil]; omega)).1
    simp only [freshState, Call.windows, List.filterMap_nil, List.nil_append,
      List.map_cons] at hW
    rw [show Call.windows s1.calls = _ from hW] at hw
    cases hc : windowCount m.audio_win_len_ m.audio_win_step_
        (sample_to_float 16384 :: List.map sample_to_float buffer).length with
    | zero => rw [hc] at hw; simp at hw
    | succ n =>
      rw [hc, List.range_succ_eq_map] at hw
      simp only [List.map_cons, List.head?_cons, Option.some.injEq, Nat.zero_mul,
        List.drop_zero] at hw
      rw [← hw]
      obtain ⟨l, hl⟩ : ∃ l, m.audio_win_len_ = l + 1 := ⟨m.audio_win_len_ - 1, by omega⟩
      rw [hl, List.take_succ_cons, List.head?_cons, sample_to_float_eq]
      norm_num

/-- Witness for C9 at the sample `16384`. -/
theorem C9_pcm16_scaling_witness :
    (-32768 : ℤ) ≤ 16384 ∧ (16384 : ℤ) ≤ 32767 ∧
      sample_to_float 16384 = ((16384 : ℤ) : ℚ) / 32768 ∧
      (-1 ≤ sample_to_float 16384 ∧ sample_to_float 16384 < 1) :=
  ⟨by decide, by decide, (C9_pcm16_scaling 16384 (by decide) (by decide)).1,
    (C9_pcm16_scaling 16384 (by decide) (by decide)).2.1⟩


/-! ### The scenario of one window fed in one call -/

/-- The outcome of a feed followed by a finish does not depend on the budget. -/
theorem feed_finish_unique (m : ModelState) (s : StreamingState) (buffer : List ℤ)
    (N N1 : Nat) (a a1 : StreamingState)
    (h : (feedAudioContent N m s buffer).bind (fun s1 => finishStream N m s1) = Res.ok a)
    (h1 : (feedAudioContent N1 m s buffer).bind (fun s1 => finishStream N1 m s1) = Res.ok a1) :
    a = a1 := by
  have e : ∀ (K : Nat) (b : StreamingState), K ≤ max N N1 →
      (feedAudioContent K m s buffer).bind (fun s1 => finishStream K m s1) = Res.ok b →
      (feedAudioContent (max N N1) m s buffer).bind
        (fun s1 => finishStream (max N N1) m s1) = Res.ok b := by
    intro K b hK hb
    refine Res.bind_mono hb (by simp)
      (fun hne => feedAudioContent_mono m K _ s buffer _ hK rfl hne) ?_
    intro s1 _ h2
    exact finishStream_mono m K _ s1 _ hK h2 (by simp)
  have e1 := e N a (le_max_left _ _) h
  have e2 := e N1 a1 (le_max_right _ _) h1
  rw [e1] at e2
  simpa using e2

/-- Counterexample to C10 as stated: on the scenario model, feeding the four samples
`[16384, -16384, 16384, -16384]` to a fresh stream and finishing never yields
`probs_.length = 1`. -/
theorem C10_counterexample :
    ¬ ∃ N s1 s2,
      feedAudioContent N scenarioModel (freshState scenarioModel)
          [16384, -16384, 16384, -16384] = Res.ok s1 ∧
        finishStream N scenarioModel s1 = Res.ok s2 ∧ s2.probs_.length = 1 := by
  rintro ⟨N, s1, s2, h1, h2, h3⟩
  obtain ⟨Y, hY, hlen⟩ : ∃ Y,
      (feedAudioContent 3 scenarioModel (freshState scenarioModel)
          [16384, -16384, 16384, -16384]).bind
        (fun s1 => finishStream 3 scenarioModel s1) = Res.ok Y ∧ Y.probs_.length = 2 :=
    ⟨_, rfl, by decide⟩
  have hs : (feedAudioContent N scenarioModel (freshState scenarioModel)
      [16384, -16384, 16384, -16384]).bind
        (fun s1 => finishStream N scenarioModel s1) = Res.ok s2 := by
    rw [h1]; exact h2
  have := feed_finish_unique scenarioModel _ _ N 3 s2 Y hs hY
  rw [this, hlen] at h3
  exact absurd h3 (by decide)

/-- C10 (scenario "single window, single feed"), amended.  On the scenario model, feeding the
four samples `[16384, -16384, 16384, -16384]` in one call to a fresh stream passes the one
window `[1/2, -1/2, 1/2, -1/2]` to `compute_mfcc` and dispatches nothing; `finishStream` then
passes the two residual samples `[1/2, -1/2]` to `compute_mfcc`, and the two timesteps that
result are dispatched in one `infer` call with `n_frames = 2`; `probs_` has two frames, both
all zeros.  Every budget under which the feed and the finish return gives this state. -/
theorem C10_scenario_single_window :
    feedAudioContent 3 scenarioModel (freshState scenarioModel)
        [16384, -16384, 16384, -16384] =
      Res.ok
        { audio_buffer_ := [1 / 2, -1 / 2]
          mfcc_buffer_ := [0, 0, 0, 0]
          batch_buffer_ := []
          previous_state_c_ := [0, 0]
          previous_state_h_ := [0, 0]
          probs_ := []
          calls := [Call.compute_mfcc [1 / 2, -1 / 2, 1 / 2, -1 / 2]] } ∧
    finishStream 3 scenarioModel
        { audio_buffer_ := [1 / 2, -1 / 2]
          mfcc_buffer_ := [0, 0, 0, 0]
          batch_buffer_ := []
          previous_state_c_ := [0, 0]
          previous_state_h_ := [0, 0]
          probs_ := []
          calls := [Call.compute_mfcc [1 / 2, -1 / 2, 1 / 2, -1 / 2]] } =
      Res.ok
        { audio_buffer_ := [1 / 2, -1 / 2]
          mfcc_buffer_ := [0, 0, 0, 0]
          batch_buffer_ := []
          previous_state_c_ := [0, 0]
          previous_state_h_ := [0, 0]
          probs_ := [[0, 0, 0, 0, 0, 0], [0, 0, 0, 0, 0, 0]]
          calls :=
            [Call.compute_mfcc [1 / 2, -1 / 2, 1 / 2, -1 / 2],
              Call.compute_mfcc [1 / 2, -1 / 2],
              Call.processMfccWindow [0, 0, 0, 0, 0, 0],
              Call.processMfccWindow [0, 0, 0, 0, 0, 0],
              Call.infer [0, 0, 0, 0, 0, 0, 0, 0, 0, 0, 0, 0] 2 [0, 0] [0, 0]] } ∧
    (∀ N t1 t2,
      feedAudioContent N scenarioModel (freshState scenarioModel)
          [16384, -16384, 16384, -16384] = Res.ok t1 →
        finishStream N scenarioModel t1 = Res.ok t2 →
        t2.probs_.length = 2 ∧ Call.frames t2.calls = [2] ∧
          t2.probs_ = [[0, 0, 0, 0, 0, 0], [0, 0, 0, 0, 0, 0]]) := by
  have e1 : feedAudioContent 3 scenarioModel (freshState scenarioModel)
      [16384, -16384, 16384, -16384] =
      Res.ok
        { audio_buffer_ := [1 / 2, -1 / 2]
          mfcc_buffer_ := [0, 0, 0, 0]
          batch_buffer_ := []
          previous_state_c_ := [0, 0]
          previous_state_h_ := [0, 0]
          probs_ := []
          calls := [Call.compute_mfcc [1 / 2, -1 / 2, 1 / 2, -1 / 2]] } := by
    with_unfolding_all rfl
  have e2 : finishStream 3 scenarioModel
        { audio_buffer_ := [1 / 2, -1 / 2]
          mfcc_buffer_ := [0, 0, 0, 0]
          batch_buffer_ := []
          previous_state_c_ := [0, 0]
          previous_state_h_ := [0, 0]
          probs_ := []
          calls := [Call.compute_mfcc [1 / 2, -1 / 2, 1 / 2, -1 / 2]] } =
      Res.ok
        { audio_buffer_ := [1 / 2, -1 / 2]
          mfcc_buffer_ := [0, 0, 0, 0]
          batch_buffer_ := []
          previous_state_c_ := [0, 0]
          previous_state_h_ := [0, 0]
          probs_ := [[0, 0, 0, 0, 0, 0], [0, 0, 0, 0, 0, 0]]
          calls :=
            [Call.compute_mfcc [1 / 2, -1 / 2, 1 / 2, -1 / 2],
              Call.compute_mfcc [1 / 2, -1 / 2],
              Call.processMfccWindow [0, 0, 0, 0, 0, 0],
              Call.processMfccWindow [0, 0, 0, 0, 0, 0],
              Call.infer [0, 0, 0, 0, 0, 0, 0, 0, 0, 0, 0, 0] 2 [0, 0] [0, 0]] } := by
    with_unfolding_all rfl
  refine ⟨e1, e2, ?_⟩
  intro N t1 t2 h1 h2
  have hu := feed_finish_unique scenarioModel (freshState scenarioModel)
    [16384, -16384, 16384, -16384] N 3 t2 _ (by rw [h1]; exact h2) (by rw [e1]; exact e2)
  rw [hu]
  exact ⟨rfl, rfl, rfl⟩


/-! ### Stacking along the whole stream -/

theorem take_drop_append_left {α : Type} (A B : List α) (j t : Nat) (h : j + t ≤ A.length) :
    ((A ++ B).drop j).take t = (A.drop j).take t := by
  rw [List.drop_append_of_le_length (by omega), List.take_append_of_le_length
    (by rw [List.length_drop]; omega)]

theorem pushAll_singleton (N : Nat) (m : ModelState) (s : StreamingState) (f : List ℚ) :
    pushAll N m s [f] = pushMfccBuffer N m s f := by
  simp only [pushAll]
  cases pushMfccBuffer N m s f <;> rfl

/-- One more feature vector pushed keeps the stacking. -/
theorem Stacked.push (N : Nat) (m : ModelState) (hnf : 1 ≤ m.n_features_)
    (hfe : m.mfcc_feats_per_timestep_ = m.n_features_ * (2 * m.n_context_ + 1))
    (hfw : m.mfcc_feats_per_timestep_ < 2 ^ 31)
    (F : List (List ℚ)) (f : List ℚ) (s s1 : StreamingState)
    (hF : ∀ g ∈ F, g.length = m.n_features_) (hf : f.length = m.n_features_)
    (hS : Stacked m F s) (h : pushMfccBuffer N m s f = Res.ok s1) :
    Stacked m (F ++ [f]) s1 := by
  obtain ⟨hrows, hmfcc⟩ := hS
  generalize hZ : List.replicate m.n_context_ (List.replicate m.n_features_ (0 : ℚ)) = Z
    at hrows hmfcc
  have hZl : Z.length = m.n_context_ := by rw [← hZ, List.length_replicate]
  have hZv : ∀ q ∈ Z, q.length = m.n_features_ := by
    intro q hq
    rw [← hZ] at hq
    rw [List.eq_of_mem_replicate hq, List.length_replicate]
  have hPv : ∀ q ∈ Z ++ F, q.length = m.n_features_ := by
    intro q hq
    rcases List.mem_append.mp hq with hq | hq
    · exact hZv q hq
    · exact hF q hq
  have hQv : ∀ q ∈ (Z ++ F).drop (F.length - m.n_context_), q.length = m.n_features_ :=
    fun q hq => hPv q (List.mem_of_mem_drop hq)
  have hQl : ((Z ++ F).drop (F.length - m.n_context_)).length ≤ 2 * m.n_context_ := by
    rw [List.length_drop, List.length_append, hZl]; omega
  obtain ⟨r1, m1⟩ := pushAll_rows N m hnf hfe hfw [f] _ s s1
    (fun g hg => by rw [List.mem_singleton.mp hg]; exact hf) hQv hQl hmfcc
    (by rw [pushAll_singleton]; exact h)
  unfold Stacked
  rw [hZ]
  have hlenF : (F ++ [f]).length = F.length + 1 := by simp
  have hdropapp : (Z ++ (F ++ [f])).drop (F.length - m.n_context_)
      = (Z ++ F).drop (F.length - m.n_context_) ++ [f] := by
    rw [← List.append_assoc, List.drop_append_of_le_length
      (by rw [List.length_append, hZl]; omega)]
  by_cases hc : m.n_context_ ≤ F.length
  · have hQl2 : ((Z ++ F).drop (F.length - m.n_context_)).length = 2 * m.n_context_ := by
      rw [List.length_drop, List.length_append, hZl]; omega
    have hcnt : ((Z ++ F).drop (F.length - m.n_context_)).length + ([f] : List (List ℚ)).length
        - 2 * m.n_context_ = 1 := by
      rw [hQl2, List.length_singleton]; omega
    rw [hcnt] at r1 m1
    rw [show List.range 1 = [0] from rfl] at r1
    simp only [List.map_cons, List.map_nil, List.drop_zero] at r1
    have hcnt2 : (F ++ [f]).length - m.n_context_ = (F.length - m.n_context_) + 1 := by
      rw [hlenF]; omega
    rw [hcnt2]
    constructor
    · rw [r1, hrows, List.range_succ, List.map_append]
      congr 1
      · apply List.map_congr_left
        intro j hj
        have hj2 : j < F.length - m.n_context_ := List.mem_range.mp hj
        have e : Z ++ (F ++ [f]) = (Z ++ F) ++ [f] := (List.append_assoc _ _ _).symm
        rw [e, take_drop_append_left (Z ++ F) [f] j _
          (by rw [List.length_append, hZl]; omega)]
      · simp only [List.map_cons, List.map_nil, List.cons.injEq, and_true]
        rw [hdropapp]
    · rw [m1, ← List.drop_drop, hdropapp]
  · have hcnt : ((Z ++ F).drop (F.length - m.n_context_)).length + ([f] : List (List ℚ)).length
        - 2 * m.n_context_ = 0 := by
      rw [List.length_drop, List.length_append, hZl, List.length_singleton]; omega
    rw [hcnt] at r1 m1
    have hcnt2 : (F ++ [f]).length - m.n_context_ = 0 := by
      rw [hlenF]; omega
    have hcnt3 : F.length - m.n_context_ = 0 := by omega
    rw [hcnt2]
    rw [hcnt3] at hrows r1 m1
    constructor
    · rw [r1, hrows]; simp
    · rw [m1]; simp

theorem Stacked.fresh (m : ModelState) (hz : m.n_features_ * m.n_context_ < 2 ^ 32) :
    Stacked m [] (freshState m) := by
  constructor
  · simp [freshState, Call.rows]
  · simp only [List.length_nil, Nat.zero_sub, List.drop_zero, List.append_nil]
    exact freshState_mfcc m hz

/-- What is kept by `processAudioWindow` and by the updates of the audio buffer is kept by
a feed. -/
theorem feedAudioContent_loop_keeps_windows (N : Nat) (m : ModelState)
    (P : StreamingState → Prop)
    (hpaw : ∀ s w s1, P s → processAudioWindow N m s w = Res.ok s1 → P s1)
    (ha : ∀ s b, P s → P { s with audio_buffer_ := b }) :
    ∀ (fuel : Nat) (s : StreamingState) (rest : List ℤ) (s1 : StreamingState),
      feedAudioContent_loop N m fuel s rest = Res.ok s1 → P s → P s1 := by
  intro fuel
  induction fuel with
  | zero =>
    intro s rest s1 h hP
    cases rest with
    | nil => simp at h; exact h ▸ hP
    | cons x xs => exact absurd h (by simp [feedAudioContent_loop])
  | succ n ih =>
    intro s rest s1 h hP
    cases rest with
    | nil => simp at h; exact h ▸ hP
    | cons x xs =>
      rw [feedAudioContent_loop_succ] at h
      split_ifs at h with h1
      · obtain ⟨s2, h3, h4⟩ := Res.bind_eq_ok.mp h
        obtain ⟨b, _, h6⟩ := Res.bind_eq_ok.mp h4
        exact ih _ _ _ h6 (ha _ _ (hpaw _ _ s2 (ha _ _ hP) h3))
      · exact ih _ _ _ h (ha _ _ hP)

theorem feedAll_keeps_windows (m : ModelState) (P : StreamingState → Prop)
    (hpaw : ∀ N s w s1, P s → processAudioWindow N m s w = Res.ok s1 → P s1)
    (ha : ∀ s b, P s → P { s with audio_buffer_ := b }) (N : Nat) :
    ∀ (chunks : List (List ℤ)) (s s1 : StreamingState),
      feedAll N m s chunks = Res.ok s1 → P s → P s1 := by
  intro chunks
  induction chunks with
  | nil => intro s s1 h hP; simp [feedAll] at h; exact h ▸ hP
  | cons c cs ih =>
    intro s s1 h hP
    simp only [feedAll] at h
    obtain ⟨s2, h3, h4⟩ := Res.bind_eq_ok.mp h
    exact ih _ _ h4 (feedAudioContent_loop_keeps_windows N m P (hpaw N) ha N s c s2 h3 hP)

theorem Stacked.log_compute_mfcc {m : ModelState} {F : List (List ℚ)} {s : StreamingState}
    (w : List ℚ) (h : Stacked m F s) :
    Stacked m F { s with calls := s.calls ++ [Call.compute_mfcc w] } := by
  obtain ⟨h1, h2⟩ := h
  exact ⟨by simpa using h1, h2⟩

/-- The stacking in terms of the call log: the vectors pushed are the `compute_mfcc` results
of the windows logged. -/
theorem processAudioWindow_stacked (N : Nat) (m : ModelState) (hnf : 1 ≤ m.n_features_)
    (hfe : m.mfcc_feats_per_timestep_ = m.n_features_ * (2 * m.n_context_ + 1))
    (hfw : m.mfcc_feats_per_timestep_ < 2 ^ 31)
    (hcm : ∀ w, (m.compute_mfcc w).length = m.n_features_)
    (s : StreamingState) (w : List ℚ) (s1 : StreamingState)
    (hS : Stacked m ((Call.windows s.calls).map m.compute_mfcc) s)
    (h : processAudioWindow N m s w = Res.ok s1) :
    Stacked m ((Call.windows s1.calls).map m.compute_mfcc) s1 := by
  rw [(processAudioWindow_windows N m s w s1 h).1, List.map_append]
  exact Stacked.push N m hnf hfe hfw _ _ _ s1
    (fun g hg => by
      obtain ⟨w1, _, rfl⟩ := List.mem_map.mp hg
      exact hcm w1)
    (hcm w) (hS.log_compute_mfcc w) h

theorem feedAll_stacked (m : ModelState) (hnf : 1 ≤ m.n_features_)
    (hfe : m.mfcc_feats_per_timestep_ = m.n_features_ * (2 * m.n_context_ + 1))
    (hfw : m.mfcc_feats_per_timestep_ < 2 ^ 31)
    (hcm : ∀ w, (m.compute_mfcc w).length = m.n_features_)
    (N : Nat) (chunks : List (List ℤ)) (s s1 : StreamingState)
    (h : feedAll N m s chunks = Res.ok s1)
    (hS : Stacked m ((Call.windows s.calls).map m.compute_mfcc) s) :
    Stacked m ((Call.windows s1.calls).map m.compute_mfcc) s1 :=
  feedAll_keeps_windows m (fun t => Stacked m ((Call.windows t.calls).map m.compute_mfcc) t)
    (fun N s w s1 hP h => processAudioWindow_stacked N m hnf hfe hfw hcm s w s1 hP h)
    (fun _ _ h => h) N chunks s s1 h hS

theorem flushBuffers_zeros_stacked (N : Nat) (m : ModelState) (hnf : 1 ≤ m.n_features_)
    (hfe : m.mfcc_feats_per_timestep_ = m.n_features_ * (2 * m.n_context_ + 1))
    (hfw : m.mfcc_feats_per_timestep_ < 2 ^ 31) :
    ∀ (count : Nat) (F : List (List ℚ)) (s s1 : StreamingState),
      (∀ g ∈ F, g.length = m.n_features_) → Stacked m F s →
      flushBuffers_zeros N m count s = Res.ok s1 →
      Stacked m (F ++ List.replicate count (List.replicate m.n_features_ (0 : ℚ))) s1 ∧
        Call.windows s1.calls = Call.windows s.calls := by
  intro count
  induction count with
  | zero =>
    intro F s s1 _ hS h
    simp only [flushBuffers_zeros, Res.ok.injEq] at h
    subst h
    simpa using hS
  | succ n ih =>
    intro F s s1 hF hS h
    simp only [flushBuffers_zeros, addZeroMfccWindow] at h
    obtain ⟨s2, h2, h3⟩ := Res.bind_eq_ok.mp h
    have hS2 := Stacked.push N m hnf hfe hfw F _ s s2 hF (List.length_replicate _ _) hS h2
    have hw2 : Call.windows s2.calls = Call.windows s.calls :=
      pushMfccBuffer_keeps N m (fun t => Call.windows t.calls = Call.windows s.calls)
        (fun t buf n ht => by simpa [processBatch, Call.windows] using ht)
        (fun _ _ ht => ht) (fun t row ht => by simpa [Call.windows] using ht)
        (fun _ _ ht => ht) s _ s2 h2 rfl
    obtain ⟨hS3, hw3⟩ := ih (F ++ [List.replicate m.n_features_ 0]) s2 s1
      (by
        intro g hg
        rcases List.mem_append.mp hg with hg | hg
        · exact hF g hg
        · rw [List.mem_singleton.mp hg, List.length_replicate])
      hS2 h3
    refine ⟨?_, by rw [hw3, hw2]⟩
    rw [List.replicate_succ, ← List.singleton_append, ← List.append_assoc]
    exact hS3

/-- After `finishStream` the vectors pushed are the `compute_mfcc` results of the windows
logged, the last of which is the residual audio buffer, followed by `n_context_` zero
vectors. -/
theorem finishStream_stacked (N : Nat) (m : ModelState) (hnf : 1 ≤ m.n_features_)
    (hfe : m.mfcc_feats_per_timestep_ = m.n_features_ * (2 * m.n_context_ + 1))
    (hfw : m.mfcc_feats_per_timestep_ < 2 ^ 31)
    (hcm : ∀ w, (m.compute_mfcc w).length = m.n_features_)
    (s s2 : StreamingState)
    (hS : Stacked m ((Call.windows s.calls).map m.compute_mfcc) s)
    (h : finishStream N m s = Res.ok s2) :
    Stacked m ((Call.windows s2.calls).map m.compute_mfcc ++
        List.replicate m.n_context_ (List.replicate m.n_features_ (0 : ℚ))) s2 ∧
      Call.windows s2.calls = Call.windows s.calls ++ [s.audio_buffer_] := by
  unfold finishStream flushBuffers flushBuffers_push at h
  obtain ⟨s1, h1, h2⟩ := Res.bind_eq_ok.mp h
  obtain ⟨s0, h0, h3⟩ := Res.bind_eq_ok.mp h1
  simp only [if_true] at h3
  have hS0 := processAudioWindow_stacked N m hnf hfe hfw hcm s _ s0 hS h0
  have hw0 := (processAudioWindow_windows N m s _ s0 h0).1
  obtain ⟨hS1, hw1⟩ := flushBuffers_zeros_stacked N m hnf hfe hfw m.n_context_ _ s0 s1
    (fun g hg => by
      obtain ⟨w1, _, rfl⟩ := List.mem_map.mp hg
      exact hcm w1)
    hS0 h3
  have hkeep := flushBuffers_batch_keeps m
    (fun t => Stacked m ((Call.windows s0.calls).map m.compute_mfcc ++
        List.replicate m.n_context_ (List.replicate m.n_features_ (0 : ℚ))) t ∧
      Call.windows t.calls = Call.windows s0.calls)
    (fun t buf n ⟨⟨a, b⟩, c⟩ =>
      ⟨⟨by simpa [processBatch, Call.rows] using a, b⟩,
        by simpa [processBatch, Call.windows] using c⟩)
    (fun _ _ ht => ht) s1 s2 h2 ⟨hS1, hw1⟩
  obtain ⟨hS2, hw2⟩ := hkeep
  rw [hw2]
  exact ⟨hS2, hw0⟩


/-! ### Positions in the context window -/

/-- The block at position `p` of the concatenation of vectors of length `nf`. -/
theorem flatten_block {nf : Nat} :
    ∀ (L : List (List ℚ)) (p : Nat) (v : List ℚ), (∀ q ∈ L, q.length = nf) →
      L[p]? = some v → (L.flatten.drop (p * nf)).take nf = v := by
  intro L
  induction L with
  | nil => intro p v _ h; simp at h
  | cons a L ih =>
    intro p v hL h
    have ha : a.length = nf := hL a (List.mem_cons_self _ _)
    subst ha
    cases p with
    | zero =>
      simp only [List.getElem?_cons_zero, Option.some.injEq] at h
      subst h
      simp only [Nat.zero_mul, List.drop_zero, List.flatten_cons]
      rw [List.take_append_of_le_length (by omega), List.take_of_length_le (by omega)]
    | succ p =>
      simp only [List.getElem?_cons_succ] at h
      rw [List.flatten_cons, Nat.succ_mul, Nat.add_comm (p * a.length) a.length,
        List.drop_append]
      exact ih p v (fun q hq => hL q (List.mem_cons_of_mem _ hq)) h

/-- In a stream stacked on `fs` followed by `n_context_` zero vectors, the vector `fs[i]`
is the block at position `p` of row `i + n_context_ - p`, when there is such a row. -/
theorem Stacked.position (m : ModelState) (fs : List (List ℚ)) (s : StreamingState)
    (hfs : ∀ g ∈ fs, g.length = m.n_features_)
    (hS : Stacked m (fs ++ List.replicate m.n_context_ (List.replicate m.n_features_ (0 : ℚ)))
      s) :
    (Call.rows s.calls).length = fs.length ∧
      ∀ (i p : Nat) (v : List ℚ), fs[i]? = some v → p ≤ 2 * m.n_context_ →
        p ≤ i + m.n_context_ → i + m.n_context_ - p < fs.length →
        ∃ row, (Call.rows s.calls)[i + m.n_context_ - p]? = some row ∧
          (row.drop (p * m.n_features_)).take m.n_features_ = v := by
  obtain ⟨hrows, _⟩ := hS
  generalize hZ : List.replicate m.n_context_ (List.replicate m.n_features_ (0 : ℚ)) = Z
    at hrows
  have hZl : Z.length = m.n_context_ := by rw [← hZ, List.length_replicate]
  have hZv : ∀ q ∈ Z, q.length = m.n_features_ := by
    intro q hq
    rw [← hZ] at hq
    rw [List.eq_of_mem_replicate hq, List.length_replicate]
  have hcnt : (fs ++ Z).length - m.n_context_ = fs.length := by
    rw [List.length_append, hZl]; omega
  rw [hcnt] at hrows
  refine ⟨by rw [hrows, List.length_map, List.length_range], ?_⟩
  intro i p v hv hp hpi hj
  have hi : i < fs.length := by
    by_contra hcon
    rw [List.getElem?_eq_none (by omega)] at hv
    exact absurd hv (by simp)
  refine ⟨(((Z ++ (fs ++ Z)).drop (i + m.n_context_ - p)).take
    (2 * m.n_context_ + 1)).flatten, ?_, ?_⟩
  · rw [hrows, List.getElem?_map, List.getElem?_range hj]
    rfl
  · apply flatten_block
    · intro q hq
      have hq2 := List.mem_of_mem_drop (List.mem_of_mem_take hq)
      rcases List.mem_append.mp hq2 with h1 | h1
      · exact hZv q h1
      · rcases List.mem_append.mp h1 with h2 | h2
        · exact hfs q h2
        · exact hZv q h2
    · rw [List.getElem?_take_of_lt (by omega), List.getElem?_drop,
        List.getElem?_append_right (by omega), hZl,
        List.getElem?_append_left (by omega)]
      rw [← hv]
      congr 1
      omega

theorem freshState_stacked (m : ModelState) (hz : m.n_features_ * m.n_context_ < 2 ^ 32) :
    Stacked m ((Call.windows (freshState m).calls).map m.compute_mfcc) (freshState m) :=
  Stacked.fresh m hz

/-- Counterexample to C11 as stated: on the scenario model, after feeding `[1, 2, 3, 4]` and
finishing, the feature vector of the first window is never the block at the last position
of a row. -/
theorem C11_counterexample :
    ¬ ∀ (N : Nat) (s1 s2 : StreamingState),
      feedAudioContent N scenarioModel (freshState scenarioModel) [1, 2, 3, 4] = Res.ok s1 →
      finishStream N scenarioModel s1 = Res.ok s2 →
      ∀ w ∈ Call.windows s2.calls, ∀ p, p < 2 * scenarioModel.n_context_ + 1 →
        ∃ row ∈ Call.rows s2.calls,
          (row.drop (p * scenarioModel.n_features_)).take scenarioModel.n_features_ =
            scenarioModel.compute_mfcc w := by
  intro hall
  have e1 : feedAudioContent 3 scenarioModel (freshState scenarioModel) [1, 2, 3, 4] =
      Res.ok
        { audio_buffer_ := [3 / 32768, 1 / 8192]
          mfcc_buffer_ := [0, 0, 5 / 65536, 5 / 65536]
          batch_buffer_ := []
          previous_state_c_ := [0, 0]
          previous_state_h_ := [0, 0]
          probs_ := []
          calls := [Call.compute_mfcc [1 / 32768, 1 / 16384, 3 / 32768, 1 / 8192]] } := by
    with_unfolding_all rfl
  have e2 : finishStream 3 scenarioModel
        { audio_buffer_ := [3 / 32768, 1 / 8192]
          mfcc_buffer_ := [0, 0, 5 / 65536, 5 / 65536]
          batch_buffer_ := []
          previous_state_c_ := [0, 0]
          previous_state_h_ := [0, 0]
          probs_ := []
          calls := [Call.compute_mfcc [1 / 32768, 1 / 16384, 3 / 32768, 1 / 8192]] } =
      Res.ok
        { audio_buffer_ := [3 / 32768, 1 / 8192]
          mfcc_buffer_ := [7 / 65536, 7 / 65536, 0, 0]
          batch_buffer_ := []
          previous_state_c_ := [0, 0]
          previous_state_h_ := [0, 0]
          probs_ :=
            [[0, 0, 5 / 65536, 5 / 65536, 7 / 65536, 7 / 65536],
              [5 / 65536, 5 / 65536, 7 / 65536, 7 / 65536, 0, 0]]
          calls :=
            [Call.compute_mfcc [1 / 32768, 1 / 16384, 3 / 32768, 1 / 8192],
              Call.compute_mfcc [3 / 32768, 1 / 8192],
              Call.processMfccWindow [0, 0, 5 / 65536, 5 / 65536, 7 / 65536, 7 / 65536],
              Call.processMfccWindow [5 / 65536, 5 / 65536, 7 / 65536, 7 / 65536, 0, 0],
              Call.infer
                [0, 0, 5 / 65536, 5 / 65536, 7 / 65536, 7 / 65536, 5 / 65536, 5 / 65536,
                  7 / 65536, 7 / 65536, 0, 0] 2 [0, 0] [0, 0]] } := by
    with_unfolding_all rfl
  obtain ⟨row, hrow, hblock⟩ := hall 3 _ _ e1 e2
    [1 / 32768, 1 / 16384, 3 / 32768, 1 / 8192] (by simp [Call.windows]) 2 (by decide)
  have hcm : scenarioModel.compute_mfcc [1 / 32768, 1 / 16384, 3 / 32768, 1 / 8192]
      = [5 / 65536, 5 / 65536] := by
    simp only [scenarioModel, List.sum_cons, List.sum_nil, List.length_cons, List.length_nil,
      List.replicate]
    norm_num
  rw [hcm] at hblock
  simp only [Call.rows, List.filterMap_cons, List.filterMap_nil, List.mem_cons,
    List.mem_singleton, List.not_mem_nil, or_false] at hrow
  rcases hrow with rfl | rfl
  · simp [scenarioModel] at hblock
    norm_num at hblock
  · simp [scenarioModel] at hblock
    norm_num at hblock

/-- In a stream stacked on `fs` followed by `n_context_` zero vectors, the block at position
`p` of row `j` is the vector at index `j + p` of the zero padding, `fs` and the trailing
zero vectors: a zero vector when `j + p < n_context_`, the vector `fs[j + p - n_context_]`
when there is one, and a zero vector when `j + p ≥ n_context_ + fs.length`. -/
theorem Stacked.blocks (m : ModelState) (fs : List (List ℚ)) (s : StreamingState)
    (hfs : ∀ g ∈ fs, g.length = m.n_features_)
    (hS : Stacked m (fs ++ List.replicate m.n_context_ (List.replicate m.n_features_ (0 : ℚ)))
      s) :
    ∀ (j p : Nat), j < fs.length → p ≤ 2 * m.n_context_ →
      ∃ row, (Call.rows s.calls)[j]? = some row ∧
        (j + p < m.n_context_ →
          (row.drop (p * m.n_features_)).take m.n_features_ =
            List.replicate m.n_features_ (0 : ℚ)) ∧
        (∀ v, m.n_context_ ≤ j + p → fs[j + p - m.n_context_]? = some v →
          (row.drop (p * m.n_features_)).take m.n_features_ = v) ∧
        (fs.length + m.n_context_ ≤ j + p →
          (row.drop (p * m.n_features_)).take m.n_features_ =
            List.replicate m.n_features_ (0 : ℚ)) := by
  obtain ⟨hrows, _⟩ := hS
  have hZg : ∀ k, k < m.n_context_ →
      (List.replicate m.n_context_ (List.replicate m.n_features_ (0 : ℚ)))[k]? =
        some (List.replicate m.n_features_ (0 : ℚ)) := by
    intro k hk
    rw [List.getElem?_replicate, if_pos hk]
  generalize hZ : List.replicate m.n_context_ (List.replicate m.n_features_ (0 : ℚ)) = Z
    at hrows hZg
  have hZl : Z.length = m.n_context_ := by rw [← hZ, List.length_replicate]
  have hZv : ∀ q ∈ Z, q.length = m.n_features_ := by
    intro q hq
    rw [← hZ] at hq
    rw [List.eq_of_mem_replicate hq, List.length_replicate]
  have hcnt : (fs ++ Z).length - m.n_context_ = fs.length := by
    rw [List.length_append, hZl]; omega
  rw [hcnt] at hrows
  intro j p hj hp
  have hall : ∀ q ∈ ((Z ++ (fs ++ Z)).drop j).take (2 * m.n_context_ + 1),
      q.length = m.n_features_ := by
    intro q hq
    have hq2 := List.mem_of_mem_drop (List.mem_of_mem_take hq)
    rcases List.mem_append.mp hq2 with h1 | h1
    · exact hZv q h1
    · rcases List.mem_append.mp h1 with h2 | h2
      · exact hfs q h2
      · exact hZv q h2
  have hidx : ∀ v, (Z ++ (fs ++ Z))[j + p]? = some v →
      (((((Z ++ (fs ++ Z)).drop j).take (2 * m.n_context_ + 1)).flatten).drop
        (p * m.n_features_)).take m.n_features_ = v := by
    intro v hv
    apply flatten_block _ _ _ hall
    rw [List.getElem?_take_of_lt (by omega), List.getElem?_drop]
    exact hv
  refine ⟨(((Z ++ (fs ++ Z)).drop j).take (2 * m.n_context_ + 1)).flatten, ?_, ?_, ?_, ?_⟩
  · rw [hrows, List.getElem?_map, List.getElem?_range hj]
    rfl
  · intro h
    apply hidx
    rw [List.getElem?_append_left (by omega)]
    exact hZg _ h
  · intro v h hv
    apply hidx
    rw [List.getElem?_append_right (by omega), hZl]
    have hlt : j + p - m.n_context_ < fs.length := by
      by_contra hcon
      rw [List.getElem?_eq_none (by omega)] at hv
      exact absurd hv (by simp)
    rw [List.getElem?_append_left hlt]
    exact hv
  · intro h
    apply hidx
    rw [List.getElem?_append_right (by omega), hZl,
      List.getElem?_append_right (by omega)]
    exact hZg _ (by omega)

/-- C11 (context coverage on finish), amended.  On a stream just created under a valid
geometry, with `compute_mfcc` returning `n_features_` values, after any feeds followed by
`finishStream`: there are as many rows passed to `processMfccWindow` as windows passed to
`compute_mfcc`.  The block at position `p ≤ 2 * n_context_` of row `j` is a zero vector of
the initial padding when `j + p < n_context_`, the feature vector of window
`j + p - n_context_` when there is such a window, and a zero vector pushed by finish when
`j + p` is at least the number of windows plus `n_context_`.  So the feature vector of
window `i` is the block at position `p` of row `i + n_context_ - p` for every position `p`
for which that row exists, and in particular the centre block of row `i`.  The feeds and the
finish return. -/
theorem C11_context_coverage (m : ModelState) (hg : ValidGeometry m)
    (hcm : ∀ w, (m.compute_mfcc w).length = m.n_features_)
    (st : Stream) (hst : STT_CreateStream (some m) = some st) (chunks : List (List ℤ)) :
    (∀ (N N1 : Nat) (s1 s2 : StreamingState), feedAll N m st.state chunks = Res.ok s1 →
      finishStream N1 m s1 = Res.ok s2 →
      (Call.rows s2.calls).length = (Call.windows s2.calls).length ∧
      (∀ (j p : Nat), j < (Call.windows s2.calls).length → p ≤ 2 * m.n_context_ →
        ∃ row, (Call.rows s2.calls)[j]? = some row ∧
          (j + p < m.n_context_ →
            (row.drop (p * m.n_features_)).take m.n_features_ =
              List.replicate m.n_features_ (0 : ℚ)) ∧
          (∀ w, m.n_context_ ≤ j + p →
            (Call.windows s2.calls)[j + p - m.n_context_]? = some w →
            (row.drop (p * m.n_features_)).take m.n_features_ = m.compute_mfcc w) ∧
          ((Call.windows s2.calls).length + m.n_context_ ≤ j + p →
            (row.drop (p * m.n_features_)).take m.n_features_ =
              List.replicate m.n_features_ (0 : ℚ))) ∧
      (∀ (i p : Nat) (w : List ℚ), (Call.windows s2.calls)[i]? = some w →
        p ≤ 2 * m.n_context_ → p ≤ i + m.n_context_ →
        i + m.n_context_ - p < (Call.windows s2.calls).length →
        ∃ row, (Call.rows s2.calls)[i + m.n_context_ - p]? = some row ∧
          (row.drop (p * m.n_features_)).take m.n_features_ = m.compute_mfcc w) ∧
      (∀ (i : Nat) (w : List ℚ), (Call.windows s2.calls)[i]? = some w →
        ∃ row, (Call.rows s2.calls)[i]? = some row ∧
          (row.drop (m.n_context_ * m.n_features_)).take m.n_features_ =
            m.compute_mfcc w)) ∧
    (∃ N s1 s2, feedAll N m st.state chunks = Res.ok s1 ∧ finishStream N m s1 = Res.ok s2) := by
  rw [STT_CreateStream_some] at hst
  simp only [Option.some.injEq] at hst
  subst hst
  refine ⟨?_, ?_⟩
  · intro N N1 s1 s2 h1 h2
    have hS1 := feedAll_stacked m hg.2.2.1 hg.feats_eq hg.feats_lt hcm N chunks _ s1 h1
      (freshState_stacked m hg.zeros_lt)
    obtain ⟨hS2, _⟩ := finishStream_stacked N1 m hg.2.2.1 hg.feats_eq hg.feats_lt
      hcm s1 s2 hS1 h2
    have hF : ∀ g ∈ (Call.windows s2.calls).map m.compute_mfcc, g.length = m.n_features_ := by
      intro g hg
      obtain ⟨w1, _, rfl⟩ := List.mem_map.mp hg
      exact hcm w1
    obtain ⟨hlen, hpos⟩ := Stacked.position m _ s2 hF hS2
    have hblk := Stacked.blocks m _ s2 hF hS2
    rw [List.length_map] at hlen hpos hblk
    have hgen : ∀ (i p : Nat) (w : List ℚ), (Call.windows s2.calls)[i]? = some w →
        p ≤ 2 * m.n_context_ → p ≤ i + m.n_context_ →
        i + m.n_context_ - p < (Call.windows s2.calls).length →
        ∃ row, (Call.rows s2.calls)[i + m.n_context_ - p]? = some row ∧
          (row.drop (p * m.n_features_)).take m.n_features_ = m.compute_mfcc w := by
      intro i p w hw hp hpi hj
      exact hpos i p (m.compute_mfcc w) (by rw [List.getElem?_map, hw]; rfl) hp hpi hj
    refine ⟨hlen, ?_, hgen, ?_⟩
    · intro j p hj hp
      obtain ⟨row, hr, b1, b2, b3⟩ := hblk j p hj hp
      refine ⟨row, hr, b1, ?_, b3⟩
      intro w hc hw
      exact b2 (m.compute_mfcc w) hc (by rw [List.getElem?_map, hw]; rfl)
    · intro i w hw
      have hi : i < (Call.windows s2.calls).length := by
        by_contra hcon
        rw [List.getElem?_eq_none (by omega)] at hw
        exact absurd hw (by simp)
      have := hgen i m.n_context_ w hw (by omega) (by omega) (by omega)
      rwa [Nat.add_sub_cancel] at this
  · obtain ⟨N, s1, s2, h1, h2, _⟩ := feedAll_finish_total m hg chunks
    exact ⟨N, s1, s2, h1, h2⟩

/-- Witness for C11 on the scenario model: after `[1, 2, 3, 4]` and the finish there are two
windows and two rows; the feature vector of each window is the centre block of its row,
the first block of the first row is the zero padding and the last block of the last row is
the zero vector pushed by finish. -/
theorem C11_context_coverage_witness :
    ∃ s1 s2, feedAll 3 scenarioModel (freshState scenarioModel) [[1, 2, 3, 4]] = Res.ok s1 ∧
      finishStream 3 scenarioModel s1 = Res.ok s2 ∧
      (Call.rows s2.calls).length = 2 ∧
      (Call.rows s2.calls).length = (Call.windows s2.calls).length ∧
      (∀ (i : Nat) (w : List ℚ), (Call.windows s2.calls)[i]? = some w →
        ∃ row, (Call.rows s2.calls)[i]? = some row ∧
          (row.drop (scenarioModel.n_context_ * scenarioModel.n_features_)).take
            scenarioModel.n_features_ = scenarioModel.compute_mfcc w) ∧
      (∃ row, (Call.rows s2.calls)[0]? = some row ∧
        (row.drop (0 * 2)).take 2 = List.replicate 2 (0 : ℚ)) ∧
      ∃ row, (Call.rows s2.calls)[1]? = some row ∧
        (row.drop (2 * 2)).take 2 = List.replicate 2 (0 : ℚ) :=
  ⟨_, _, rfl, rfl, by decide,
    ((C11_context_coverage scenarioModel (by decide)
      (fun _ => List.length_replicate _ _)
      { model_ := scenarioModel, state := freshState scenarioModel } rfl
      [[1, 2, 3, 4]]).1 3 3 _ _ rfl rfl).1,
    ((C11_context_coverage scenarioModel (by decide)
      (fun _ => List.length_replicate _ _)
      { model_ := scenarioModel, state := freshState scenarioModel } rfl
      [[1, 2, 3, 4]]).1 3 3 _ _ rfl rfl).2.2.2,
    (((C11_context_coverage scenarioModel (by decide)
      (fun _ => List.length_replicate _ _)
      { model_ := scenarioModel, state := freshState scenarioModel } rfl
      [[1, 2, 3, 4]]).1 3 3 _ _ rfl rfl).2.1 0 0 (by decide) (by decide)).elim
      fun row h => ⟨row, h.1, h.2.1 (by decide)⟩,
    (((C11_context_coverage scenarioModel (by decide)
      (fun _ => List.length_replicate _ _)
      { model_ := scenarioModel, state := freshState scenarioModel } rfl
      [[1, 2, 3, 4]]).1 3 3 _ _ rfl rfl).2.1 1 2 (by decide) (by decide)).elim
      fun row h => ⟨row, h.1, h.2.2.2 (by decide)⟩⟩


/-! ### Batches before the finish -/

@[simp] theorem Call.batches_append (a b : List Call) :
    Call.batches (a ++ b) = Call.batches a ++ Call.batches b := by
  simp [Call.batches, List.filterMap_append]

@[simp] theorem Call.batches_infer (b : List ℚ) (n : Nat) (c h : List ℚ) :
    Call.batches [Call.infer b n c h] = [b] := rfl

@[simp] theorem Call.batches_row (r : List ℚ) :
    Call.batches [Call.processMfccWindow r] = [] := rfl

@[simp] theorem Call.batches_window (w : List ℚ) :
    Call.batches [Call.compute_mfcc w] = [] := rfl

theorem processMfccWindow_fullBatches (m : ModelState) (hf : 1 ≤ m.mfcc_feats_per_timestep_)
    (hnw : m.n_steps_ * m.mfcc_feats_per_timestep_ < 2 ^ 31)
    (N : Nat) (s : StreamingState) (row : List ℚ) (s1 : StreamingState)
    (hrow : row.length = m.mfcc_feats_per_timestep_) (hP : FullBatches m s)
    (h : processMfccWindow N m s row = Res.ok s1) : FullBatches m s1 := by
  obtain ⟨⟨j, hj, hb⟩, hcalls, hrows, hcat⟩ := hP
  have hle : (j + 1) * m.mfcc_feats_per_timestep_ ≤ m.n_steps_ * m.mfcc_feats_per_timestep_ :=
    Nat.mul_le_mul_right _ hj
  rw [Nat.succ_mul] at hle
  have hfit := processMfccWindow_fit N m s row s1 h (by omega) (by omega) hnw
  have hrows1 : ∀ r ∈ Call.rows (s.calls ++ [Call.processMfccWindow row]),
      r.length = m.mfcc_feats_per_timestep_ := by
    intro r hr
    rw [Call.rows_append, Call.rows_row] at hr
    rcases List.mem_append.mp hr with h1 | h1
    · exact hrows r h1
    · rw [List.mem_singleton.mp h1]; exact hrow
  by_cases hfull : s.batch_buffer_.length + row.length
      = m.n_steps_ * m.mfcc_feats_per_timestep_
  · rw [if_pos hfull] at hfit
    subst hfit
    refine ⟨⟨0, by omega, by simp⟩, ?_, ?_, ?_⟩
    · intro c hc b n c1 h1 he
      simp only [processBatch, List.mem_append, List.mem_singleton] at hc
      rcases hc with (hc | hc) | hc
      · exact hcalls c hc b n c1 h1 he
      · rw [hc] at he; exact absurd he (by simp)
      · rw [hc] at he
        simp only [Call.infer.injEq] at he
        obtain ⟨hb1, hn1, _, _⟩ := he
        rw [← hb1, ← hn1]
        exact ⟨rfl, by rw [List.length_append]; exact hfull⟩
    · intro r hr
      simp only [processBatch, Call.rows_append, Call.rows_infer, List.append_nil] at hr
      exact hrows1 r (by rw [Call.rows_append]; exact hr)
    · simp only [processBatch, Call.batches_append, Call.batches_row, Call.batches_infer,
        Call.rows_append, Call.rows_row, Call.rows_infer, List.append_nil,
        List.flatten_append, List.flatten_cons, List.flatten_nil]
      rw [← hcat, List.append_assoc]
  · rw [if_neg hfull] at hfit
    subst hfit
    have hj2 : j + 1 < m.n_steps_ := by
      by_contra hcon
      have : j + 1 = m.n_steps_ := by omega
      rw [← this, Nat.succ_mul] at hfull
      omega
    refine ⟨⟨j + 1, hj2, ?_⟩, ?_, hrows1, ?_⟩
    · simp only [List.length_append, Nat.succ_mul]; omega
    · intro c hc b n c1 h1 he
      simp only [List.mem_append, List.mem_singleton] at hc
      rcases hc with hc | hc
      · exact hcalls c hc b n c1 h1 he
      · rw [hc] at he; exact absurd he (by simp)
    · simp only [Call.batches_append, Call.batches_row, Call.rows_append, Call.rows_row,
        List.append_nil, List.flatten_append, List.flatten_cons, List.flatten_nil]
      rw [← hcat, List.append_assoc]

theorem FullBatches.log_audio_window {m : ModelState} {s : StreamingState} (w : List ℚ)
    (h : FullBatches m s) :
    FullBatches m { s with calls := s.calls ++ [Call.compute_mfcc w] } := by
  obtain ⟨h1, h2, h3, h4⟩ := h
  refine ⟨h1, ?_, ?_, ?_⟩
  · intro c hc b n c1 hh he
    simp only [List.mem_append, List.mem_singleton] at hc
    rcases hc with hc | hc
    · exact h2 c hc b n c1 hh he
    · rw [hc] at he; exact absurd he (by simp)
  · simpa using h3
  · simpa using h4

theorem freshState_fullBatches (m : ModelState) (hns : 1 ≤ m.n_steps_) :
    FullBatches m (freshState m) :=
  ⟨⟨0, hns, by simp [freshState]⟩, by simp [freshState], by simp [freshState, Call.rows],
    by simp [freshState, Call.rows, Call.batches]⟩

theorem feedAll_fullBatches (m : ModelState) (hf : 1 ≤ m.mfcc_feats_per_timestep_)
    (hnw : m.n_steps_ * m.mfcc_feats_per_timestep_ < 2 ^ 31)
    (N : Nat) (chunks : List (List ℤ)) (s s1 : StreamingState)
    (h : feedAll N m s chunks = Res.ok s1) (hP : FullBatches m s) : FullBatches m s1 :=
  feedAll_keeps_rows m (FullBatches m)
    (fun N s row s1 hrow hP h => processMfccWindow_fullBatches m hf hnw N s row s1 hrow hP h)
    (fun _ _ h => h) (fun _ w h => h.log_audio_window w) (fun _ _ h => h)
    N chunks s s1 h hP

theorem Call.frames_sum_of_forall (k : Nat) :
    ∀ (calls : List Call),
      (∀ c ∈ calls, ∀ b n c1 h1, c = Call.infer b n c1 h1 → n = k) →
      (Call.frames calls).sum = k * (Call.frames calls).length := by
  intro calls
  induction calls with
  | nil => intro _; simp [Call.frames]
  | cons c calls ih =>
    intro h
    have ih2 := ih (fun c1 hc1 => h c1 (List.mem_cons_of_mem _ hc1))
    have e : Call.frames (c :: calls) = Call.frames [c] ++ Call.frames calls := by
      rw [← Call.frames_append]; rfl
    rw [e, List.sum_append, List.length_append, ih2]
    cases c with
    | infer b n c1 h1 =>
      have := h _ (List.mem_cons_self _ _) b n c1 h1 rfl
      subst this
      simp only [Call.frames_infer, List.sum_cons, List.sum_nil, List.length_singleton]
      rw [Nat.mul_add]; omega
    | compute_mfcc w => simp
    | processMfccWindow r => simp

/-- C12 (mid-stream batches are always full).  On a stream just created under a valid
geometry, after any sequence of feeds and before the finish: the batch buffer holds a whole
number of rows and is strictly shorter than `n_steps_ * mfcc_feats_per_timestep_`; every
`infer` call made so far had `n_frames = n_steps_` and a batch of exactly
`n_steps_ * mfcc_feats_per_timestep_` values; the batches dispatched followed by the batch
buffer are the rows in order, each of `mfcc_feats_per_timestep_` values, so that no row is
split between two batches; and, when `infer` returns `n_frames * (alphabet_size + 1)` logits,
`probs_.length = n_steps_ * (T / n_steps_)` with `T` the number of rows produced.  The feeds
return. -/
theorem C12_midstream_batches_full (m : ModelState) (hg : ValidGeometry m) (st : Stream)
    (hst : STT_CreateStream (some m) = some st) (chunks : List (List ℤ)) :
    (∀ (N : Nat) (s1 : StreamingState), feedAll N m st.state chunks = Res.ok s1 →
      (∃ j, j < m.n_steps_ ∧ s1.batch_buffer_.length = j * m.mfcc_feats_per_timestep_) ∧
      s1.batch_buffer_.length < m.n_steps_ * m.mfcc_feats_per_timestep_ ∧
      (∀ c ∈ s1.calls, ∀ b n c1 h1, c = Call.infer b n c1 h1 →
        n = m.n_steps_ ∧ b.length = m.n_steps_ * m.mfcc_feats_per_timestep_) ∧
      (∀ r ∈ Call.rows s1.calls, r.length = m.mfcc_feats_per_timestep_) ∧
      (Call.batches s1.calls).flatten ++ s1.batch_buffer_ = (Call.rows s1.calls).flatten ∧
      ((∀ buf k c h, buf.length = k * m.mfcc_feats_per_timestep_ →
          (m.infer buf k c h).1.length = k * (m.alphabet_size + 1)) →
        s1.probs_.length = m.n_steps_ * ((Call.rows s1.calls).length / m.n_steps_))) ∧
    (∃ N s1, feedAll N m st.state chunks = Res.ok s1) := by
  rw [STT_CreateStream_some] at hst
  simp only [Option.some.injEq] at hst
  subst hst
  have hf := hg.feats_pos
  have hns := hg.2.2.2.1
  refine ⟨?_, ?_⟩
  · intro N s1 h
    obtain ⟨⟨j, hj, hb⟩, hcalls, hrows, hcat⟩ :=
      feedAll_fullBatches m hf hg.no_wrap N chunks _ s1 h (freshState_fullBatches m hns)
    have hlt : s1.batch_buffer_.length < m.n_steps_ * m.mfcc_feats_per_timestep_ := by
      rw [hb]; exact Nat.mul_lt_mul_of_pos_right hj hf
    refine ⟨⟨j, hj, hb⟩, hlt, hcalls, hrows, hcat, ?_⟩
    intro hinfer
    obtain ⟨_, hsum, hprobs⟩ :=
      feedAll_accounted m hinfer hg.no_wrap N chunks _ s1 h (freshState_accounted m hns)
    have hfr := Call.frames_sum_of_forall m.n_steps_ s1.calls
      (fun c hc b n c1 h1 he => (hcalls c hc b n c1 h1 he).1)
    rw [hb, ← Nat.add_mul] at hsum
    have hT : (Call.frames s1.calls).sum + j = (Call.rows s1.calls).length :=
      Nat.eq_of_mul_eq_mul_right hf hsum
    rw [hprobs, hfr]
    congr 1
    rw [← hT, hfr, Nat.add_comm, Nat.add_mul_div_left _ _ (by omega), Nat.div_eq_of_lt hj,
      Nat.zero_add]
  · obtain ⟨N, s1, s2, h1, _, _⟩ := feedAll_finish_total m hg chunks
    exact ⟨N, s1, h1⟩

/-- Witness for C12 on the scenario model: eight samples give two rows, one `infer` call with
`n_frames = 2`, an empty batch buffer and two frames before the finish. -/
theorem C12_midstream_batches_full_witness :
    ∃ s1, feedAll 5 scenarioModel (freshState scenarioModel) [[1, 2, 3, 4, 5, 6, 7, 8]]
        = Res.ok s1 ∧
      (Call.rows s1.calls).length = 2 ∧ Call.frames s1.calls = [2] ∧
      s1.batch_buffer_ = [] ∧ s1.probs_.length = 2 ∧
      s1.probs_.length = scenarioModel.n_steps_ *
        ((Call.rows s1.calls).length / scenarioModel.n_steps_) :=
  ⟨_, rfl, by decide, by decide, by decide, by decide,
    ((C12_midstream_batches_full scenarioModel (by decide)
      { model_ := scenarioModel, state := freshState scenarioModel } rfl
      [[1, 2, 3, 4, 5, 6, 7, 8]]).1 5 _ rfl).2.2.2.2.2 (fun _ _ _ _ h => h)⟩


/-! ### Creation of streams and models -/

theorem STT_CreateStream_mfcc_length (m : ModelState) (st : Stream)
    (h : STT_CreateStream (some m) = some st) :
    st.state.mfcc_buffer_.length = u32_mul m.n_features_ m.n_context_ := by
  rw [STT_CreateStream_some] at h
  simp only [Option.some.injEq] at h
  subst h
  exact List.length_replicate _ _

/-- C13, counterexample to "for every non-null model the MFCC buffer of a new stream holds
`n_features * n_context` zeros": for a model with `n_features_ = n_context_ = 65536` the
product of the two `unsigned int` is `0`, and the stream starts with an empty MFCC buffer. -/
theorem C13_counterexample :
    ¬ ∀ (m : ModelState) (st : Stream), STT_CreateStream (some m) = some st →
      st.state.mfcc_buffer_ = List.replicate (m.n_features_ * m.n_context_) 0 := by
  intro h
  have h1 := congrArg List.length
    (h { scenarioModel with n_features_ := 65536, n_context_ := 65536 } _
      (STT_CreateStream_some _))
  rw [List.length_replicate, STT_CreateStream_mfcc_length _ _ (STT_CreateStream_some _)] at h1
  exact absurd h1 (by decide)

/-- C13 (stream creation), amended.  `STT_CreateStream` returns no stream for a null model,
and only then; for a model `m` it returns a stream bound to `m` whose audio buffer is empty,
whose MFCC buffer is `(n_features_ * n_context_) mod 2 ^ 32` zeros, whose batch buffer is
empty, whose `previous_state_c_` and `previous_state_h_` are `state_size_` zeros each, and
whose `probs_` is empty.  The MFCC buffer is `n_features_ * n_context_` zeros when this
product is below `2 ^ 32`, which it is under a valid geometry. -/
theorem C13_stream_creation :
    STT_CreateStream none = none ∧
    (∀ aCtx, STT_CreateStream aCtx = none ↔ aCtx = none) ∧
    (∀ m : ModelState, ∃ st, STT_CreateStream (some m) = some st ∧
      st.model_ = m ∧
      st.state.audio_buffer_ = [] ∧
      st.state.mfcc_buffer_ =
        List.replicate ((m.n_features_ * m.n_context_) % 2 ^ 32) 0 ∧
      (m.n_features_ * m.n_context_ < 2 ^ 32 →
        st.state.mfcc_buffer_ = List.replicate (m.n_features_ * m.n_context_) 0) ∧
      (ValidGeometry m →
        st.state.mfcc_buffer_ = List.replicate (m.n_features_ * m.n_context_) 0) ∧
      st.state.batch_buffer_ = [] ∧
      st.state.previous_state_c_ = List.replicate m.state_size_ 0 ∧
      st.state.previous_state_h_ = List.replicate m.state_size_ 0 ∧
      st.state.probs_ = []) := by
  refine ⟨rfl, ?_, ?_⟩
  · intro aCtx
    cases aCtx with
    | none => simp [STT_CreateStream]
    | some m => simp [STT_CreateStream]
  · intro m
    refine ⟨_, rfl, rfl, rfl, rfl, ?_, ?_, rfl, rfl, rfl, rfl⟩
    · intro hz
      show List.replicate (u32_mul m.n_features_ m.n_context_) (0 : ℚ) = _
      rw [u32_mul_eq _ _ hz]
    · intro hg
      show List.replicate (u32_mul m.n_features_ m.n_context_) (0 : ℚ) = _
      rw [u32_mul_eq _ _ hg.zeros_lt]

/-- Witness for C13: a stream created on the scenario model starts with `2 * 1` zeros in its
MFCC buffer. -/
theorem C13_stream_creation_witness :
    ∃ st, STT_CreateStream (some scenarioModel) = some st ∧
      st.state.mfcc_buffer_ = List.replicate (2 * 1) 0 :=
  (C13_stream_creation.2.2 scenarioModel).elim fun st h =>
    ⟨st, h.1, h.2.2.2.2.2.1 (by decide)⟩

/-- C14 (no-model error).  `CreateModelImpl` returns `STT_ERR_NO_MODEL`, which is `0x1000`,
with a null handle and without calling the model's `init`, exactly when `init_from_bytes` is
false and the path is empty, or `init_from_bytes` is true and the buffer size is `0`.
Otherwise it calls `init` once, on its own arguments, and returns the error code of `init`
unchanged with a null handle when that is not `STT_ERR_OK`, and `STT_ERR_OK`, which is `0`,
with the initialised model as handle when it is.  `STT_CreateModel` returns null whenever
`CreateModelImpl` does not return `STT_ERR_OK`, and the handle otherwise. -/
theorem C14_no_model_error (newModel : ModelState)
    (init : ModelState → String → Bool → Nat → ℤ × ModelState)
    (aModelString : String) (init_from_bytes : Bool) (aBufferSize : Nat) :
    (((CreateModelImpl newModel init aModelString init_from_bytes aBufferSize).err
          = (STT_ERR_NO_MODEL : ℤ) ∧
        (CreateModelImpl newModel init aModelString init_from_bytes aBufferSize).retval
          = none ∧
        (CreateModelImpl newModel init aModelString init_from_bytes aBufferSize).init_calls
          = []) ↔
      ((init_from_bytes = false ∧ aModelString.length = 0) ∨
        (init_from_bytes = true ∧ aBufferSize = 0))) ∧
    (¬ ((init_from_bytes = false ∧ aModelString.length = 0) ∨
        (init_from_bytes = true ∧ aBufferSize = 0)) →
      (CreateModelImpl newModel init aModelString init_from_bytes aBufferSize).init_calls
          = [(aModelString, init_from_bytes, aBufferSize)] ∧
        (CreateModelImpl newModel init aModelString init_from_bytes aBufferSize).err
          = (init newModel aModelString init_from_bytes aBufferSize).1 ∧
        ((init newModel aModelString init_from_bytes aBufferSize).1 ≠ (STT_ERR_OK : ℤ) →
          (CreateModelImpl newModel init aModelString init_from_bytes aBufferSize).retval
            = none) ∧
        ((init newModel aModelString init_from_bytes aBufferSize).1 = (STT_ERR_OK : ℤ) →
          (CreateModelImpl newModel init aModelString init_from_bytes aBufferSize).retval
            = some (init newModel aModelString init_from_bytes aBufferSize).2)) ∧
    (STT_ERR_NO_MODEL = 0x1000 ∧ STT_ERR_OK = 0) ∧
    ((CreateModelImpl newModel init aModelString false 0).err ≠ (STT_ERR_OK : ℤ) →
      STT_CreateModel newModel init aModelString = none) ∧
    ((CreateModelImpl newModel init aModelString false 0).err = (STT_ERR_OK : ℤ) →
      STT_CreateModel newModel init aModelString =
        some (init newModel aModelString false 0).2) := by
  have hcond : ((!init_from_bytes && aModelString.length == 0) ||
      (init_from_bytes && aBufferSize == 0)) = true ↔
      ((init_from_bytes = false ∧ aModelString.length = 0) ∨
        (init_from_bytes = true ∧ aBufferSize = 0)) := by
    cases init_from_bytes <;> simp
  refine ⟨?_, ?_, ⟨rfl, rfl⟩, ?_, ?_⟩
  · constructor
    · intro ⟨_, _, h3⟩
      by_contra hc
      rw [← hcond] at hc
      unfold CreateModelImpl at h3
      rw [if_neg hc] at h3
      dsimp only at h3
      split_ifs at h3
    · intro hc
      rw [← hcond] at hc
      unfold CreateModelImpl
      rw [if_pos hc]
      exact ⟨rfl, rfl, rfl⟩
  · intro hc
    rw [← hcond] at hc
    unfold CreateModelImpl
    rw [if_neg hc]
    by_cases he : (init newModel aModelString init_from_bytes aBufferSize).1 = (STT_ERR_OK : ℤ)
    · simp [he]
    · simp [he]
  · intro h
    unfold STT_CreateModel
    rw [if_pos h]
  · intro h
    unfold STT_CreateModel
    rw [if_neg (by simpa using h)]
    unfold CreateModelImpl at h ⊢
    by_cases hc : ((!false && aModelString.length == 0) || (false && (0 : ℕ) == 0)) = true
    · rw [if_pos hc] at h
      simp [STT_ERR_NO_MODEL, STT_ERR_OK] at h
    · rw [if_neg hc] at h ⊢
      by_cases he : (init newModel aModelString false 0).1 = (STT_ERR_OK : ℤ)
      · simp [he]
      · simp [he] at h

/-- Witness for C14: with an `init` that succeeds, an empty path gives `STT_ERR_NO_MODEL`
and a null handle without a call of `init`, and the path `"model"` gives `STT_ERR_OK`, one
call of `init` and a handle. -/
theorem C14_no_model_error_witness :
    (CreateModelImpl scenarioModel (fun md _ _ _ => (0, md)) "" false 0).err = 0x1000 ∧
      (CreateModelImpl scenarioModel (fun md _ _ _ => (0, md)) "" false 0).init_calls = [] ∧
      (CreateModelImpl scenarioModel (fun md _ _ _ => (0, md)) "model" false 0).err = 0 ∧
      (CreateModelImpl scenarioModel (fun md _ _ _ => (0, md)) "model" false 0).init_calls
        = [("model", false, 0)] :=
  ⟨((C14_no_model_error scenarioModel (fun md _ _ _ => (0, md)) "" false 0).1.mpr
      (Or.inl ⟨rfl, rfl⟩)).1,
    ((C14_no_model_error scenarioModel (fun md _ _ _ => (0, md)) "" false 0).1.mpr
      (Or.inl ⟨rfl, rfl⟩)).2.2,
    by
      rw [((C14_no_model_error scenarioModel (fun md _ _ _ => (0, md)) "model" false 0).2.1
        (by decide)).2.1],
    ((C14_no_model_error scenarioModel (fun md _ _ _ => (0, md)) "model" false 0).2.1
      (by decide)).1⟩


/-! ### A feed that does not fill the window -/

/-- C15 (a short feed only buffers).  For every state and every sample list with
`audio_buffer_.length + buffer.length < audio_win_len_`, `feedAudioContent` returns, for every
budget of at least one iteration, the state whose audio buffer is the old one followed by the
scaled samples; the call log is unchanged, so neither `compute_mfcc` nor `infer` is called,
and the MFCC buffer, the batch buffer, the recurrent states and `probs_` are unchanged. -/
theorem C15_short_feed_only_buffers (m : ModelState) (s : StreamingState) (buffer : List ℤ)
    (h : s.audio_buffer_.length + buffer.length < m.audio_win_len_) (N : Nat) (hN : 1 ≤ N) :
    ∃ s1, feedAudioContent N m s buffer = Res.ok s1 ∧
      s1.audio_buffer_ = s.audio_buffer_ ++ buffer.map sample_to_float ∧
      s1.calls = s.calls ∧
      Call.windows s1.calls = Call.windows s.calls ∧
      Call.frames s1.calls = Call.frames s.calls ∧
      s1.mfcc_buffer_ = s.mfcc_buffer_ ∧
      s1.batch_buffer_ = s.batch_buffer_ ∧
      s1.previous_state_c_ = s.previous_state_c_ ∧
      s1.previous_state_h_ = s.previous_state_h_ ∧
      s1.probs_ = s.probs_ := by
  cases buffer with
  | nil =>
    refine ⟨s, ?_, ?_, rfl, rfl, rfl, rfl, rfl, rfl, rfl, rfl⟩
    · simp [feedAudioContent]
    · simp
  | cons x xs =>
    obtain ⟨k, rfl⟩ : ∃ k, N = k + 1 := ⟨N - 1, by omega⟩
    have hlen : (x :: xs).length ≤ m.audio_win_len_ - s.audio_buffer_.length := by omega
    have e1 : (feedAudioContent_inner m s.audio_buffer_ (x :: xs)).1 =
        s.audio_buffer_ ++ (x :: xs).map sample_to_float := by
      rw [feedAudioContent_inner_eq, List.take_of_length_le hlen]
    have e2 : (feedAudioContent_inner m s.audio_buffer_ (x :: xs)).2 = [] := by
      rw [feedAudioContent_inner_eq]
      exact List.drop_of_length_le hlen
    have hne : ¬ (feedAudioContent_inner m s.audio_buffer_ (x :: xs)).1.length
        = m.audio_win_len_ := by
      rw [e1, List.length_append, List.length_map]
      omega
    refine ⟨{ s with audio_buffer_ := s.audio_buffer_ ++ (x :: xs).map sample_to_float },
      ?_, rfl, rfl, rfl, rfl, rfl, rfl, rfl, rfl, rfl⟩
    unfold feedAudioContent
    rw [feedAudioContent_loop_succ, if_neg hne, e1, e2, feedAudioContent_loop_nil]

/-- Witness for C15: three samples fed to a fresh stream of the scenario model, whose window
has four samples, are buffered and nothing is called. -/
theorem C15_short_feed_only_buffers_witness :
    ∃ s1, feedAudioContent 1 scenarioModel (freshState scenarioModel) [1, 2, 3] = Res.ok s1 ∧
      s1.audio_buffer_ = [] ++ [1, 2, 3].map sample_to_float ∧ s1.calls = [] :=
  (C15_short_feed_only_buffers scenarioModel (freshState scenarioModel) [1, 2, 3]
      (by decide) 1 (by decide)).elim
    fun s1 h => ⟨s1, h.1, h.2.1, h.2.2.1⟩

/-! ### The residual window of `finishStream` -/

theorem flushBuffers_zeros_eq_pushAll (N : Nat) (m : ModelState) :
    ∀ (count : Nat) (s : StreamingState),
      flushBuffers_zeros N m count s =
        pushAll N m s (List.replicate count (List.replicate m.n_features_ (0 : ℚ))) := by
  intro count
  induction count with
  | zero => intro s; rfl
  | succ n ih =>
    intro s
    rw [List.replicate_succ]
    simp only [flushBuffers_zeros, pushAll, addZeroMfccWindow]
    congr 1
    funext s1
    exact ih s1

theorem finishStream_eq (N : Nat) (m : ModelState) (s : StreamingState) :
    finishStream N m s =
      (pushAll N m { s with calls := s.calls ++ [Call.compute_mfcc s.audio_buffer_] }
          (m.compute_mfcc s.audio_buffer_ ::
            List.replicate m.n_context_ (List.replicate m.n_features_ (0 : ℚ)))).bind
        fun s1 => flushBuffers_batch m s1 := by
  simp only [finishStream, flushBuffers, flushBuffers_push, processAudioWindow, pushAll,
    if_true, flushBuffers_zeros_eq_pushAll]

theorem LogTail.processBatch (m : ModelState) (base : List Call) (audio : List ℚ)
    (s : StreamingState) (buf : List ℚ) (n : Nat) (h : LogTail base audio s) :
    LogTail base audio (processBatch m s buf n) := by
  obtain ⟨⟨rest, h1, h2⟩, h3⟩ := h
  refine ⟨⟨rest ++ [Call.infer buf n s.previous_state_c_ s.previous_state_h_], ?_, ?_⟩, h3⟩
  · simp [STT.processBatch, h1]
  · rw [Call.windows_append, h2]; rfl

theorem LogTail.row (base : List Call) (audio : List ℚ) (s : StreamingState) (row : List ℚ)
    (h : LogTail base audio s) :
    LogTail base audio { s with calls := s.calls ++ [Call.processMfccWindow row] } := by
  obtain ⟨⟨rest, h1, h2⟩, h3⟩ := h
  refine ⟨⟨rest ++ [Call.processMfccWindow row], ?_, ?_⟩, h3⟩
  · simp [h1]
  · rw [Call.windows_append, h2]; rfl

theorem pushAll_keeps (N : Nat) (m : ModelState) (P : StreamingState → Prop)
    (hB : ∀ s buf n, P s → P (processBatch m s buf n))
    (hb : ∀ s b, P s → P { s with batch_buffer_ := b })
    (hw : ∀ s row, P s → P { s with calls := s.calls ++ [Call.processMfccWindow row] })
    (hm : ∀ s b, P s → P { s with mfcc_buffer_ := b }) :
    ∀ (fs : List (List ℚ)) (s s1 : StreamingState),
      pushAll N m s fs = Res.ok s1 → P s → P s1 := by
  intro fs
  induction fs with
  | nil =>
    intro s s1 h hP
    simp only [pushAll, Res.ok.injEq] at h
    exact h ▸ hP
  | cons f fs ih =>
    intro s s1 h hP
    simp only [pushAll] at h
    obtain ⟨a, h1, h2⟩ := Res.bind_eq_ok.mp h
    exact ih a s1 h2 (pushMfccBuffer_keeps N m P hB hb hw hm s f a h1 hP)

theorem flushBuffers_batch_calls (m : ModelState) (s s1 : StreamingState)
    (h : flushBuffers_batch m s = Res.ok s1) :
    s1.calls = s.calls ++
      (if s.batch_buffer_.length > 0 then
        [Call.infer s.batch_buffer_ (s.batch_buffer_.length / m.mfcc_feats_per_timestep_)
          s.previous_state_c_ s.previous_state_h_]
      else []) := by
  unfold flushBuffers_batch at h
  split_ifs at h with h1 h2
  · simp only [Res.ok.injEq] at h
    subst h
    rw [if_pos h1]
    simp [processBatch]
  · simp only [Res.ok.injEq] at h
    subst h
    rw [if_neg h1]
    simp

theorem finishStream_logTail (N : Nat) (m : ModelState) (s s2 : StreamingState)
    (h : finishStream N m s = Res.ok s2) :
    LogTail (s.calls ++ [Call.compute_mfcc s.audio_buffer_]) s.audio_buffer_ s2 := by
  rw [finishStream_eq] at h
  obtain ⟨s1, h1, h2⟩ := Res.bind_eq_ok.mp h
  have hP : LogTail (s.calls ++ [Call.compute_mfcc s.audio_buffer_]) s.audio_buffer_
      { s with calls := s.calls ++ [Call.compute_mfcc s.audio_buffer_] } :=
    ⟨⟨[], by simp, rfl⟩, rfl⟩
  have h3 := pushAll_keeps N m _ (fun s buf n => LogTail.processBatch m _ _ s buf n)
    (fun _ _ hs => hs) (fun s row => LogTail.row _ _ s row) (fun _ _ hs => hs) _ _ _ h1 hP
  exact flushBuffers_batch_keeps m _ (fun s buf n => LogTail.processBatch m _ _ s buf n)
    (fun _ _ hs => hs) _ _ h2 h3

/-- C16 (the residual window of finish).  `finishStream` is: one `compute_mfcc` call on the
audio buffer as it is, whatever its length; its result pushed into the MFCC stage, followed
by `n_context_` all-zero feature vectors of length `n_features_`; then the dispatch of the
final batch.  When it returns, the log of `compute_mfcc` calls has grown by exactly one
window, the audio buffer unchanged, which is the first new entry of the call log; the audio
buffer itself is kept; and the final `infer` call is the last entry.  It does return from
every state within capacity under a valid geometry, and from a stream that was fed nothing
the one window is empty. -/
theorem C16_finish_residual_window (m : ModelState) (s : StreamingState) :
    (∀ N, finishStream N m s =
      (pushAll N m { s with calls := s.calls ++ [Call.compute_mfcc s.audio_buffer_] }
          (m.compute_mfcc s.audio_buffer_ ::
            List.replicate m.n_context_ (List.replicate m.n_features_ (0 : ℚ)))).bind
        fun s1 => flushBuffers_batch m s1) ∧
    (∀ N s2, finishStream N m s = Res.ok s2 →
      Call.windows s2.calls = Call.windows s.calls ++ [s.audio_buffer_] ∧
      s2.audio_buffer_ = s.audio_buffer_ ∧
      (∃ rest, s2.calls = s.calls ++ Call.compute_mfcc s.audio_buffer_ :: rest ∧
        Call.windows rest = []) ∧
      ∃ s1, pushAll N m { s with calls := s.calls ++ [Call.compute_mfcc s.audio_buffer_] }
          (m.compute_mfcc s.audio_buffer_ ::
            List.replicate m.n_context_ (List.replicate m.n_features_ (0 : ℚ))) = Res.ok s1 ∧
        s2.calls = s1.calls ++
          (if s1.batch_buffer_.length > 0 then
            [Call.infer s1.batch_buffer_
              (s1.batch_buffer_.length / m.mfcc_feats_per_timestep_)
              s1.previous_state_c_ s1.previous_state_h_]
          else [])) ∧
    (ValidGeometry m → WithinCapacity m s → ∃ N s2, finishStream N m s = Res.ok s2) ∧
    (ValidGeometry m → ∃ N s2, finishStream N m (freshState m) = Res.ok s2 ∧
      Call.windows s2.calls = [[]]) := by
  refine ⟨fun N => finishStream_eq N m s, ?_, ?_, ?_⟩
  · intro N s2 h
    obtain ⟨⟨rest, h1, h2⟩, h3⟩ := finishStream_logTail N m s s2 h
    refine ⟨?_, h3, ⟨rest, by simpa using h1, h2⟩, ?_⟩
    · rw [h1]
      simp only [Call.windows_append, h2, List.append_nil]
      rfl
    · rw [finishStream_eq] at h
      obtain ⟨s1, h4, h5⟩ := Res.bind_eq_ok.mp h
      exact ⟨s1, h4, flushBuffers_batch_calls m s1 s2 h5⟩
  · intro hg hw
    obtain ⟨N, s2, h, _⟩ := flushBuffers_total m hg s true hw
    exact ⟨N, s2, h⟩
  · intro hg
    obtain ⟨N, s2, h, _⟩ :=
      flushBuffers_total m hg (freshState m) true (freshState_withinCapacity m hg)
    refine ⟨N, s2, h, ?_⟩
    obtain ⟨⟨rest, h1, h2⟩, _⟩ := finishStream_logTail N m _ s2 h
    rw [h1]
    simp only [Call.windows_append, h2, List.append_nil]
    rfl

/-- Witness for C16: on a stream of the scenario model holding the three buffered samples
`1/2, 1/4, 1/8`, finish returns and its one `compute_mfcc` call is on these three samples. -/
theorem C16_finish_residual_window_witness :
    ∃ N s2,
      finishStream N scenarioModel
        { freshState scenarioModel with audio_buffer_ := [1 / 2, 1 / 4, 1 / 8] } = Res.ok s2 ∧
      Call.windows s2.calls = [[1 / 2, 1 / 4, 1 / 8]] :=
  ((C16_finish_residual_window scenarioModel
      { freshState scenarioModel with audio_buffer_ := [1 / 2, 1 / 4, 1 / 8] }).2.2.1
    (by decide) (by decide)).elim
    fun N h => h.elim fun s2 h2 =>
      ⟨N, s2, h2,
        ((C16_finish_residual_window scenarioModel
          { freshState scenarioModel with audio_buffer_ := [1 / 2, 1 / 4, 1 / 8] }).2.1
          N s2 h2).1⟩


/-! ### Buffer arithmetic on reachable states -/

/-- The MFCC buffer of a state that stacks the vectors `F`: it holds the last
`min (n_context_ + F.length) (2 * n_context_)` vectors of the zero padding followed by
`F`. -/
theorem Stacked.buffer (m : ModelState) (F : List (List ℚ)) (s : StreamingState)
    (hnf : 1 ≤ m.n_features_)
    (hfe : m.mfcc_feats_per_timestep_ = m.n_features_ * (2 * m.n_context_ + 1))
    (hF : ∀ g ∈ F, g.length = m.n_features_) (hS : Stacked m F s) :
    s.mfcc_buffer_.length < m.mfcc_feats_per_timestep_ ∧
      s.mfcc_buffer_ =
        ((List.replicate m.n_context_ (List.replicate m.n_features_ (0 : ℚ)) ++ F).drop
          ((List.replicate m.n_context_ (List.replicate m.n_features_ (0 : ℚ)) ++ F).length
            - min (m.n_context_ + F.length) (2 * m.n_context_))).flatten ∧
      ((List.replicate m.n_context_ (List.replicate m.n_features_ (0 : ℚ)) ++ F).drop
          ((List.replicate m.n_context_ (List.replicate m.n_features_ (0 : ℚ)) ++ F).length
            - min (m.n_context_ + F.length) (2 * m.n_context_))).length
        = min (m.n_context_ + F.length) (2 * m.n_context_) ∧
      s.mfcc_buffer_.length = min (m.n_context_ + F.length) (2 * m.n_context_) * m.n_features_
    := by
  have hlen : (List.replicate m.n_context_ (List.replicate m.n_features_ (0 : ℚ)) ++ F).length
      = m.n_context_ + F.length := by
    rw [List.length_append, List.length_replicate]
  have hidx : (List.replicate m.n_context_ (List.replicate m.n_features_ (0 : ℚ)) ++ F).length
      - min (m.n_context_ + F.length) (2 * m.n_context_) = F.length - m.n_context_ := by
    rw [hlen]; omega
  have hall : ∀ g ∈ (List.replicate m.n_context_ (List.replicate m.n_features_ (0 : ℚ)) ++ F).drop
      (F.length - m.n_context_), g.length = m.n_features_ := by
    intro g hg
    have hg1 := List.mem_of_mem_drop hg
    rcases List.mem_append.mp hg1 with h1 | h1
    · rw [(List.mem_replicate.mp h1).2, List.length_replicate]
    · exact hF g h1
  have hcount : ((List.replicate m.n_context_ (List.replicate m.n_features_ (0 : ℚ)) ++ F).drop
      (F.length - m.n_context_)).length = min (m.n_context_ + F.length) (2 * m.n_context_) := by
    rw [List.length_drop, hlen]; omega
  have hbuf : s.mfcc_buffer_.length
      = min (m.n_context_ + F.length) (2 * m.n_context_) * m.n_features_ := by
    rw [hS.2, length_flatten_of_forall _ hall, hcount]
  refine ⟨?_, ?_, ?_, hbuf⟩
  · rw [hbuf, hfe, Nat.mul_comm m.n_features_]
    have h2 : min (m.n_context_ + F.length) (2 * m.n_context_) < 2 * m.n_context_ + 1 := by
      omega
    exact Nat.mul_lt_mul_of_pos_right h2 (by omega)
  · rw [hidx]; exact hS.2
  · rw [hidx]; exact hcount

/-- C18 (MFCC buffer invariant).  For a fresh stream under a valid geometry, with
`compute_mfcc` returning `n_features_` values: after every sequence of feeds, and after a
finish that follows it, the MFCC buffer is shorter than `mfcc_feats_per_timestep_` and holds
the last `min (n_context_ + k) (2 * n_context_)` vectors of `P`, the `n_context_` zero vectors
followed by the `k` feature vectors pushed so far; these are the features of the windows
passed to `compute_mfcc` and, after finish, the `n_context_` zero vectors it pushes.  The
feeds and the finish do return. -/
theorem C18_mfcc_buffer_invariant (m : ModelState) (hg : ValidGeometry m)
    (hcm : ∀ w, (m.compute_mfcc w).length = m.n_features_)
    (st : Stream) (hst : STT_CreateStream (some m) = some st) (chunks : List (List ℤ)) :
    (∀ (N : Nat) (s1 : StreamingState) (F P : List (List ℚ)),
      feedAll N m st.state chunks = Res.ok s1 →
      F = (Call.windows s1.calls).map m.compute_mfcc →
      P = List.replicate m.n_context_ (List.replicate m.n_features_ (0 : ℚ)) ++ F →
      s1.mfcc_buffer_.length < m.mfcc_feats_per_timestep_ ∧
      s1.mfcc_buffer_ =
        (P.drop (P.length - min (m.n_context_ + F.length) (2 * m.n_context_))).flatten ∧
      (P.drop (P.length - min (m.n_context_ + F.length) (2 * m.n_context_))).length
        = min (m.n_context_ + F.length) (2 * m.n_context_) ∧
      s1.mfcc_buffer_.length
        = min (m.n_context_ + F.length) (2 * m.n_context_) * m.n_features_) ∧
    (∀ (N N1 : Nat) (s1 s2 : StreamingState) (F P : List (List ℚ)),
      feedAll N m st.state chunks = Res.ok s1 → finishStream N1 m s1 = Res.ok s2 →
      F = (Call.windows s2.calls).map m.compute_mfcc ++
        List.replicate m.n_context_ (List.replicate m.n_features_ (0 : ℚ)) →
      P = List.replicate m.n_context_ (List.replicate m.n_features_ (0 : ℚ)) ++ F →
      s2.mfcc_buffer_.length < m.mfcc_feats_per_timestep_ ∧
      s2.mfcc_buffer_ =
        (P.drop (P.length - min (m.n_context_ + F.length) (2 * m.n_context_))).flatten ∧
      (P.drop (P.length - min (m.n_context_ + F.length) (2 * m.n_context_))).length
        = min (m.n_context_ + F.length) (2 * m.n_context_) ∧
      s2.mfcc_buffer_.length
        = min (m.n_context_ + F.length) (2 * m.n_context_) * m.n_features_) ∧
    (∃ N s1 s2, feedAll N m st.state chunks = Res.ok s1 ∧ finishStream N m s1 = Res.ok s2) := by
  rw [STT_CreateStream_some] at hst
  simp only [Option.some.injEq] at hst
  subst hst
  refine ⟨?_, ?_, ?_⟩
  · intro N s1 F P h1 hF hP
    subst hP
    subst hF
    have hS1 := feedAll_stacked m hg.2.2.1 hg.feats_eq hg.feats_lt hcm N chunks _ s1 h1
      (freshState_stacked m hg.zeros_lt)
    exact Stacked.buffer m _ s1 hg.2.2.1 hg.feats_eq
      (fun g hg => by
        obtain ⟨w1, _, rfl⟩ := List.mem_map.mp hg
        exact hcm w1)
      hS1
  · intro N N1 s1 s2 F P h1 h2 hF hP
    subst hP
    subst hF
    have hS1 := feedAll_stacked m hg.2.2.1 hg.feats_eq hg.feats_lt hcm N chunks _ s1 h1
      (freshState_stacked m hg.zeros_lt)
    obtain ⟨hS2, _⟩ := finishStream_stacked N1 m hg.2.2.1 hg.feats_eq hg.feats_lt
      hcm s1 s2 hS1 h2
    exact Stacked.buffer m _ s2 hg.2.2.1 hg.feats_eq
      (fun g hg => by
        rcases List.mem_append.mp hg with h3 | h3
        · obtain ⟨w1, _, rfl⟩ := List.mem_map.mp h3
          exact hcm w1
        · rw [(List.mem_replicate.mp h3).2, List.length_replicate])
      hS2
  · obtain ⟨N, s1, s2, h1, h2, _⟩ := feedAll_finish_total m hg chunks
    exact ⟨N, s1, s2, h1, h2⟩

/-- Witness for C18 on the scenario model: after the six samples `1 .. 6`, which make two
windows, the MFCC buffer holds the features of these two windows, four values. -/
theorem C18_mfcc_buffer_invariant_witness :
    ∃ s1, feedAll 5 scenarioModel (freshState scenarioModel) [[1, 2, 3], [4, 5, 6]]
        = Res.ok s1 ∧
      Call.windows s1.calls =
        [[1, 2, 3, 4].map sample_to_float, [3, 4, 5, 6].map sample_to_float] ∧
      s1.mfcc_buffer_.length < 6 ∧
      s1.mfcc_buffer_.length = min (1 + 2) (2 * 1) * 2 :=
  ⟨_, rfl, rfl,
    ((C18_mfcc_buffer_invariant scenarioModel (by decide) (fun _ => by simp [scenarioModel])
      { model_ := scenarioModel, state := freshState scenarioModel } rfl
      [[1, 2, 3], [4, 5, 6]]).1 5 _ _ _ rfl rfl rfl).1,
    ((C18_mfcc_buffer_invariant scenarioModel (by decide) (fun _ => by simp [scenarioModel])
      { model_ := scenarioModel, state := freshState scenarioModel } rfl
      [[1, 2, 3], [4, 5, 6]]).1 5 _ _ _ rfl rfl rfl).2.2.2⟩


/-! ### The number of frames in closed form -/

end STT
